import Mathlib

/-!
# Physical page allocator with per-page reference counts (`kernel/kalloc.c`)

A shallow embedding of `kernel/kalloc.c`: the free-list allocator (`kalloc`,
`kfree`, `freerange`, `kinit`), the reference-count table (`incref`, `decref`,
`getref`) and the diagnostics accessor (`freemem_amount`).

Modelling conventions.

* Physical memory is a byte map `Nat → Nat` (address to byte).  The free list
  is intrusive, exactly as in the C code: `kmem.freelist` is an address and the
  leading 8-byte little-endian word of a free page holds the address of the
  next free page (`0` terminates the list).
* `uint64` values are naturals, and every operation that can wrap is written
  with an explicit `% 2^64`.  `int` values are integers, and the conversion of
  a `uint64` to `int` (the return of `pa2index`) and the `int` increment are
  written with the explicit two's-complement wrap `toInt32`.
* `panic` halts the kernel; an operation that can reach it returns a `KResult`
  that records the state at the moment of the halt.
* The spinlocks protect single-threaded critical sections and do not change
  the sequential input/output behaviour modelled here.
* The loop of `freerange` runs on a 64-bit pointer: the sums of its test and of
  its step are taken modulo `2^64`.  The loop is written with a bound on the
  number of tests (`freerangeFuel`), which is never reached in a well-formed
  layout (`freerange_fuel_adequate`).
* `KERNBASE`, `PHYSTOP` (`include/memlayout.h`) and the linker symbol
  `kernel_end` are not part of the sources at hand; they are the fields of the
  parameter `Layout`.
-/

namespace KAlloc

/-! ## Constants and machine arithmetic -/

/-- Bytes per page (`PGSIZE`, `include/riscv.h`); the file header of `kalloc.c`
fixes it: "Allocates whole 4096-byte pages". -/
def PGSIZE : Nat := 4096

/-- Bits of offset within a page (`PGSHIFT`). -/
def PGSHIFT : Nat := 12

/-- Number of values of a `uint64`, `2^64`. -/
def U64 : Nat := 18446744073709551616

/-- Largest value of an `int` (`INT_MAX`). -/
def INT_MAX : Int := 2147483647

/-- Smallest value of an `int` (`INT_MIN`). -/
def INT_MIN : Int := -2147483648

/-- The memory-layout constants used by `kalloc.c`: `KERNBASE` and `PHYSTOP`
from `include/memlayout.h` and the linker symbol `kernel_end` (first address
after the kernel image). -/
structure Layout where
  KERNBASE : Nat
  PHYSTOP : Nat
  kernel_end : Nat

/-- `#define MAX_PAGE_COUNT ((PHYSTOP - KERNBASE) / PGSIZE)`. -/
def MAX_PAGE_COUNT (L : Layout) : Nat := (L.PHYSTOP - L.KERNBASE) / PGSIZE

/-- What the code takes for granted about the layout constants: `KERNBASE` and
`PHYSTOP` are page-aligned, the kernel image lies inside
`[KERNBASE, PHYSTOP]` and ends above address 0, `PHYSTOP` is a 64-bit address,
and the reference-count table can be indexed by an `int`. -/
def Layout.WF (L : Layout) : Prop :=
  L.KERNBASE % PGSIZE = 0 ∧ L.PHYSTOP % PGSIZE = 0 ∧
  L.KERNBASE ≤ L.kernel_end ∧ L.kernel_end ≤ L.PHYSTOP ∧
  0 < L.kernel_end ∧ L.PHYSTOP < U64 ∧ MAX_PAGE_COUNT L ≤ 2147483648

instance (L : Layout) : Decidable L.WF := by
  unfold Layout.WF; infer_instance

/-- Conversion of an integer value to `int`: reduction modulo `2^32` into
`[-2^31, 2^31)` (two's complement; `2^31 = 2147483648`). -/
def toInt32 (n : Int) : Int := (n + 2147483648) % 4294967296 - 2147483648

/-- `PGROUNDUP(sz)`: `((sz) + PGSIZE - 1) & ~(PGSIZE - 1)` on a `uint64`. -/
def PGROUNDUP (sz : Nat) : Nat :=
  let t := (sz + PGSIZE - 1) % U64
  t - t % PGSIZE

/-! ## Physical memory -/

/-- Physical memory: one byte per address. -/
abbrev Mem := Nat → Nat

/-- `memset(dst, c, n)`: the `n` bytes from `dst` on become `(unsigned char) c`. -/
def memset (m : Mem) (dst c n : Nat) : Mem :=
  fun a => if dst ≤ a ∧ a < dst + n then c % 256 else m a

/-- Read of `n` consecutive bytes from `a` on as a little-endian number. -/
def loadBytes (m : Mem) : Nat → Nat → Nat
  | _, 0 => 0
  | a, n + 1 => m a % 256 + 256 * loadBytes m (a + 1) n

/-- Read of the 8-byte word at `a` (`r->next` for `r = a`). -/
def load64 (m : Mem) (a : Nat) : Nat := loadBytes m a 8

/-- Write of the 8-byte word `v` at `a`, little-endian (`r->next = v`). -/
def store64 (m : Mem) (a v : Nat) : Mem :=
  fun b => if a ≤ b ∧ b < a + 8 then v / 256 ^ (b - a) % 256 else m b

/-! ## Allocator state -/

/-- The two global structures of `kalloc.c` together with physical memory:
`kmem.freelist`, `kmem.npage`, `page_ref.ref_count` and the bytes of memory. -/
structure KState where
  freelist : Nat
  npage : Nat
  ref_count : Nat → Int
  mem : Mem

/-- Outcome of an operation that may call `panic`: it returns normally with a
new state, or the kernel halts in the state reached so far. -/
inductive KResult where
  | done (s : KState)
  | panic (s : KState)

/-- Sequencing of an operation after one that may have halted the kernel. -/
def KResult.andThen (r : KResult) (f : KState → KResult) : KResult :=
  match r with
  | .done s => f s
  | .panic s => .panic s

/-! ## Reference-count table -/

/-- `pa2index`: `return (pa - KERNBASE) / PGSIZE;` computed on `uint64` and
converted to the `int` return type. -/
def pa2index (L : Layout) (pa : Nat) : Int :=
  toInt32 (((pa + U64 - L.KERNBASE) % U64 / PGSIZE : Nat) : Int)

/-- The bounds test `idx >= 0 && idx < MAX_PAGE_COUNT`. -/
def idxValid (L : Layout) (idx : Int) : Prop := 0 ≤ idx ∧ idx < (MAX_PAGE_COUNT L : Int)

instance (L : Layout) (idx : Int) : Decidable (idxValid L idx) := by
  unfold idxValid; infer_instance

/-- `incref`: `ref_count[idx]++` when the index passes the bounds test. -/
def incref (L : Layout) (pa : Nat) (s : KState) : KState :=
  let idx := pa2index L pa
  if idxValid L idx then
    { s with ref_count :=
        Function.update s.ref_count idx.toNat (toInt32 (s.ref_count idx.toNat + 1)) }
  else s

/-- `decref`: `ref_count[idx]--` when the index passes the bounds test and the
count is positive (the guard excludes overflow of the decrement). -/
def decref (L : Layout) (pa : Nat) (s : KState) : KState :=
  let idx := pa2index L pa
  if idxValid L idx then
    if s.ref_count idx.toNat > 0 then
      { s with ref_count := Function.update s.ref_count idx.toNat (s.ref_count idx.toNat - 1) }
    else s
  else s

/-- `getref`: the count at the index when it passes the bounds test, else 0.
The state is not modified. -/
def getref (L : Layout) (s : KState) (pa : Nat) : Int :=
  let idx := pa2index L pa
  if idxValid L idx then s.ref_count idx.toNat else 0

/-! ## Free-list allocator -/

/-- The tail of `kfree`, reached when the page is to be reclaimed:
`memset(pa, 1, PGSIZE); r->next = kmem.freelist; kmem.freelist = r; kmem.npage++`. -/
def kfreePush (pa : Nat) (s : KState) : KState :=
  { s with
    mem := store64 (memset s.mem pa 1 PGSIZE) pa s.freelist
    freelist := pa
    npage := (s.npage + 1) % U64 }

/-- `kfree(pa)`. -/
def kfree (L : Layout) (pa : Nat) (s : KState) : KResult :=
  if pa % PGSIZE ≠ 0 ∨ pa < L.kernel_end ∨ pa ≥ L.PHYSTOP then
    .panic s
  else
    let idx := pa2index L pa
    if idxValid L idx then
      let s1 : KState :=
        if s.ref_count idx.toNat > 0 then
          { s with ref_count :=
              Function.update s.ref_count idx.toNat (s.ref_count idx.toNat - 1) }
        else s
      if s1.ref_count idx.toNat > 0 then
        .done s1
      else
        .done (kfreePush pa s1)
    else
      .done (kfreePush pa s)

/-- `kalloc()`: the returned pointer (`0` on failure) and the new state. -/
def kalloc (L : Layout) (s : KState) : Nat × KState :=
  let r := s.freelist
  if r ≠ 0 then
    let s1 : KState :=
      { s with freelist := load64 s.mem r, npage := (s.npage + U64 - 1) % U64 }
    let s2 : KState := { s1 with mem := memset s1.mem r 5 PGSIZE }
    let idx := pa2index L r
    if idxValid L idx then
      (r, { s2 with ref_count := Function.update s2.ref_count idx.toNat 1 })
    else
      (r, s2)
  else
    (r, s)

/-- The loop of `freerange`: `for(; p + PGSIZE <= pa_end; p += PGSIZE) kfree(p);`
on the 64-bit pointer `p`: the sum of the test and the sum of the step are taken
modulo `2^64`.  A `panic` inside `kfree` ends the run.  The first argument
bounds the number of evaluations of the loop test; when it is used up the
outcome is `.panic`, which then stands for a run that does not return. -/
def freerangeLoop (L : Layout) (pa_end : Nat) : Nat → Nat → KState → KResult
  | 0, _, s => .panic s
  | fuel + 1, p, s =>
    if (p + PGSIZE) % U64 ≤ pa_end then
      (kfree L p s).andThen (freerangeLoop L pa_end fuel ((p + PGSIZE) % U64))
    else
      .done s

/-- Bound on the evaluations of the loop test in `freerange`: one more than the
number `2^52` of page-aligned 64-bit addresses.  The pointer of the loop is
page-aligned, and whether the loop ends at a pointer value depends on that value
alone, so a run that has not ended after `2^52` tests never ends. -/
@[irreducible] def freerangeFuel : Nat := U64 / PGSIZE + 1

/-- `freerange(pa_start, pa_end)`. -/
def freerange (L : Layout) (pa_start pa_end : Nat) (s : KState) : KResult :=
  freerangeLoop L pa_end freerangeFuel (PGROUNDUP pa_start) s

/-- The loop `for (int i = 0; i < n; i++) page_ref.ref_count[i] = 0;`. -/
def clearRefs : Nat → (Nat → Int) → (Nat → Int)
  | 0, rc => rc
  | n + 1, rc => Function.update (clearRefs n rc) n 0

/-- `kinit()`. -/
def kinit (L : Layout) (s : KState) : KResult :=
  let s1 : KState :=
    { s with freelist := 0, npage := 0, ref_count := clearRefs (MAX_PAGE_COUNT L) s.ref_count }
  freerange L L.kernel_end L.PHYSTOP s1

/-- `freemem_amount()`: `kmem.npage << PGSHIFT` on a `uint64`. -/
def freemem_amount (s : KState) : Nat := (s.npage * 2 ^ PGSHIFT) % U64

/-! ## Sequences of calls -/

/-- One call of the public interface. -/
inductive Op where
  | kalloc
  | kfree (pa : Nat)
  | incref (pa : Nat)
  | decref (pa : Nat)

/-- Effect of one call on the state (the pointer returned by `kalloc` is dropped). -/
def step (L : Layout) (op : Op) (s : KState) : KResult :=
  match op with
  | .kalloc => .done (kalloc L s).2
  | .kfree pa => kfree L pa s
  | .incref pa => .done (incref L pa s)
  | .decref pa => .done (decref L pa s)

/-- Effect of a finite sequence of calls, stopping at the first `panic`. -/
def runOps (L : Layout) : List Op → KState → KResult
  | [], s => .done s
  | op :: ops, s => (step L op s).andThen (runOps L ops)

/-- States reachable from `kinit` (run on any boot state) by finitely many
calls that return (a `kfree` that panics ends the run); `allowed s op` is the
discipline the caller observes when issuing `op` in state `s`. -/
inductive Reachable (L : Layout) (allowed : KState → Op → Prop) : KState → Prop where
  | init (s0 s : KState) : kinit L s0 = .done s → Reachable L allowed s
  | call (s s' : KState) (op : Op) :
      Reachable L allowed s → allowed s op → step L op s = .done s' → Reachable L allowed s'

/-- No discipline: every call is allowed. -/
def anyCall : KState → Op → Prop := fun _ _ => True

/-- Discipline "no over-sharing": `incref` is not called on a page whose count
is already `INT_MAX`. -/
def noOverflow (L : Layout) : KState → Op → Prop :=
  fun s op => ∀ pa, op = Op.incref pa → getref L s pa < INT_MAX

/-! ## The free list as a list of pages -/

/-- `Chain m h l`: following the `next` words stored in memory `m` from the
pointer `h` visits exactly the addresses of `l`, in order, and then reaches the
null pointer. -/
def Chain (m : Mem) : Nat → List Nat → Prop
  | h, [] => h = 0
  | h, p :: l => h = p ∧ p ≠ 0 ∧ Chain m (load64 m p) l

instance (m : Mem) : (h : Nat) → (l : List Nat) → Decidable (Chain m h l)
  | h, [] => by unfold Chain; infer_instance
  | h, p :: l =>
    have := instDecidableChain m (load64 m p) l
    by unfold Chain; infer_instance

/-- `FreeList s l`: the free list of state `s` is the list of pages `l` (head
first): the chain from `kmem.freelist` visits `l`, and every entry is the
address of a page, that is, a multiple of `PGSIZE`. -/
def FreeList (s : KState) (l : List Nat) : Prop :=
  Chain s.mem s.freelist l ∧ ∀ q ∈ l, q % PGSIZE = 0

/-! ## Concrete data for the closed examples -/

/-- A layout with the shape of the RISC-V ports of this kernel family:
`KERNBASE = 0x80200000`, `PHYSTOP = 0x88000000`, kernel image of 2 MiB. -/
def sampleLayout : Layout :=
  { KERNBASE := 0x80200000, PHYSTOP := 0x88000000, kernel_end := 0x80400000 }

/-- A state with empty free list, all counts 0 and all memory bytes 0. -/
def zeroState : KState :=
  { freelist := 0, npage := 0, ref_count := fun _ => 0, mem := fun _ => 0 }

/-- Whether the operation returned (did not panic). -/
def KResult.isDone : KResult → Bool
  | .done _ => true
  | .panic _ => false

/-- The state carried by an outcome. -/
def KResult.state : KResult → KState
  | .done s => s
  | .panic s => s

instance (s : KState) (l : List Nat) : Decidable (FreeList s l) := by
  unfold FreeList; infer_instance

/-- Two free pages `0x87FFF000 → 0x87FFE000` (the two highest pages of
`sampleLayout`), the head page carrying the count `c`. -/
def twoPages (c : Int) : KState :=
  { freelist := 0x87FFF000
    npage := 2
    ref_count := fun i => if i = 32255 then c else 0
    mem := store64 (fun _ => 0) 0x87FFF000 0x87FFE000 }

/-- A free list with the single entry `p`, all memory 0, and the count `c` in the
first entry of the reference-count table. -/
def headState (p : Nat) (c : Int) : KState :=
  { freelist := p, npage := 1, ref_count := fun i => if i = 0 then c else 0, mem := fun _ => 0 }

/-- Empty free list, the highest page of `sampleLayout` (`0x87FFF000`) allocated
and shared by two owners. -/
def sharedPage : KState :=
  { freelist := 0, npage := 0, ref_count := fun i => if i = 32255 then 2 else 0, mem := fun _ => 0 }

/-- Empty free list, all memory 0, and the count `c` for the first page of the
table (the page at `KERNBASE`). -/
def countState (c : Int) : KState :=
  { freelist := 0, npage := 0, ref_count := fun i => if i = 0 then c else 0, mem := fun _ => 0 }


/-! ## Pages of a range, segments of the free list, `index2pa` -/

/-- `Managed L q`: `q` is the address of a page that `kfree` accepts: a multiple
of `PGSIZE` in `[kernel_end, PHYSTOP)`. -/
def Managed (L : Layout) (q : Nat) : Prop :=
  q % PGSIZE = 0 ∧ L.kernel_end ≤ q ∧ q < L.PHYSTOP

instance (L : Layout) (q : Nat) : Decidable (Managed L q) := by
  unfold Managed; infer_instance

/-- The `n` consecutive page addresses `p, p + PGSIZE, ...`, in ascending order. -/
def pagesFrom : Nat → Nat → List Nat
  | _, 0 => []
  | p, n + 1 => p :: pagesFrom (p + PGSIZE) n

/-- `ChainSeg m h l t`: following the `next` words stored in `m` from the pointer
`h` visits exactly the addresses of `l`, in order, and then arrives at the
pointer `t` (`Chain` is the case `t = 0`). -/
def ChainSeg (m : Mem) : Nat → List Nat → Nat → Prop
  | h, [], t => h = t
  | h, p :: l, t => h = p ∧ p ≠ 0 ∧ ChainSeg m (load64 m p) l t

/-- `index2pa`: `return KERNBASE + index * PGSIZE;` where `index * PGSIZE` is an
`int` product, added to the 64-bit constant `KERNBASE` and returned as `uint64`. -/
def index2pa (L : Layout) (index : Int) : Nat :=
  (((L.KERNBASE : Int) + toInt32 (index * (PGSIZE : Int))) % (U64 : Int)).toNat

/-- `n` successive calls of `kalloc`: the pointers returned, in call order, and
the final state. -/
def kallocN (L : Layout) : Nat → KState → List Nat × KState
  | 0, s => ([], s)
  | n + 1, s => ((kalloc L s).1 :: (kallocN L n (kalloc L s).2).1, (kallocN L n (kalloc L s).2).2)

/-- The statement `memset((char*)pa, 1, PGSIZE)` of `kfree` (fill with junk). -/
def junkFill (pa : Nat) (s : KState) : KState :=
  { s with mem := memset s.mem pa 1 PGSIZE }

/-- Pushing `pa` onto the free list and incrementing `kmem.npage`, as worded in
the refinement statement of `kfree` by `decref`: the statements
`r->next = kmem.freelist; kmem.freelist = r; kmem.npage++` and nothing else (of
the page, only the link word is written). -/
def specPush (pa : Nat) (s : KState) : KState :=
  { s with
    mem := store64 s.mem pa s.freelist
    freelist := pa
    npage := (s.npage + 1) % U64 }

/-- The composite operation that the refinement statement gives for a page of
count 1: `decref(pa)` followed by pushing `pa` onto the free list and
incrementing `kmem.npage`. -/
def specDecrefThenPush (L : Layout) (pa : Nat) (s : KState) : KState :=
  specPush pa (decref L pa s)

/-! ## Caller disciplines -/

/-- Discipline "no double free": `kfree` is not called on a page that is on the
free list. -/
def noDoubleFree : KState → Op → Prop :=
  fun s op => ∀ pa, op = Op.kfree pa → ∀ l, FreeList s l → pa ∉ l

/-- The caller discipline of shared ownership: `kfree` and `incref` only on a
managed page whose count is at least 1, `decref` only on a managed page whose
count is at least 2. -/
def callerDiscipline (L : Layout) : KState → Op → Prop :=
  fun s op =>
    (∀ pa, op = Op.kfree pa → Managed L pa ∧ 1 ≤ getref L s pa) ∧
    (∀ pa, op = Op.incref pa → Managed L pa ∧ 1 ≤ getref L s pa) ∧
    (∀ pa, op = Op.decref pa → Managed L pa ∧ 2 ≤ getref L s pa)

/-- The caller discipline together with "no over-sharing". -/
def boundedDiscipline (L : Layout) : KState → Op → Prop :=
  fun s op => callerDiscipline L s op ∧ noOverflow L s op

/-! ## Lock events -/

/-- The two spinlocks of `kalloc.c`: `kmem.lock` and `page_ref.lock`. -/
inductive Lock where
  | kmem
  | page_ref
  deriving DecidableEq

/-- A call of `acquire` or of `release` on one of the two locks. -/
inductive LockEvent where
  | acquire (l : Lock)
  | release (l : Lock)
  deriving DecidableEq

/-- The lock events of `incref`, in program order. -/
def increfLocks (_L : Layout) (_pa : Nat) (_s : KState) : List LockEvent :=
  [.acquire .page_ref, .release .page_ref]

/-- The lock events of `decref`, in program order. -/
def decrefLocks (_L : Layout) (_pa : Nat) (_s : KState) : List LockEvent :=
  [.acquire .page_ref, .release .page_ref]

/-- The lock events of `getref`, in program order. -/
def getrefLocks (_L : Layout) (_s : KState) (_pa : Nat) : List LockEvent :=
  [.acquire .page_ref, .release .page_ref]

/-- The lock events of `kfree`, in program order, along the path taken: none
before the `panic`; `page_ref.lock` alone on the early return; `page_ref.lock`
and then `kmem.lock` when the page is reclaimed. -/
def kfreeLocks (L : Layout) (pa : Nat) (s : KState) : List LockEvent :=
  if pa % PGSIZE ≠ 0 ∨ pa < L.kernel_end ∨ pa ≥ L.PHYSTOP then
    []
  else
    let idx := pa2index L pa
    if idxValid L idx then
      let c : Int := if s.ref_count idx.toNat > 0 then s.ref_count idx.toNat - 1
        else s.ref_count idx.toNat
      if c > 0 then
        [.acquire .page_ref, .release .page_ref]
      else
        [.acquire .page_ref, .release .page_ref, .acquire .kmem, .release .kmem]
    else
      [.acquire .page_ref, .release .page_ref, .acquire .kmem, .release .kmem]

/-- The lock events of `kalloc`, in program order, along the path taken. -/
def kallocLocks (_L : Layout) (s : KState) : List LockEvent :=
  if s.freelist ≠ 0 then
    [.acquire .kmem, .release .kmem, .acquire .page_ref, .release .page_ref]
  else
    [.acquire .kmem, .release .kmem]

/-- The lock events of `freemem_amount`: it calls neither `acquire` nor `release`. -/
def freemem_amountLocks (_s : KState) : List LockEvent := []

/-- Effect of one lock event on the lock held by the running call (`none`: no
lock held); the result is `none` when the event breaks the discipline: an
`acquire` while a lock is held, or a `release` of a lock that is not held. -/
def lockStep (held : Option Lock) : LockEvent → Option (Option Lock)
  | .acquire l => if held = none then some (some l) else none
  | .release l => if held = some l then some none else none

/-- Replay of a sequence of lock events from the lock state `held`. -/
def lockRun : Option Lock → List LockEvent → Option (Option Lock)
  | held, [] => some held
  | held, e :: es =>
    match lockStep held e with
    | some h => lockRun h es
    | none => none

/-- A call keeps the lock discipline when the replay of its events from "no
lock held" never breaks the discipline and ends with no lock held. -/
def LockDisciplined (t : List LockEvent) : Prop := lockRun none t = some none

instance (t : List LockEvent) : Decidable (LockDisciplined t) := by
  unfold LockDisciplined; infer_instance

/-! ## More concrete data for the closed examples -/

/-- A layout with 4 GiB of memory above `KERNBASE = 0x80000000`. -/
def bigLayout : Layout :=
  { KERNBASE := 0x80000000, PHYSTOP := 0x180000000, kernel_end := 0x80200000 }

/-- A layout with 16 TiB of memory above `KERNBASE = 0x80000000`
(`MAX_PAGE_COUNT = 2^32`). -/
def hugeLayout : Layout :=
  { KERNBASE := 0x80000000, PHYSTOP := 0x100080000000, kernel_end := 0x80200000 }

/-- A layout whose memory ends at the last page boundary of the 64-bit address
space, `PHYSTOP = 2^64 - PGSIZE`, with three pages above the kernel image:
`0xFFFFFFFFFFFFC000`, `0xFFFFFFFFFFFFD000` and `0xFFFFFFFFFFFFE000`. -/
def topLayout : Layout :=
  { KERNBASE := 0xFFFFFFFFF8000000, PHYSTOP := 0xFFFFFFFFFFFFF000,
    kernel_end := 0xFFFFFFFFFFFFC000 }

/-- Empty free list, the highest page of `sampleLayout` (`0x87FFF000`) with the
count `c`; all memory bytes are 0. -/
def onePage (c : Int) : KState :=
  { freelist := 0, npage := 0, ref_count := fun i => if i = 32255 then c else 0, mem := fun _ => 0 }

/-! ## Invariants of the pool -/

/-- `PoolInv L s l`: the free list of `s` is the list `l` of managed pages, and
`kmem.npage` is its length. -/
def PoolInv (L : Layout) (s : KState) (l : List Nat) : Prop :=
  FreeList s l ∧ (∀ q ∈ l, Managed L q) ∧ s.npage = l.length

/-- `CountInv L s l`: the pages of `l` have count 0 and every other managed page
has a count of at least 1. -/
def CountInv (L : Layout) (s : KState) (l : List Nat) : Prop :=
  (∀ q ∈ l, getref L s q = 0) ∧ ∀ q, Managed L q → q ∉ l → 1 ≤ getref L s q
/-! ## Memory lemmas -/

theorem load64_eq (m : Mem) (a : Nat) :
    load64 m a = m a % 256 + 256 * (m (a + 1) % 256 + 256 * (m (a + 2) % 256 +
      256 * (m (a + 3) % 256 + 256 * (m (a + 4) % 256 + 256 * (m (a + 5) % 256 +
      256 * (m (a + 6) % 256 + 256 * (m (a + 7) % 256))))))) := by
  simp [load64, loadBytes, Nat.add_assoc]

theorem load64_lt (m : Mem) (a : Nat) : load64 m a < U64 := by
  rw [load64_eq]; unfold U64; omega

theorem load64_congr (m m' : Mem) (a : Nat) (h : ∀ b, a ≤ b → b < a + 8 → m' b = m b) :
    load64 m' a = load64 m a := by
  rw [load64_eq, load64_eq]
  rw [h a (by omega) (by omega), h (a + 1) (by omega) (by omega),
    h (a + 2) (by omega) (by omega), h (a + 3) (by omega) (by omega),
    h (a + 4) (by omega) (by omega), h (a + 5) (by omega) (by omega),
    h (a + 6) (by omega) (by omega), h (a + 7) (by omega) (by omega)]

theorem load64_store64 (m : Mem) (a v : Nat) : load64 (store64 m a v) a = v % U64 := by
  rw [load64_eq]
  simp [store64, U64]
  omega

theorem memset_outside (m : Mem) (dst c n b : Nat) (h : b < dst ∨ dst + n ≤ b) :
    memset m dst c n b = m b := by
  unfold memset
  rw [if_neg]
  omega

theorem memset_inside (m : Mem) (dst c n b : Nat) (h1 : dst ≤ b) (h2 : b < dst + n) :
    memset m dst c n b = c % 256 := by
  unfold memset
  rw [if_pos ⟨h1, h2⟩]

theorem store64_outside (m : Mem) (a v b : Nat) (h : b < a ∨ a + 8 ≤ b) :
    store64 m a v b = m b := by
  unfold store64
  rw [if_neg]
  omega

/-- Two distinct page addresses: the link word of one lies outside the other page. -/
theorem page_disjoint (p q : Nat) (hp : p % PGSIZE = 0) (hq : q % PGSIZE = 0) (hne : q ≠ p) :
    q + 8 ≤ p ∨ p + PGSIZE ≤ q := by
  unfold PGSIZE at *
  omega

/-! ## Index lemmas -/

theorem toInt32_of_lt (n : Nat) (h : n < 2147483648) : toInt32 (n : Int) = (n : Int) := by
  unfold toInt32
  omega

/-- For an address inside `[KERNBASE, PHYSTOP)` the index is the page number
relative to `KERNBASE`, not truncated, and passes the bounds test. -/
theorem pa2index_inrange (L : Layout) (hL : L.WF) (pa : Nat)
    (h1 : L.KERNBASE ≤ pa) (h2 : pa < L.PHYSTOP) :
    pa2index L pa = (((pa - L.KERNBASE) / PGSIZE : Nat) : Int) ∧
      (pa - L.KERNBASE) / PGSIZE < MAX_PAGE_COUNT L := by
  obtain ⟨hk, hp, _, _, _, hu, hm⟩ := hL
  unfold MAX_PAGE_COUNT PGSIZE U64 at *
  have hlt : (pa - L.KERNBASE) / 4096 < (L.PHYSTOP - L.KERNBASE) / 4096 := by omega
  refine ⟨?_, hlt⟩
  unfold pa2index PGSIZE U64
  have e : (pa + 18446744073709551616 - L.KERNBASE) % 18446744073709551616 = pa - L.KERNBASE := by
    omega
  rw [e]
  exact toInt32_of_lt _ (by omega)

theorem idxValid_inrange (L : Layout) (hL : L.WF) (pa : Nat)
    (h1 : L.KERNBASE ≤ pa) (h2 : pa < L.PHYSTOP) : idxValid L (pa2index L pa) := by
  obtain ⟨e, hlt⟩ := pa2index_inrange L hL pa h1 h2
  rw [e]
  unfold idxValid
  constructor
  · exact Int.ofNat_nonneg _
  · exact_mod_cast hlt

theorem toNat_pa2index (L : Layout) (hL : L.WF) (pa : Nat)
    (h1 : L.KERNBASE ≤ pa) (h2 : pa < L.PHYSTOP) :
    (pa2index L pa).toNat = (pa - L.KERNBASE) / PGSIZE := by
  rw [(pa2index_inrange L hL pa h1 h2).1]
  exact Int.toNat_natCast _

theorem getref_inrange (L : Layout) (hL : L.WF) (s : KState) (pa : Nat)
    (h1 : L.KERNBASE ≤ pa) (h2 : pa < L.PHYSTOP) :
    getref L s pa = s.ref_count ((pa - L.KERNBASE) / PGSIZE) := by
  unfold getref
  simp only [if_pos (idxValid_inrange L hL pa h1 h2), toNat_pa2index L hL pa h1 h2]

/-! ## Free-list lemmas -/

theorem chain_congr (m m' : Mem) :
    ∀ (l : List Nat) (h : Nat), (∀ q ∈ l, load64 m' q = load64 m q) → Chain m h l → Chain m' h l
  | [], _, _, hc => hc
  | p :: l, h, hq, hc => by
    unfold Chain at hc ⊢
    obtain ⟨e, hp, hc⟩ := hc
    refine ⟨e, hp, ?_⟩
    rw [hq p (List.mem_cons_self _ _)]
    exact chain_congr m m' l _ (fun q hql => hq q (List.mem_cons_of_mem _ hql)) hc

theorem chain_unique (m : Mem) :
    ∀ (l1 l2 : List Nat) (h : Nat), Chain m h l1 → Chain m h l2 → l1 = l2
  | [], [], _, _, _ => rfl
  | [], q :: l2, h, h1, h2 => by
    unfold Chain at h1 h2
    exact absurd (h2.1 ▸ h1) h2.2.1
  | p :: l1, [], h, h1, h2 => by
    unfold Chain at h1 h2
    exact absurd (h1.1 ▸ h2) h1.2.1
  | p :: l1, q :: l2, h, h1, h2 => by
    unfold Chain at h1 h2
    obtain ⟨e1, _, c1⟩ := h1
    obtain ⟨e2, _, c2⟩ := h2
    have e : p = q := e1.symm.trans e2
    subst e
    rw [chain_unique m l1 l2 _ c1 c2]

theorem chain_suffix (m : Mem) :
    ∀ (a : List Nat) (h p : Nat) (b : List Nat), Chain m h (a ++ p :: b) → Chain m p (p :: b)
  | [], h, p, b, hc => by
    simp only [List.nil_append] at hc
    unfold Chain at hc ⊢
    exact ⟨rfl, hc.2.1, hc.2.2⟩
  | x :: a, h, p, b, hc => by
    simp only [List.cons_append] at hc
    unfold Chain at hc
    exact chain_suffix m a _ p b hc.2.2

/-- A chain that reaches the null pointer visits no address twice: its head does
not occur again in its tail. -/
theorem chain_head_not_mem (m : Mem) (p : Nat) (rest : List Nat) (hc : Chain m p (p :: rest)) :
    p ∉ rest := by
  intro hmem
  obtain ⟨a, b, e⟩ := List.append_of_mem hmem
  have hc' := hc
  unfold Chain at hc'
  have h2 : Chain m p (p :: b) := chain_suffix m a _ p b (e ▸ hc'.2.2)
  have e2 : p :: rest = p :: b := chain_unique m _ _ p hc h2
  have e3 : rest = b := List.tail_eq_of_cons_eq e2
  have hl := congrArg List.length e
  rw [e3] at hl
  simp only [List.length_append, List.length_cons] at hl
  omega

/-! ## `kalloc` and `kfree` in closed form -/

/-- `kalloc` on a non-empty free list whose head lies in the table's range. -/
theorem kalloc_eq (L : Layout) (hL : L.WF) (s : KState) (hne : s.freelist ≠ 0)
    (h1 : L.KERNBASE ≤ s.freelist) (h2 : s.freelist < L.PHYSTOP) :
    kalloc L s = (s.freelist,
      { freelist := load64 s.mem s.freelist
        npage := (s.npage + U64 - 1) % U64
        ref_count := Function.update s.ref_count ((s.freelist - L.KERNBASE) / PGSIZE) 1
        mem := memset s.mem s.freelist 5 PGSIZE }) := by
  unfold kalloc
  simp only [if_pos hne, if_pos (idxValid_inrange L hL _ h1 h2), toNat_pa2index L hL _ h1 h2]

/-- `kalloc` on an empty free list. -/
theorem kalloc_empty (L : Layout) (s : KState) (h : s.freelist = 0) : kalloc L s = (0, s) := by
  unfold kalloc
  simp [h]

/-- The pointer returned by `kalloc` is the head of the free list. -/
theorem kalloc_fst (L : Layout) (s : KState) : (kalloc L s).1 = s.freelist := by
  unfold kalloc
  simp only
  split
  · split <;> rfl
  · rfl

/-- Memory untouched on the link words of a list of pages other than `p` when
the page `p` is filled. -/
theorem chain_memset_page (m : Mem) (p c h : Nat) (l : List Nat) (hp : p % PGSIZE = 0)
    (hl : ∀ q ∈ l, q % PGSIZE = 0) (hnot : p ∉ l) (hc : Chain m h l) :
    Chain (memset m p c PGSIZE) h l := by
  refine chain_congr m _ l h (fun q hq => ?_) hc
  have hne : q ≠ p := fun e => hnot (e ▸ hq)
  have hd := page_disjoint p q hp (hl q hq) hne
  refine load64_congr _ _ q (fun b hb1 hb2 => memset_outside _ _ _ _ _ ?_)
  omega

/-- Pushing the page `p`, not on the list, in front of a list of pages. -/
theorem chain_push (m : Mem) (p h : Nat) (l : List Nat) (hp : p % PGSIZE = 0) (hp0 : p ≠ 0)
    (hh : h < U64) (hl : ∀ q ∈ l, q % PGSIZE = 0) (hnot : p ∉ l) (hc : Chain m h l) :
    Chain (store64 (memset m p 1 PGSIZE) p h) p (p :: l) := by
  unfold Chain
  refine ⟨rfl, hp0, ?_⟩
  rw [load64_store64, Nat.mod_eq_of_lt hh]
  refine chain_congr (memset m p 1 PGSIZE) _ l h (fun q hq => ?_)
    (chain_memset_page m p 1 h l hp hl hnot hc)
  have hne : q ≠ p := fun e => hnot (e ▸ hq)
  have hd := page_disjoint p q hp (hl q hq) hne
  refine load64_congr _ _ q (fun b hb1 hb2 => store64_outside _ _ _ _ ?_)
  unfold PGSIZE at hd
  omega

/-! ## C1: `kalloc` pops the head of the free list -/

/-- C1 (kalloc pops the head): in a state whose free list is the list of pages
`p :: rest` with `p` in `[kernel_end, PHYSTOP)`, `kalloc` returns `p`; the free
list becomes `rest` (same entries, same order); `kmem.npage` is decremented by
one as a `uint64` (exactly one less whenever it was a non-zero `uint64`);
afterwards `getref p = 1` whatever the count was before; and no other entry of
the reference-count table changes, so `getref` is unchanged at every address of
the table's range outside the page `p`. -/
theorem kalloc_pops_head (L : Layout) (hL : L.WF) (s : KState) (p : Nat) (rest : List Nat)
    (hfl : FreeList s (p :: rest)) (hlo : L.kernel_end ≤ p) (hhi : p < L.PHYSTOP) :
    (kalloc L s).1 = p ∧
    FreeList (kalloc L s).2 rest ∧
    (kalloc L s).2.npage = (s.npage + U64 - 1) % U64 ∧
    (0 < s.npage → s.npage < U64 → (kalloc L s).2.npage + 1 = s.npage) ∧
    getref L (kalloc L s).2 p = 1 ∧
    (∀ i, i ≠ (p - L.KERNBASE) / PGSIZE → (kalloc L s).2.ref_count i = s.ref_count i) ∧
    (∀ q, L.KERNBASE ≤ q → q < L.PHYSTOP → (q < p ∨ p + PGSIZE ≤ q) →
      getref L (kalloc L s).2 q = getref L s q) := by
  obtain ⟨hc, hal⟩ := hfl
  have hc' := hc
  unfold Chain at hc'
  obtain ⟨hhead, hp0, hrest⟩ := hc'
  have hkb : L.KERNBASE ≤ p := le_trans hL.2.2.1 hlo
  have hpal : p % PGSIZE = 0 := hal p (List.mem_cons_self _ _)
  have hnot : p ∉ rest := chain_head_not_mem s.mem p rest (hhead ▸ hc)
  have hrest_al : ∀ q ∈ rest, q % PGSIZE = 0 := fun q hq => hal q (List.mem_cons_of_mem _ hq)
  rw [kalloc_eq L hL s (hhead ▸ hp0) (hhead ▸ hkb) (hhead ▸ hhi), hhead]
  refine ⟨rfl, ⟨?_, hrest_al⟩, rfl, ?_, ?_, ?_, ?_⟩
  · exact chain_memset_page s.mem p 5 _ rest hpal hrest_al hnot hrest
  · intro h0 h1
    show (s.npage + U64 - 1) % U64 + 1 = s.npage
    unfold U64 at *
    omega
  · rw [getref_inrange L hL _ p hkb hhi]
    exact Function.update_same _ _ _
  · intro i hi
    exact Function.update_noteq hi _ _
  · intro q hq1 hq2 hq3
    rw [getref_inrange L hL _ q hq1 hq2, getref_inrange L hL _ q hq1 hq2]
    refine Function.update_noteq ?_ _ _
    have hk := hL.1
    unfold PGSIZE at *
    omega

/-- C1 at a concrete state: two free pages, the head with a stale count of 7. -/
theorem kalloc_pops_head_witness :
    getref sampleLayout (twoPages 7) 0x87FFF000 = 7 ∧
    (kalloc sampleLayout (twoPages 7)).1 = 0x87FFF000 ∧
    FreeList (kalloc sampleLayout (twoPages 7)).2 [0x87FFE000] ∧
    (kalloc sampleLayout (twoPages 7)).2.npage + 1 = 2 ∧
    getref sampleLayout (kalloc sampleLayout (twoPages 7)).2 0x87FFF000 = 1 :=
  have h := kalloc_pops_head sampleLayout (by decide) (twoPages 7) 0x87FFF000 [0x87FFE000]
    (by decide) (by decide) (by decide)
  ⟨by decide, h.1, h.2.1, h.2.2.2.1 (by decide) (by decide), h.2.2.2.2.1⟩

/-! ## C2: shared-page retention -/

/-- `kfree` on an accepted address, by the count `c` of its page: `c > 1` only
lowers the count; `c = 1` lowers it to 0 and reclaims the page; `c ≤ 0`
reclaims the page and leaves the count. -/
theorem kfree_eq (L : Layout) (hL : L.WF) (s : KState) (pa : Nat) (hal : pa % PGSIZE = 0)
    (hlo : L.kernel_end ≤ pa) (hhi : pa < L.PHYSTOP) :
    kfree L pa s =
      if 1 < s.ref_count ((pa - L.KERNBASE) / PGSIZE) then
        .done { s with ref_count := (Function.update s.ref_count ((pa - L.KERNBASE) / PGSIZE)
                  (s.ref_count ((pa - L.KERNBASE) / PGSIZE) - 1)) }
      else if s.ref_count ((pa - L.KERNBASE) / PGSIZE) = 1 then
        .done (kfreePush pa
          { s with ref_count := Function.update s.ref_count ((pa - L.KERNBASE) / PGSIZE) 0 })
      else
        .done (kfreePush pa s) := by
  have hkb : L.KERNBASE ≤ pa := le_trans hL.2.2.1 hlo
  have hg : ¬ (pa % PGSIZE ≠ 0 ∨ pa < L.kernel_end ∨ pa ≥ L.PHYSTOP) := by
    intro h
    rcases h with h | h | h
    · exact h hal
    · exact absurd hlo (Nat.not_le.mpr h)
    · exact absurd hhi (Nat.not_lt.mpr h)
  unfold kfree
  simp only [if_neg hg, if_pos (idxValid_inrange L hL pa hkb hhi), toNat_pa2index L hL pa hkb hhi]
  by_cases h1 : 1 < s.ref_count ((pa - L.KERNBASE) / PGSIZE)
  · have hpos : s.ref_count ((pa - L.KERNBASE) / PGSIZE) > 0 := by omega
    have hpos' : s.ref_count ((pa - L.KERNBASE) / PGSIZE) - 1 > 0 := by omega
    simp only [if_pos hpos, if_pos h1, Function.update_same, if_pos hpos']
  · by_cases h2 : s.ref_count ((pa - L.KERNBASE) / PGSIZE) = 1
    · have hpos : s.ref_count ((pa - L.KERNBASE) / PGSIZE) > 0 := by omega
      simp only [if_pos hpos, if_neg h1, if_pos h2, Function.update_same]
      have hz : ¬ s.ref_count ((pa - L.KERNBASE) / PGSIZE) - 1 > 0 := by omega
      rw [if_neg hz, h2]
      rfl
    · have hpos : ¬ s.ref_count ((pa - L.KERNBASE) / PGSIZE) > 0 := by omega
      simp only [if_neg hpos, if_neg h1, if_neg h2]

/-- C2 (shared-page retention): for a page-aligned `p` in `[kernel_end, PHYSTOP)`
with `getref p = 2`, a first `kfree p` returns with `getref p = 1` and leaves
`kmem.freelist`, memory (hence the free list) and `kmem.npage` as they were, so
that on an empty free list the next `kalloc` still returns 0; a second `kfree p`
returns with `getref p = 0`, `p` is the head of the free list with the former
head as its link (the free list is `p :: l` when it was the list of pages `l`
without `p`), `kmem.npage` is incremented by one as a `uint64`, and the next
`kalloc` returns `p`. -/
theorem kfree_shared_retention (L : Layout) (hL : L.WF) (s : KState) (p : Nat)
    (hal : p % PGSIZE = 0) (hlo : L.kernel_end ≤ p) (hhi : p < L.PHYSTOP)
    (h2 : getref L s p = 2) :
    ∃ s1 s2, kfree L p s = .done s1 ∧ getref L s1 p = 1 ∧
      s1.freelist = s.freelist ∧ s1.mem = s.mem ∧ s1.npage = s.npage ∧
      (s.freelist = 0 → (kalloc L s1).1 = 0) ∧
      kfree L p s1 = .done s2 ∧ getref L s2 p = 0 ∧
      s2.freelist = p ∧ load64 s2.mem p = s.freelist % U64 ∧
      (∀ l, s.freelist < U64 → FreeList s l → p ∉ l → FreeList s2 (p :: l)) ∧
      s2.npage = (s.npage + 1) % U64 ∧ (s.npage + 1 < U64 → s2.npage = s.npage + 1) ∧
      (kalloc L s2).1 = p := by
  have hkb : L.KERNBASE ≤ p := le_trans hL.2.2.1 hlo
  have hp0 : p ≠ 0 := by have := hL.2.2.2.2.1; omega
  rw [getref_inrange L hL s p hkb hhi] at h2
  refine ⟨{ s with ref_count := Function.update s.ref_count ((p - L.KERNBASE) / PGSIZE) 1 },
    kfreePush p { s with ref_count := Function.update s.ref_count ((p - L.KERNBASE) / PGSIZE) 0 },
    ?_, ?_, rfl, rfl, rfl, ?_, ?_, ?_, rfl, ?_, ?_, rfl, ?_, ?_⟩
  · rw [kfree_eq L hL s p hal hlo hhi, if_pos (by omega), h2]
    rfl
  · rw [getref_inrange L hL _ p hkb hhi]
    exact Function.update_same _ _ _
  · intro h0
    rw [kalloc_fst]
    exact h0
  · rw [kfree_eq L hL _ p hal hlo hhi]
    simp only [Function.update_same, Function.update_idem]
    simp
  · rw [getref_inrange L hL _ p hkb hhi]
    exact Function.update_same _ _ _
  · exact load64_store64 _ _ _
  · intro l hlt hfl hnot
    exact ⟨chain_push s.mem p s.freelist l hal hp0 hlt hfl.2 hnot hfl.1, fun q hq => by
      rcases List.mem_cons.mp hq with e | hq
      · exact e ▸ hal
      · exact hfl.2 q hq⟩
  · intro hlt
    exact Nat.mod_eq_of_lt hlt
  · rw [kalloc_fst]
    rfl

/-- C2 at a concrete state: the highest page shared by two owners, free list empty. -/
theorem kfree_shared_retention_witness :
    ∃ s1 s2, kfree sampleLayout 0x87FFF000 sharedPage = .done s1 ∧
      getref sampleLayout s1 0x87FFF000 = 1 ∧ (kalloc sampleLayout s1).1 = 0 ∧
      kfree sampleLayout 0x87FFF000 s1 = .done s2 ∧
      getref sampleLayout s2 0x87FFF000 = 0 ∧ (kalloc sampleLayout s2).1 = 0x87FFF000 :=
  (kfree_shared_retention sampleLayout (by decide) sharedPage 0x87FFF000
    (by decide) (by decide) (by decide) (by decide)).elim fun s1 h1 =>
      h1.elim fun s2 h => ⟨s1, s2, h.1, h.2.1, h.2.2.2.2.2.1 (by decide), h.2.2.2.2.2.2.1,
        h.2.2.2.2.2.2.2.1, h.2.2.2.2.2.2.2.2.2.2.2.2.2⟩

/-! ## C3: alloc/free round trip -/

/-- C3 fails as stated (no restriction on the head): a free list whose head
`0x80200000` is a page of the kernel image (below `kernel_end`) with count 0;
`kalloc` returns it with count 1, and the following `kfree` of it panics. -/
theorem kalloc_kfree_roundtrip_counterexample :
    FreeList (headState 0x80200000 0) [0x80200000] ∧
    getref sampleLayout (headState 0x80200000 0) 0x80200000 = 0 ∧
    (kalloc sampleLayout (headState 0x80200000 0)).1 = 0x80200000 ∧
    getref sampleLayout (kalloc sampleLayout (headState 0x80200000 0)).2 0x80200000 = 1 ∧
    (kfree sampleLayout 0x80200000 (kalloc sampleLayout (headState 0x80200000 0)).2).isDone
      = false := by
  decide

/-- C3, amended (alloc/free round trip, LIFO reuse): in a state whose free list
is the list of pages `p :: rest`, with `p` in `[kernel_end, PHYSTOP)` and
`getref p = 0` (and `kmem.npage` a `uint64`), `kalloc` returns `p` with
`getref p = 1`; the following `kfree p` returns (no panic) in a state whose
free list is again `p :: rest`, with `kmem.freelist`, `kmem.npage` and the whole
reference-count table as before the `kalloc`; and a further `kalloc` returns
`p` again. -/
theorem kalloc_kfree_roundtrip (L : Layout) (hL : L.WF) (s : KState) (p : Nat)
    (rest : List Nat) (hfl : FreeList s (p :: rest)) (hlo : L.kernel_end ≤ p)
    (hhi : p < L.PHYSTOP) (h0 : getref L s p = 0) (hn : s.npage < U64) :
    (kalloc L s).1 = p ∧ getref L (kalloc L s).2 p = 1 ∧
    ∃ s2, kfree L p (kalloc L s).2 = .done s2 ∧ FreeList s2 (p :: rest) ∧
      s2.freelist = s.freelist ∧ s2.npage = s.npage ∧ s2.ref_count = s.ref_count ∧
      (kalloc L s2).1 = p := by
  obtain ⟨hc, hal⟩ := hfl
  have hc' := hc
  unfold Chain at hc'
  obtain ⟨hhead, hp0, hrest⟩ := hc'
  have hkb : L.KERNBASE ≤ p := le_trans hL.2.2.1 hlo
  have hpal : p % PGSIZE = 0 := hal p (List.mem_cons_self _ _)
  have hnot : p ∉ rest := chain_head_not_mem s.mem p rest (hhead ▸ hc)
  have hrest_al : ∀ q ∈ rest, q % PGSIZE = 0 := fun q hq => hal q (List.mem_cons_of_mem _ hq)
  rw [getref_inrange L hL s p hkb hhi] at h0
  rw [kalloc_eq L hL s (hhead ▸ hp0) (hhead ▸ hkb) (hhead ▸ hhi), hhead]
  refine ⟨rfl, ?_, ?_⟩
  · rw [getref_inrange L hL _ p hkb hhi]
    exact Function.update_same _ _ _
  · rw [kfree_eq L hL _ p hpal hlo hhi]
    simp only [Function.update_same, Function.update_idem, lt_irrefl, if_false, if_true]
    refine ⟨_, rfl, ⟨?_, hal⟩, rfl, ?_, ?_, ?_⟩
    · exact chain_push _ p _ rest hpal hp0 (load64_lt _ _) hrest_al hnot
        (chain_memset_page s.mem p 5 _ rest hpal hrest_al hnot hrest)
    · show ((s.npage + U64 - 1) % U64 + 1) % U64 = s.npage
      unfold U64 at *
      omega
    · show Function.update s.ref_count ((p - L.KERNBASE) / PGSIZE) 0 = s.ref_count
      rw [← h0]
      exact Function.update_eq_self _ _
    · rw [kalloc_fst]
      rfl

/-- C3 (amended) at a concrete state: two free pages with count 0. -/
theorem kalloc_kfree_roundtrip_witness :
    (kalloc sampleLayout (twoPages 0)).1 = 0x87FFF000 ∧
    ∃ s2, kfree sampleLayout 0x87FFF000 (kalloc sampleLayout (twoPages 0)).2 = .done s2 ∧
      FreeList s2 [0x87FFF000, 0x87FFE000] ∧ s2.npage = 2 :=
  have h := kalloc_kfree_roundtrip sampleLayout (by decide) (twoPages 0) 0x87FFF000 [0x87FFE000]
    (by decide) (by decide) (by decide) (by decide) (by decide)
  ⟨h.1, h.2.2.elim fun s2 h2 => ⟨s2, h2.1, h2.2.1, h2.2.2.2.1⟩⟩

/-! ## C4: boundary rejection -/

/-- An address that passes the entry test of `kfree` makes it return. -/
theorem kfree_done_of_accepted (L : Layout) (pa : Nat) (s : KState)
    (hg : ¬ (pa % PGSIZE ≠ 0 ∨ pa < L.kernel_end ∨ pa ≥ L.PHYSTOP)) :
    ∃ t, kfree L pa s = KResult.done t := by
  unfold kfree
  rw [if_neg hg]
  dsimp only
  split_ifs <;> exact ⟨_, rfl⟩

/-- C4 (boundary rejection): `kfree pa` takes the `panic` path exactly when `pa`
is not a multiple of `PGSIZE`, or `pa < kernel_end`, or `pa >= PHYSTOP`; and the
state in which the kernel halts is the state before the call (nothing was
updated). -/
theorem kfree_panics_iff (L : Layout) (pa : Nat) (s : KState) :
    ((∃ t, kfree L pa s = KResult.panic t) ↔
      (pa % PGSIZE ≠ 0 ∨ pa < L.kernel_end ∨ pa ≥ L.PHYSTOP)) ∧
    (∀ t, kfree L pa s = KResult.panic t → t = s) := by
  by_cases hg : pa % PGSIZE ≠ 0 ∨ pa < L.kernel_end ∨ pa ≥ L.PHYSTOP
  · have e : kfree L pa s = KResult.panic s := by
      unfold kfree
      rw [if_pos hg]
    rw [e]
    refine ⟨⟨fun _ => hg, fun _ => ⟨s, rfl⟩⟩, ?_⟩
    intro t ht
    injection ht with e'
    exact e'.symm
  · obtain ⟨u, hu⟩ := kfree_done_of_accepted L pa s hg
    rw [hu]
    refine ⟨⟨?_, fun h => absurd h hg⟩, ?_⟩
    · rintro ⟨t, ht⟩
      cases ht
    · intro t ht
      cases ht

/-- C4 at a concrete input: a misaligned address makes `kfree` panic in the unchanged state. -/
theorem kfree_panics_iff_witness :
    (∃ t, kfree sampleLayout 0x87FFF008 (twoPages 0) = KResult.panic t) ∧
    (∀ t, kfree sampleLayout 0x87FFF008 (twoPages 0) = KResult.panic t → t = twoPages 0) :=
  ⟨(kfree_panics_iff sampleLayout 0x87FFF008 (twoPages 0)).1.mpr (by decide),
    (kfree_panics_iff sampleLayout 0x87FFF008 (twoPages 0)).2⟩

/-! ## C5: out of memory -/

/-- C5 (out of memory is recoverable and leaves no trace): `kalloc`, which has
no `panic` path at all, returns 0 exactly when the free list is empty, and then
the state (free list, `kmem.npage`, every count, memory) is unchanged. -/
theorem kalloc_fails_iff_empty (L : Layout) (s : KState) :
    ((kalloc L s).1 = 0 ↔ FreeList s []) ∧ (FreeList s [] → (kalloc L s).2 = s) := by
  have hiff : FreeList s [] ↔ s.freelist = 0 := by
    unfold FreeList Chain
    simp
  rw [hiff, kalloc_fst]
  refine ⟨Iff.rfl, fun h => ?_⟩
  rw [kalloc_empty L s h]

/-- C5 at a concrete state: the empty pool. -/
theorem kalloc_fails_iff_empty_witness :
    (kalloc sampleLayout zeroState).1 = 0 ∧ (kalloc sampleLayout zeroState).2 = zeroState :=
  ⟨(kalloc_fails_iff_empty sampleLayout zeroState).1.mpr (by decide),
    (kalloc_fails_iff_empty sampleLayout zeroState).2 (by decide)⟩

/-! ## C6, C7: addresses outside the table -/

/-- C6, the code at the failing input: the address `0x100080200000`
(`KERNBASE + 2^44`) is a 64-bit address outside `[KERNBASE, PHYSTOP)`, yet its
index `2^32` is truncated to the `int` 0 by `pa2index`, passes the bounds test,
and `getref` returns the count of the page at `KERNBASE` (here 2, not 0). -/
theorem getref_out_of_range_alias :
    0x100080200000 < U64 ∧
    ¬ (sampleLayout.KERNBASE ≤ 0x100080200000 ∧ 0x100080200000 < sampleLayout.PHYSTOP) ∧
    pa2index sampleLayout 0x100080200000 = 0 ∧
    getref sampleLayout (countState 2) 0x80200000 = 2 ∧
    getref sampleLayout (countState 2) 0x100080200000 = 2 := by
  decide

/-- C7, the code at the failing input: for the 64-bit address `0x100080200000`
(`KERNBASE + 2^44`), outside `[KERNBASE, PHYSTOP)`, `incref` raises and `decref`
lowers the count of the page at `KERNBASE` (from 2 to 3, and from 2 to 1). -/
theorem incref_decref_out_of_range_alias :
    0x100080200000 < U64 ∧
    ¬ (sampleLayout.KERNBASE ≤ 0x100080200000 ∧ 0x100080200000 < sampleLayout.PHYSTOP) ∧
    getref sampleLayout (countState 2) 0x80200000 = 2 ∧
    getref sampleLayout (incref sampleLayout 0x100080200000 (countState 2)) 0x80200000 = 3 ∧
    getref sampleLayout (decref sampleLayout 0x100080200000 (countState 2)) 0x80200000 = 1 := by
  decide

/-! ## C8: `decref` -/

/-- C8 (`decref` is a guarded decrement): for an address `pa` in
`[KERNBASE, PHYSTOP)`, whose count is the table entry `(pa - KERNBASE) / PGSIZE`
read by `getref`: a positive count is lowered by exactly 1; with count 0 the
call changes nothing at all; in every case all other table entries,
`kmem.freelist`, `kmem.npage` and memory (hence the free list) are unchanged. -/
theorem decref_guarded (L : Layout) (hL : L.WF) (s : KState) (pa : Nat)
    (h1 : L.KERNBASE ≤ pa) (h2 : pa < L.PHYSTOP) :
    getref L s pa = s.ref_count ((pa - L.KERNBASE) / PGSIZE) ∧
    (0 < getref L s pa → getref L (decref L pa s) pa = getref L s pa - 1) ∧
    (getref L s pa = 0 → decref L pa s = s) ∧
    (∀ i, i ≠ (pa - L.KERNBASE) / PGSIZE → (decref L pa s).ref_count i = s.ref_count i) ∧
    (decref L pa s).freelist = s.freelist ∧ (decref L pa s).npage = s.npage ∧
    (decref L pa s).mem = s.mem := by
  have hg := getref_inrange L hL s pa h1 h2
  have hd : decref L pa s =
      if s.ref_count ((pa - L.KERNBASE) / PGSIZE) > 0 then
        { s with ref_count := (Function.update s.ref_count ((pa - L.KERNBASE) / PGSIZE)
            (s.ref_count ((pa - L.KERNBASE) / PGSIZE) - 1)) }
      else s := by
    unfold decref
    simp only [if_pos (idxValid_inrange L hL pa h1 h2), toNat_pa2index L hL pa h1 h2]
  refine ⟨hg, ?_, ?_, ?_, ?_, ?_, ?_⟩
  · intro hpos
    rw [hg] at hpos
    rw [getref_inrange L hL _ pa h1 h2, hg, hd, if_pos hpos]
    exact Function.update_same _ _ _
  · intro hz
    rw [hg] at hz
    rw [hd, if_neg (by omega)]
  · intro i hi
    rw [hd]
    split
    · exact Function.update_noteq hi _ _
    · rfl
  · rw [hd]; split <;> rfl
  · rw [hd]; split <;> rfl
  · rw [hd]; split <;> rfl

/-- C8 at concrete states: an unaligned address of the first page, with count 2 and with count 0. -/
theorem decref_guarded_witness :
    getref sampleLayout (decref sampleLayout 0x80200123 (countState 2)) 0x80200123 = 2 - 1 ∧
    decref sampleLayout 0x80200123 (countState 0) = countState 0 :=
  ⟨Eq.trans ((decref_guarded sampleLayout (by decide) (countState 2) 0x80200123
      (by decide) (by decide)).2.1 (by decide)) (by decide),
    (decref_guarded sampleLayout (by decide) (countState 0) 0x80200123
      (by decide) (by decide)).2.2.1 (by decide)⟩

/-! ## C9: `incref` -/

/-- C9 fails as stated (for every state): with the count of the page at
`KERNBASE` equal to `INT_MAX`, `incref` wraps it to `INT_MIN`, so `getref`
afterwards is not `getref` before plus 1. -/
theorem incref_exact_counterexample :
    getref sampleLayout (countState 2147483647) 0x80200000 = 2147483647 ∧
    getref sampleLayout (incref sampleLayout 0x80200000 (countState 2147483647)) 0x80200000
      = -2147483648 ∧
    getref sampleLayout (incref sampleLayout 0x80200000 (countState 2147483647)) 0x80200000
      ≠ getref sampleLayout (countState 2147483647) 0x80200000 + 1 := by
  decide

/-- C9, amended (`incref` is an exact increment below `INT_MAX`): for an address
`pa` in `[KERNBASE, PHYSTOP)`, page-aligned or not, whose count (an `int`, the
table entry `(pa - KERNBASE) / PGSIZE`) is below `INT_MAX`, `incref` raises that
count by exactly 1, so `getref` afterwards is `getref` before plus 1; all other
table entries, `kmem.freelist`, `kmem.npage` and memory are unchanged. -/
theorem incref_exact (L : Layout) (hL : L.WF) (s : KState) (pa : Nat)
    (h1 : L.KERNBASE ≤ pa) (h2 : pa < L.PHYSTOP)
    (hlo : INT_MIN ≤ getref L s pa) (hhi : getref L s pa < INT_MAX) :
    getref L s pa = s.ref_count ((pa - L.KERNBASE) / PGSIZE) ∧
    getref L (incref L pa s) pa = getref L s pa + 1 ∧
    (∀ i, i ≠ (pa - L.KERNBASE) / PGSIZE → (incref L pa s).ref_count i = s.ref_count i) ∧
    (incref L pa s).freelist = s.freelist ∧ (incref L pa s).npage = s.npage ∧
    (incref L pa s).mem = s.mem := by
  have hg := getref_inrange L hL s pa h1 h2
  have hd : incref L pa s =
      { s with ref_count := (Function.update s.ref_count ((pa - L.KERNBASE) / PGSIZE)
          (toInt32 (s.ref_count ((pa - L.KERNBASE) / PGSIZE) + 1))) } := by
    unfold incref
    simp only [if_pos (idxValid_inrange L hL pa h1 h2), toNat_pa2index L hL pa h1 h2]
  refine ⟨hg, ?_, ?_, ?_, ?_, ?_⟩
  · rw [getref_inrange L hL _ pa h1 h2, hd]
    rw [hg] at hlo hhi ⊢
    simp only [Function.update_same]
    unfold toInt32
    unfold INT_MIN at hlo
    unfold INT_MAX at hhi
    omega
  · intro i hi
    rw [hd]
    exact Function.update_noteq hi _ _
  · rw [hd]
  · rw [hd]
  · rw [hd]

/-- C9 (amended) at a concrete state: an unaligned address of the first page, count 2. -/
theorem incref_exact_witness :
    getref sampleLayout (incref sampleLayout 0x80200123 (countState 2)) 0x80200123
      = getref sampleLayout (countState 2) 0x80200123 + 1 :=
  (incref_exact sampleLayout (by decide) (countState 2) 0x80200123
    (by decide) (by decide) (by decide) (by decide)).2.1

/-! ## C10: non-negativity of the counts in reachable states -/

theorem clearRefs_apply (rc : Nat → Int) : ∀ (n i : Nat),
    clearRefs n rc i = if i < n then 0 else rc i
  | 0, i => by simp [clearRefs]
  | n + 1, i => by
    unfold clearRefs
    by_cases h : i = n
    · subst h
      simp
    · rw [Function.update_noteq h, clearRefs_apply rc n i]
      by_cases h' : i < n
      · rw [if_pos h', if_pos (by omega)]
      · rw [if_neg h', if_neg (by omega)]

theorem freerangeLoop_zero (L : Layout) (pa_end p : Nat) (s : KState) :
    freerangeLoop L pa_end 0 p s = .panic s := rfl

theorem freerangeLoop_succ (L : Layout) (pa_end fuel p : Nat) (s : KState) :
    freerangeLoop L pa_end (fuel + 1) p s =
      if (p + PGSIZE) % U64 ≤ pa_end then
        (kfree L p s).andThen (freerangeLoop L pa_end fuel ((p + PGSIZE) % U64))
      else
        .done s := rfl

/-- A property of states kept by every returning `kfree` is kept by the loop of
`freerange` when it returns. -/
theorem freerangeLoop_preserves (L : Layout) (pa_end : Nat) (P : KState → Prop)
    (hP : ∀ pa s s', P s → kfree L pa s = .done s' → P s') :
    ∀ (fuel p : Nat) (s s' : KState), P s →
      freerangeLoop L pa_end fuel p s = .done s' → P s'
  | 0, p, s, s', _, hr => by
    rw [freerangeLoop_zero] at hr
    cases hr
  | fuel + 1, p, s, s', hs, hr => by
    rw [freerangeLoop_succ] at hr
    by_cases hc : (p + PGSIZE) % U64 ≤ pa_end
    · rw [if_pos hc] at hr
      cases hk : kfree L p s with
      | done t =>
        rw [hk] at hr
        exact freerangeLoop_preserves L pa_end P hP fuel _ t s' (hP p s t hs hk) hr
      | panic t =>
        rw [hk] at hr
        cases hr
    · rw [if_neg hc] at hr
      injection hr with e
      exact e ▸ hs

/-- The loop of `freerange` does not return when `pa_end` is at or above the last
page boundary `2^64 - PGSIZE`: from a page-aligned pointer the wrapped sum of
the test is a page boundary, hence at most `pa_end`, so the test never fails. -/
theorem freerangeLoop_never_done (L : Layout) (pa_end : Nat) (he : U64 - PGSIZE ≤ pa_end) :
    ∀ (fuel p : Nat) (s s' : KState), p % PGSIZE = 0 →
      freerangeLoop L pa_end fuel p s ≠ .done s'
  | 0, p, s, s', _, hr => by
    rw [freerangeLoop_zero] at hr
    cases hr
  | fuel + 1, p, s, s', hal, hr => by
    have hc : (p + PGSIZE) % U64 ≤ pa_end := by
      unfold PGSIZE U64 at *
      omega
    have hal2 : (p + PGSIZE) % U64 % PGSIZE = 0 := by
      unfold PGSIZE U64 at *
      omega
    rw [freerangeLoop_succ, if_pos hc] at hr
    cases hk : kfree L p s with
    | done t =>
      rw [hk] at hr
      exact freerangeLoop_never_done L pa_end he fuel _ t s' hal2 hr
    | panic t =>
      rw [hk] at hr
      cases hr

theorem update_cases (f : Nat → Int) (k : Nat) (v : Int) (i : Nat) :
    Function.update f k v i = f i ∨ (i = k ∧ Function.update f k v i = v) := by
  by_cases hi : i = k
  · right
    subst hi
    exact ⟨rfl, Function.update_same _ _ _⟩
  · left
    exact Function.update_noteq hi _ _

/-- The count update at the head of `kfree` and in `decref`, on an abstract
index: each entry stays or, being positive, drops by 1. -/
theorem dec_entry_cases (rc : Nat → Int) (k i : Nat) (hpos : rc k > 0) :
    Function.update rc k (rc k - 1) i = rc i ∨
      (0 < rc i ∧ Function.update rc k (rc k - 1) i = rc i - 1) := by
  rcases update_cases rc k (rc k - 1) i with e | ⟨hi, e⟩
  · exact Or.inl e
  · right
    rw [e, hi]
    exact ⟨hpos, rfl⟩

/-- A returning `kfree` leaves each table entry as it was or lowers a positive
entry by 1. -/
theorem kfree_ref_count (L : Layout) (pa : Nat) (s s' : KState) (h : kfree L pa s = .done s')
    (i : Nat) :
    s'.ref_count i = s.ref_count i ∨ (0 < s.ref_count i ∧ s'.ref_count i = s.ref_count i - 1) := by
  unfold kfree at h
  by_cases hg : pa % PGSIZE ≠ 0 ∨ pa < L.kernel_end ∨ pa ≥ L.PHYSTOP
  · rw [if_pos hg] at h
    cases h
  · rw [if_neg hg] at h
    dsimp only at h
    generalize pa2index L pa = idx at h
    generalize idx.toNat = k at h
    by_cases hv : idxValid L idx
    · rw [if_pos hv] at h
      by_cases hpos : s.ref_count k > 0
      · rw [if_pos hpos] at h
        dsimp only at h
        rw [Function.update_same] at h
        have hu : s'.ref_count = Function.update s.ref_count k (s.ref_count k - 1) := by
          by_cases h3 : s.ref_count k - 1 > 0
          · rw [if_pos h3] at h
            injection h with e
            exact (congrArg KState.ref_count e).symm
          · rw [if_neg h3] at h
            injection h with e
            exact (congrArg KState.ref_count e).symm
        rw [hu]
        exact dec_entry_cases s.ref_count k i hpos
      · rw [if_neg hpos, if_neg hpos] at h
        injection h with e
        exact Or.inl (congrFun (congrArg KState.ref_count e) i).symm
    · rw [if_neg hv] at h
      injection h with e
      exact Or.inl (congrFun (congrArg KState.ref_count e) i).symm

theorem kalloc_ref_count (L : Layout) (s : KState) (i : Nat) :
    (kalloc L s).2.ref_count i = s.ref_count i ∨ (kalloc L s).2.ref_count i = 1 := by
  unfold kalloc
  dsimp only
  generalize pa2index L s.freelist = idx
  generalize idx.toNat = k
  by_cases h1 : s.freelist ≠ 0
  · rw [if_pos h1]
    by_cases h2 : idxValid L idx
    · rw [if_pos h2]
      rcases update_cases s.ref_count k 1 i with e | ⟨_, e⟩
      · exact Or.inl e
      · exact Or.inr e
    · rw [if_neg h2]
      exact Or.inl rfl
  · rw [if_neg h1]
    exact Or.inl rfl

/-- The body of `decref` on an abstract index. -/
theorem decref_ref_count_aux (L : Layout) (idx : Int) (k : Nat) (s : KState) (i : Nat) :
    (if idxValid L idx then
        if s.ref_count k > 0 then
          { s with ref_count := (Function.update s.ref_count k (s.ref_count k - 1)) }
        else s
      else s).ref_count i = s.ref_count i ∨
    (0 < s.ref_count i ∧
      (if idxValid L idx then
        if s.ref_count k > 0 then
          { s with ref_count := (Function.update s.ref_count k (s.ref_count k - 1)) }
        else s
      else s).ref_count i = s.ref_count i - 1) := by
  by_cases h1 : idxValid L idx
  · rw [if_pos h1]
    by_cases h2 : s.ref_count k > 0
    · rw [if_pos h2]
      exact dec_entry_cases s.ref_count k i h2
    · rw [if_neg h2]
      exact Or.inl rfl
  · rw [if_neg h1]
    exact Or.inl rfl

theorem decref_def (L : Layout) (pa : Nat) (s : KState) :
    decref L pa s =
      if idxValid L (pa2index L pa) then
        if s.ref_count (pa2index L pa).toNat > 0 then
          { s with ref_count := (Function.update s.ref_count (pa2index L pa).toNat
              (s.ref_count (pa2index L pa).toNat - 1)) }
        else s
      else s := rfl

theorem decref_ref_count (L : Layout) (pa : Nat) (s : KState) (i : Nat) :
    (decref L pa s).ref_count i = s.ref_count i ∨
      (0 < s.ref_count i ∧ (decref L pa s).ref_count i = s.ref_count i - 1) := by
  rw [decref_def]
  generalize pa2index L pa = idx
  generalize idx.toNat = k
  exact decref_ref_count_aux L idx k s i

theorem incref_def (L : Layout) (pa : Nat) (s : KState) :
    incref L pa s =
      if idxValid L (pa2index L pa) then
        { s with ref_count := (Function.update s.ref_count (pa2index L pa).toNat
            (toInt32 (s.ref_count (pa2index L pa).toNat + 1))) }
      else s := rfl

theorem getref_def (L : Layout) (s : KState) (pa : Nat) :
    getref L s pa =
      if idxValid L (pa2index L pa) then s.ref_count (pa2index L pa).toNat else 0 := rfl

/-- The body of `incref` on an abstract index. -/
theorem incref_ref_count_aux (L : Layout) (idx : Int) (k : Nat) (s : KState) (i : Nat) :
    (if idxValid L idx then
        { s with ref_count := (Function.update s.ref_count k (toInt32 (s.ref_count k + 1))) }
      else s).ref_count i = s.ref_count i ∨
    ((if idxValid L idx then s.ref_count k else 0) = s.ref_count i ∧
      (if idxValid L idx then
        { s with ref_count := (Function.update s.ref_count k (toInt32 (s.ref_count k + 1))) }
      else s).ref_count i = toInt32 (s.ref_count i + 1)) := by
  by_cases h1 : idxValid L idx
  · rw [if_pos h1, if_pos h1]
    rcases update_cases s.ref_count k (toInt32 (s.ref_count k + 1)) i with e | ⟨hi, e⟩
    · exact Or.inl e
    · right
      refine ⟨by rw [hi], ?_⟩
      exact e.trans (by rw [hi])
  · rw [if_neg h1]
    exact Or.inl rfl

theorem incref_ref_count (L : Layout) (pa : Nat) (s : KState) (i : Nat) :
    (incref L pa s).ref_count i = s.ref_count i ∨
      (getref L s pa = s.ref_count i ∧
        (incref L pa s).ref_count i = toInt32 (s.ref_count i + 1)) := by
  rw [incref_def, getref_def]
  generalize pa2index L pa = idx
  generalize idx.toNat = k
  exact incref_ref_count_aux L idx k s i

/-- The table entries are all zero when `kinit` returns. -/
theorem kinit_ref_count (L : Layout) (s0 s : KState) (h : kinit L s0 = .done s) :
    ∀ i, i < MAX_PAGE_COUNT L → s.ref_count i = 0 := by
  unfold kinit freerange at h
  refine freerangeLoop_preserves L L.PHYSTOP (fun t => ∀ i, i < MAX_PAGE_COUNT L → t.ref_count i = 0)
    ?_ _ _ _ s ?_ h
  · intro pa t t' ht hk i hi
    rcases kfree_ref_count L pa t t' hk i with e | ⟨hpos, _⟩
    · rw [e]; exact ht i hi
    · rw [ht i hi] at hpos
      exact absurd hpos (lt_irrefl _)
  · intro i hi
    show clearRefs (MAX_PAGE_COUNT L) s0.ref_count i = 0
    rw [clearRefs_apply, if_pos hi]

/-- The table entries of a state reached under the "no over-sharing" discipline
are non-negative. -/
theorem reachable_table_nonneg (L : Layout) (s : KState) (h : Reachable L (noOverflow L) s) :
    ∀ i, i < MAX_PAGE_COUNT L → 0 ≤ s.ref_count i := by
  induction h with
  | init s0 s hk =>
    intro i hi
    rw [kinit_ref_count L s0 s hk i hi]
  | call s s' op _ hal hst ih =>
    intro i hi
    have hi0 := ih i hi
    cases op with
    | kalloc =>
      have e : (kalloc L s).2 = s' := by
        injection hst
      rw [← e]
      rcases kalloc_ref_count L s i with e1 | e1 <;> rw [e1]
      · exact hi0
      · decide
    | kfree pa =>
      rcases kfree_ref_count L pa s s' hst i with e | ⟨_, e⟩ <;> rw [e]
      · exact hi0
      · omega
    | incref pa =>
      have e : incref L pa s = s' := by
        injection hst
      rw [← e]
      rcases incref_ref_count L pa s i with e1 | ⟨hg, e1⟩ <;> rw [e1]
      · exact hi0
      · have hlt := hal pa rfl
        rw [hg] at hlt
        unfold INT_MAX at hlt
        unfold toInt32
        omega
    | decref pa =>
      have e : decref L pa s = s' := by
        injection hst
      rw [← e]
      rcases decref_ref_count L pa s i with e1 | ⟨_, e1⟩ <;> rw [e1]
      · exact hi0
      · omega

/-- The value read by `getref` is 0 or a table entry. -/
theorem getref_cases (L : Layout) (s : KState) (pa : Nat) :
    getref L s pa = 0 ∨ ∃ i, i < MAX_PAGE_COUNT L ∧ getref L s pa = s.ref_count i := by
  rw [getref_def]
  generalize hidx : pa2index L pa = idx
  by_cases hv : idxValid L idx
  · rw [if_pos hv]
    right
    refine ⟨idx.toNat, ?_, rfl⟩
    unfold idxValid at hv
    omega
  · rw [if_neg hv]
    exact Or.inl rfl

/-- C10, amended (non-negativity under the "no over-sharing" discipline): in
every state reachable from `kinit` by finitely many returning calls of `kalloc`,
`kfree`, `incref` and `decref` in which `incref` is never called on a page whose
count is `INT_MAX`, every entry of the reference-count table is `>= 0`, and
`getref` is `>= 0` at every address. -/
theorem refcount_nonneg (L : Layout) (s : KState) (h : Reachable L (noOverflow L) s) :
    (∀ i, i < MAX_PAGE_COUNT L → 0 ≤ s.ref_count i) ∧ ∀ pa, 0 ≤ getref L s pa := by
  have ht := reachable_table_nonneg L s h
  refine ⟨ht, fun pa => ?_⟩
  rcases getref_cases L s pa with e | ⟨i, hi, e⟩ <;> rw [e]
  exact ht i hi

/-- `incref` on an address inside `[KERNBASE, PHYSTOP)`. -/
theorem incref_eq (L : Layout) (hL : L.WF) (s : KState) (pa : Nat)
    (h1 : L.KERNBASE ≤ pa) (h2 : pa < L.PHYSTOP) :
    incref L pa s =
      { s with ref_count := (Function.update s.ref_count ((pa - L.KERNBASE) / PGSIZE)
          (toInt32 (s.ref_count ((pa - L.KERNBASE) / PGSIZE) + 1))) } := by
  rw [incref_def, if_pos (idxValid_inrange L hL pa h1 h2), toNat_pa2index L hL pa h1 h2]

/-- `PGROUNDUP` of a 64-bit address that leaves room for rounding is the next
page boundary at or above it. -/
theorem PGROUNDUP_spec (a : Nat) (h : a + PGSIZE ≤ U64) :
    PGROUNDUP a % PGSIZE = 0 ∧ a ≤ PGROUNDUP a ∧ PGROUNDUP a < a + PGSIZE := by
  unfold PGROUNDUP PGSIZE U64 at *
  dsimp only
  omega

/-- The loop of `freerange` up to `PHYSTOP < 2^64 - PGSIZE`, started at a page
boundary between `kernel_end` and `PHYSTOP` with all counts zero and with more
fuel than pages: it returns, all counts are still zero, and if at least one page
fits the head of the free list is the highest page. -/
theorem freerangeLoop_done (L : Layout) (hL : L.WF) (hT : L.PHYSTOP + PGSIZE < U64) :
    ∀ (n fuel p : Nat) (s : KState), L.PHYSTOP - p ≤ n * PGSIZE → n < fuel →
      p ≤ L.PHYSTOP → p % PGSIZE = 0 → L.kernel_end ≤ p →
      (∀ i, i < MAX_PAGE_COUNT L → s.ref_count i = 0) →
      ∃ s', freerangeLoop L L.PHYSTOP fuel p s = .done s' ∧
        (∀ i, i < MAX_PAGE_COUNT L → s'.ref_count i = 0) ∧
        (p + PGSIZE ≤ L.PHYSTOP → s'.freelist = L.PHYSTOP - PGSIZE) ∧
        (¬ p + PGSIZE ≤ L.PHYSTOP → s' = s)
  | 0, fuel, p, s, hn, hf, hp, _, _, hz => by
    obtain ⟨f, hfe⟩ : ∃ f, fuel = f + 1 := ⟨fuel - 1, by omega⟩
    have hmod : (p + PGSIZE) % U64 = p + PGSIZE := Nat.mod_eq_of_lt (by omega)
    have hc : ¬ p + PGSIZE ≤ L.PHYSTOP := by unfold PGSIZE at *; omega
    rw [hfe, freerangeLoop_succ, hmod, if_neg hc]
    exact ⟨s, rfl, hz, fun h => absurd h hc, fun _ => rfl⟩
  | n + 1, fuel, p, s, hn, hf, hp, hal, hlo, hz => by
    obtain ⟨f, hfe⟩ : ∃ f, fuel = f + 1 := ⟨fuel - 1, by omega⟩
    have hmod : (p + PGSIZE) % U64 = p + PGSIZE := Nat.mod_eq_of_lt (by omega)
    rw [hfe, freerangeLoop_succ, hmod]
    by_cases hc : p + PGSIZE ≤ L.PHYSTOP
    · have hhi : p < L.PHYSTOP := by unfold PGSIZE at hc; omega
      have hkb : L.KERNBASE ≤ p := le_trans hL.2.2.1 hlo
      have hidx := (pa2index_inrange L hL p hkb hhi).2
      have hk : kfree L p s = .done (kfreePush p s) := by
        rw [kfree_eq L hL s p hal hlo hhi, hz _ hidx]
        rfl
      rw [if_pos hc, hk]
      obtain ⟨s', hr, hz', hhead, hstop⟩ :=
        freerangeLoop_done L hL hT n f (p + PGSIZE) (kfreePush p s)
          (by unfold PGSIZE at *; omega) (by omega) hc (by unfold PGSIZE at *; omega)
          (by unfold PGSIZE at *; omega) hz
      refine ⟨s', hr, hz', fun _ => ?_, fun h => absurd hc h⟩
      by_cases hc2 : p + PGSIZE + PGSIZE ≤ L.PHYSTOP
      · exact hhead hc2
      · rw [hstop hc2]
        show p = L.PHYSTOP - PGSIZE
        have hp := hL.2.1
        unfold PGSIZE at *
        omega
    · rw [if_neg hc]
      exact ⟨s, rfl, hz, fun h => absurd h hc, fun _ => rfl⟩

/-- With a well-formed layout whose `PHYSTOP` is below `2^64 - PGSIZE`, `kinit`
returns, with all counts zero and, when at least one whole page lies between
`kernel_end` and `PHYSTOP`, with the highest page as head of the free list. -/
theorem kinit_done (L : Layout) (hL : L.WF) (hT : L.PHYSTOP + PGSIZE < U64) (s0 : KState) :
    ∃ s, kinit L s0 = .done s ∧ (∀ i, i < MAX_PAGE_COUNT L → s.ref_count i = 0) ∧
      (PGROUNDUP L.kernel_end + PGSIZE ≤ L.PHYSTOP → s.freelist = L.PHYSTOP - PGSIZE) := by
  have hr := PGROUNDUP_spec L.kernel_end (by
    obtain ⟨_, hp, _, hke, _, hu, _⟩ := hL
    unfold PGSIZE U64 at *
    omega)
  have hle : PGROUNDUP L.kernel_end ≤ L.PHYSTOP := by
    obtain ⟨_, hp, _, hke, _, _, _⟩ := hL
    unfold PGSIZE at *
    omega
  unfold kinit freerange
  obtain ⟨s, hs, hz, hhead, _⟩ :=
    freerangeLoop_done L hL hT (L.PHYSTOP / PGSIZE) freerangeFuel (PGROUNDUP L.kernel_end)
      { s0 with freelist := 0, npage := 0,
                ref_count := clearRefs (MAX_PAGE_COUNT L) s0.ref_count }
      (by have hp := hL.2.1; unfold PGSIZE at *; omega)
      (by unfold freerangeFuel PGSIZE U64 at *; omega) hle hr.1 hr.2.1
      (fun i hi => by
        show clearRefs (MAX_PAGE_COUNT L) s0.ref_count i = 0
        rw [clearRefs_apply, if_pos hi])
  exact ⟨s, hs, hz, hhead⟩

theorem kinit_eq_state (L : Layout) (hL : L.WF) (hT : L.PHYSTOP + PGSIZE < U64)
    (s0 : KState) : kinit L s0 = .done (kinit L s0).state := by
  obtain ⟨s, hs, _⟩ := kinit_done L hL hT s0
  rw [hs]
  rfl

theorem toInt32_idem (x : Int) : toInt32 (toInt32 x) = toInt32 x := by
  unfold toInt32
  omega

theorem toInt32_succ (x : Int) (n : Nat) :
    toInt32 (toInt32 (x + 1) + (n : Int)) = toInt32 (x + ((n + 1 : Nat) : Int)) := by
  unfold toInt32
  push_cast
  omega

theorem andThen_done (s : KState) (f : KState → KResult) : (KResult.done s).andThen f = f s :=
  rfl

theorem runOps_cons (L : Layout) (op : Op) (ops : List Op) (s : KState) :
    runOps L (op :: ops) s = (step L op s).andThen (runOps L ops) := rfl

theorem step_kalloc (L : Layout) (s : KState) : step L Op.kalloc s = .done (kalloc L s).2 := rfl

theorem step_incref (L : Layout) (pa : Nat) (s : KState) :
    step L (Op.incref pa) s = .done (incref L pa s) := rfl

/-- Repeating `incref` `n` times on an address inside `[KERNBASE, PHYSTOP)` adds
`n` to the count of its page modulo `2^32`. -/
theorem runOps_incref_replicate (L : Layout) (hL : L.WF) (pa : Nat)
    (h1 : L.KERNBASE ≤ pa) (h2 : pa < L.PHYSTOP) :
    ∀ (n : Nat) (s : KState),
      toInt32 (s.ref_count ((pa - L.KERNBASE) / PGSIZE)) = s.ref_count ((pa - L.KERNBASE) / PGSIZE) →
      ∃ s', runOps L (List.replicate n (Op.incref pa)) s = .done s' ∧
        s'.ref_count ((pa - L.KERNBASE) / PGSIZE) =
          toInt32 (s.ref_count ((pa - L.KERNBASE) / PGSIZE) + (n : Int))
  | 0, s, ht => ⟨s, rfl, by rw [Int.natCast_zero, Int.add_zero, ht]⟩
  | n + 1, s, _ => by
    have hinc : (incref L pa s).ref_count ((pa - L.KERNBASE) / PGSIZE) =
        toInt32 (s.ref_count ((pa - L.KERNBASE) / PGSIZE) + 1) := by
      rw [incref_eq L hL s pa h1 h2]
      exact Function.update_same _ _ _
    obtain ⟨s', hr, hc⟩ := runOps_incref_replicate L hL pa h1 h2 n (incref L pa s) (by
      rw [hinc, toInt32_idem])
    refine ⟨s', ?_, ?_⟩
    · rw [List.replicate_succ, runOps_cons, step_incref, andThen_done]
      exact hr
    · rw [hc, hinc, toInt32_succ]

/-- A state reached by a run of calls from a reachable state is reachable. -/
theorem reachable_runOps (L : Layout) :
    ∀ (ops : List Op) (s s' : KState), Reachable L anyCall s → runOps L ops s = .done s' →
      Reachable L anyCall s'
  | [], s, s', hs, hr => by
    injection hr with e
    exact e ▸ hs
  | op :: ops, s, s', hs, hr => by
    unfold runOps at hr
    cases hst : step L op s with
    | done t =>
      rw [hst] at hr
      exact reachable_runOps L ops t s' (Reachable.call s t op hs trivial hst) hr
    | panic t =>
      rw [hst] at hr
      cases hr

/-- After `kinit` on a layout with at least one allocatable page, `kalloc`
returns the highest page with count 1, and `n` calls of `incref` on it leave the
count `1 + n` reduced to an `int`; the state reached is a reachable state. -/
theorem kinit_kalloc_incref_trace (L : Layout) (hL : L.WF) (hT : L.PHYSTOP + PGSIZE < U64)
    (hpage : PGROUNDUP L.kernel_end + PGSIZE ≤ L.PHYSTOP) (s0 : KState) (n : Nat) :
    ∃ s, (kinit L s0).andThen
        (runOps L (Op.kalloc :: List.replicate n (Op.incref (L.PHYSTOP - PGSIZE)))) = .done s ∧
      Reachable L anyCall s ∧
      getref L s (L.PHYSTOP - PGSIZE) = toInt32 (1 + (n : Int)) := by
  obtain ⟨s1, hk, _, hf⟩ := kinit_done L hL hT s0
  have hf1 := hf hpage
  have hr := PGROUNDUP_spec L.kernel_end (by
    obtain ⟨_, hp, _, hke, _, hu, _⟩ := hL
    unfold PGSIZE U64 at *
    omega)
  have hkb : L.KERNBASE ≤ L.PHYSTOP - PGSIZE := by
    have := hL.2.2.1
    unfold PGSIZE at *
    omega
  have hhi : L.PHYSTOP - PGSIZE < L.PHYSTOP := by
    unfold PGSIZE at *
    omega
  have hne : L.PHYSTOP - PGSIZE ≠ 0 := by
    have := hL.2.2.2.2.1
    unfold PGSIZE at *
    omega
  have hcount : (kalloc L s1).2.ref_count ((L.PHYSTOP - PGSIZE - L.KERNBASE) / PGSIZE) = 1 := by
    rw [kalloc_eq L hL s1 (hf1 ▸ hne) (hf1 ▸ hkb) (hf1 ▸ hhi), hf1]
    exact Function.update_same _ _ _
  obtain ⟨s3, hrun, hc⟩ := runOps_incref_replicate L hL (L.PHYSTOP - PGSIZE) hkb hhi n
    (kalloc L s1).2 (by rw [hcount]; decide)
  have htrace : runOps L (Op.kalloc :: List.replicate n (Op.incref (L.PHYSTOP - PGSIZE))) s1
      = .done s3 := by
    rw [runOps_cons, step_kalloc, andThen_done]
    exact hrun
  refine ⟨s3, ?_, ?_, ?_⟩
  · rw [hk, andThen_done]
    exact htrace
  · exact reachable_runOps L _ s1 s3 (Reachable.init s0 s1 hk) htrace
  · rw [getref_inrange L hL s3 _ hkb hhi, hc, hcount]

/-- C10 fails as stated (any finite sequence of calls): on `sampleLayout`, after
`kinit`, one `kalloc` (which returns the highest page, `0x87FFF000`, with count
1) and `2147483647` calls of `incref` on that page, the state is reachable and
`getref` of the page is `INT_MIN`, a negative count. -/
theorem refcount_nonneg_counterexample :
    ∃ s, (kinit sampleLayout zeroState).andThen
        (runOps sampleLayout
          (Op.kalloc :: List.replicate 2147483647 (Op.incref (sampleLayout.PHYSTOP - PGSIZE))))
        = .done s ∧
      Reachable sampleLayout anyCall s ∧
      getref sampleLayout s (sampleLayout.PHYSTOP - PGSIZE) = -2147483648 :=
  (kinit_kalloc_incref_trace sampleLayout (by decide) (by decide) (by decide) zeroState
    2147483647).elim
    fun s h => ⟨s, h.1, h.2.1, h.2.2.trans (by decide)⟩

/-- C10 (amended) at a concrete reachable state: `kinit` on the all-zero boot state followed by one `kalloc`. -/
theorem refcount_nonneg_witness :
    0 ≤ getref sampleLayout (kalloc sampleLayout (kinit sampleLayout zeroState).state).2
      (sampleLayout.PHYSTOP - PGSIZE) :=
  (refcount_nonneg sampleLayout _
    (Reachable.call _ _ Op.kalloc
      (Reachable.init zeroState _ (kinit_eq_state sampleLayout (by decide) (by decide) zeroState))
      (fun _ h => Op.noConfusion h) (step_kalloc _ _))).2 _


/-! ## Segments of the free list and the pages of a range -/

theorem chain_iff_seg (m : Mem) : ∀ (l : List Nat) (h : Nat), Chain m h l ↔ ChainSeg m h l 0
  | [], h => by unfold Chain ChainSeg; exact Iff.rfl
  | p :: l, h => by
    unfold Chain ChainSeg
    rw [chain_iff_seg m l]

theorem chainSeg_congr (m m' : Mem) :
    ∀ (l : List Nat) (h t : Nat), (∀ q ∈ l, load64 m' q = load64 m q) →
      ChainSeg m h l t → ChainSeg m' h l t
  | [], _, _, _, hc => hc
  | p :: l, h, t, hq, hc => by
    unfold ChainSeg at hc ⊢
    obtain ⟨e, hp, hc⟩ := hc
    refine ⟨e, hp, ?_⟩
    rw [hq p (List.mem_cons_self _ _)]
    exact chainSeg_congr m m' l _ t (fun q hql => hq q (List.mem_cons_of_mem _ hql)) hc

theorem chainSeg_snoc (m : Mem) :
    ∀ (l : List Nat) (h p : Nat), ChainSeg m h l p → p ≠ 0 →
      ChainSeg m h (l ++ [p]) (load64 m p)
  | [], h, p, hc, hp => by
    unfold ChainSeg at hc
    show ChainSeg m h [p] (load64 m p)
    unfold ChainSeg
    exact ⟨hc, hp, by unfold ChainSeg; rfl⟩
  | q :: l, h, p, hc, hp => by
    unfold ChainSeg at hc
    show ChainSeg m h (q :: (l ++ [p])) (load64 m p)
    unfold ChainSeg
    exact ⟨hc.1, hc.2.1, chainSeg_snoc m l _ p hc.2.2 hp⟩

theorem mem_pagesFrom : ∀ (n p q : Nat),
    q ∈ pagesFrom p n ↔ ∃ k, k < n ∧ q = p + k * PGSIZE
  | 0, p, q => by
    unfold pagesFrom
    simp
  | n + 1, p, q => by
    unfold pagesFrom
    rw [List.mem_cons, mem_pagesFrom n (p + PGSIZE) q]
    constructor
    · rintro (e | ⟨k, hk, e⟩)
      · exact ⟨0, Nat.succ_pos _, by omega⟩
      · exact ⟨k + 1, by omega, by rw [e, Nat.succ_mul]; omega⟩
    · rintro ⟨k, hk, e⟩
      cases k with
      | zero => exact Or.inl (by omega)
      | succ k => exact Or.inr ⟨k, by omega, by rw [e, Nat.succ_mul]; omega⟩

theorem length_pagesFrom : ∀ (n p : Nat), (pagesFrom p n).length = n
  | 0, p => by unfold pagesFrom; rfl
  | n + 1, p => by
    unfold pagesFrom
    rw [List.length_cons, length_pagesFrom n]

theorem nodup_pagesFrom : ∀ (n p : Nat), (pagesFrom p n).Nodup
  | 0, p => by unfold pagesFrom; exact List.nodup_nil
  | n + 1, p => by
    unfold pagesFrom
    refine List.nodup_cons.mpr ⟨?_, nodup_pagesFrom n _⟩
    intro hmem
    obtain ⟨k, _, e⟩ := (mem_pagesFrom n _ _).mp hmem
    unfold PGSIZE at e
    omega

theorem pagesFrom_aligned (n p : Nat) (hp : p % PGSIZE = 0) :
    ∀ q ∈ pagesFrom p n, q % PGSIZE = 0 := by
  intro q hq
  obtain ⟨k, _, e⟩ := (mem_pagesFrom n p q).mp hq
  unfold PGSIZE at *
  omega

theorem kfreePush_mem_outside (p : Nat) (s : KState) (a : Nat) (h : a < p ∨ p + PGSIZE ≤ a) :
    (kfreePush p s).mem a = s.mem a := by
  show store64 (memset s.mem p 1 PGSIZE) p s.freelist a = s.mem a
  rw [store64_outside _ _ _ _ (by unfold PGSIZE at h; omega), memset_outside _ _ _ _ _ h]

/-- `kfree` of a managed page whose count is 0 reclaims it. -/
theorem kfree_zero (L : Layout) (hL : L.WF) (s : KState) (p : Nat) (hal : p % PGSIZE = 0)
    (hlo : L.kernel_end ≤ p) (hhi : p < L.PHYSTOP)
    (hz : s.ref_count ((p - L.KERNBASE) / PGSIZE) = 0) :
    kfree L p s = .done (kfreePush p s) := by
  rw [kfree_eq L hL s p hal hlo hhi, hz]
  rfl

/-- The loop of `freerange` on a state with all counts zero, started at a page
boundary `p` at or above `kernel_end`, with exactly `n` whole pages before
`pa_end <= PHYSTOP`, when no pointer sum wraps (`p + n * PGSIZE + PGSIZE < 2^64`)
and with more fuel than pages: it returns, the counts are unchanged,
`kmem.npage` has grown by `n`, the new part of the free list is the `n` pages in
descending order and leads to the former head, and memory outside the `n` pages
is untouched. -/
theorem freerangeLoop_seg (L : Layout) (hL : L.WF) (pa_end : Nat) (he : pa_end ≤ L.PHYSTOP) :
    ∀ (n fuel p : Nat) (s : KState), n < fuel → p + n * PGSIZE + PGSIZE < U64 →
      p % PGSIZE = 0 → L.kernel_end ≤ p →
      (n = 0 ∨ p + n * PGSIZE ≤ pa_end) → pa_end < p + n * PGSIZE + PGSIZE →
      (∀ i, i < MAX_PAGE_COUNT L → s.ref_count i = 0) → s.freelist < U64 → s.npage < U64 →
      ∃ s', freerangeLoop L pa_end fuel p s = .done s' ∧ s'.ref_count = s.ref_count ∧
        s'.npage = (s.npage + n) % U64 ∧
        ChainSeg s'.mem s'.freelist (pagesFrom p n).reverse s.freelist ∧
        (∀ a, (a < p ∨ p + n * PGSIZE ≤ a) → s'.mem a = s.mem a) ∧
        (n = 0 → s' = s) ∧ (0 < n → s'.freelist = p + (n - 1) * PGSIZE)
  | 0, fuel, p, s, hfu, hw, _, _, h1, h2, _, _, hnp => by
    obtain ⟨f, hfe⟩ : ∃ f, fuel = f + 1 := ⟨fuel - 1, by omega⟩
    have hmod : (p + PGSIZE) % U64 = p + PGSIZE := Nat.mod_eq_of_lt (by omega)
    have hc : ¬ p + PGSIZE ≤ pa_end := by omega
    rw [hfe, freerangeLoop_succ, hmod, if_neg hc]
    refine ⟨s, rfl, rfl, ?_, ?_, fun a _ => rfl, fun _ => rfl, fun h => absurd h (lt_irrefl _)⟩
    · rw [Nat.add_zero, Nat.mod_eq_of_lt hnp]
    · show ChainSeg s.mem s.freelist [] s.freelist
      unfold ChainSeg
      rfl
  | n + 1, fuel, p, s, hfu, hw, hal, hlo, h1, h2, hz, hty, hnp => by
    obtain ⟨f, hfe⟩ : ∃ f, fuel = f + 1 := ⟨fuel - 1, by omega⟩
    have hsucc : (n + 1) * PGSIZE = n * PGSIZE + PGSIZE := Nat.succ_mul n PGSIZE
    have hmod : (p + PGSIZE) % U64 = p + PGSIZE := Nat.mod_eq_of_lt (by omega)
    have hc : p + PGSIZE ≤ pa_end := by omega
    have hhi : p < L.PHYSTOP := by unfold PGSIZE at hc; omega
    have hkb : L.KERNBASE ≤ p := le_trans hL.2.2.1 hlo
    have hidx := (pa2index_inrange L hL p hkb hhi).2
    have hp0 : p ≠ 0 := by have := hL.2.2.2.2.1; omega
    have hk : kfree L p s = .done (kfreePush p s) := kfree_zero L hL s p hal hlo hhi (hz _ hidx)
    rw [hfe, freerangeLoop_succ, hmod, if_pos hc, hk, andThen_done]
    obtain ⟨s', hr, hrc, hn, hseg, hmem, hzero, hhead⟩ :=
      freerangeLoop_seg L hL pa_end he n f (p + PGSIZE) (kfreePush p s) (by omega) (by omega)
        (by unfold PGSIZE at *; omega) (by omega) (by omega) (by omega) hz
        (by show p < U64; have := hL.2.2.2.2.2.1; omega)
        (by show (s.npage + 1) % U64 < U64; unfold U64; omega)
    have hlink : load64 s'.mem p = s.freelist := by
      rw [load64_congr _ _ p (fun b _ hb2 => hmem b (Or.inl (by unfold PGSIZE; omega)))]
      show load64 (store64 (memset s.mem p 1 PGSIZE) p s.freelist) p = s.freelist
      rw [load64_store64, Nat.mod_eq_of_lt hty]
    refine ⟨s', hr, hrc, ?_, ?_, ?_, fun h => absurd h (Nat.succ_ne_zero n), fun _ => ?_⟩
    · rw [hn]
      show ((s.npage + 1) % U64 + n) % U64 = (s.npage + (n + 1)) % U64
      unfold U64
      omega
    · show ChainSeg s'.mem s'.freelist (p :: pagesFrom (p + PGSIZE) n).reverse s.freelist
      rw [List.reverse_cons, ← hlink]
      exact chainSeg_snoc s'.mem _ _ p hseg hp0
    · intro a ha
      rw [hmem a (by omega)]
      exact kfreePush_mem_outside p s a (by omega)
    · by_cases hn0 : n = 0
      · subst hn0
        rw [hzero rfl]
        show p = p + (0 + 1 - 1) * PGSIZE
        rw [Nat.add_sub_cancel, Nat.zero_mul, Nat.add_zero]
      · rw [hhead (Nat.pos_of_ne_zero hn0)]
        show p + PGSIZE + (n - 1) * PGSIZE = p + (n + 1 - 1) * PGSIZE
        have : n - 1 + 1 = n := by omega
        have h3 : n * PGSIZE = (n - 1) * PGSIZE + PGSIZE := by
          rw [← Nat.succ_mul, Nat.succ_eq_add_one, this]
        rw [Nat.add_sub_cancel, h3]
        omega

/-- `PGROUNDUP` always yields a multiple of `PGSIZE`. -/
theorem PGROUNDUP_aligned (a : Nat) : PGROUNDUP a % PGSIZE = 0 := by
  unfold PGROUNDUP PGSIZE U64
  dsimp only
  omega

/-- With `PHYSTOP < 2^64 - PGSIZE`, `kinit` returns, all counts are zero,
`kmem.npage` is the number `n` of whole pages between `PGROUNDUP(kernel_end)` and
`PHYSTOP`, and the free list is the list of these pages, highest first. -/
theorem kinit_freelist (L : Layout) (hL : L.WF) (hT : L.PHYSTOP + PGSIZE < U64)
    (s0 : KState) :
    ∃ n s1, kinit L s0 = .done s1 ∧ PGROUNDUP L.kernel_end + n * PGSIZE = L.PHYSTOP ∧
      (∀ i, i < MAX_PAGE_COUNT L → s1.ref_count i = 0) ∧ s1.npage = n ∧
      FreeList s1 (pagesFrom (PGROUNDUP L.kernel_end) n).reverse := by
  have hr := PGROUNDUP_spec L.kernel_end (by
    obtain ⟨_, hp, _, hke, _, hu, _⟩ := hL
    unfold PGSIZE U64 at *
    omega)
  have hp := hL.2.1
  have hke := hL.2.2.2.1
  have hn : PGROUNDUP L.kernel_end + (L.PHYSTOP - PGROUNDUP L.kernel_end) / PGSIZE * PGSIZE
      = L.PHYSTOP := by
    unfold PGSIZE at *
    omega
  have hz : ∀ i, i < MAX_PAGE_COUNT L →
      clearRefs (MAX_PAGE_COUNT L) s0.ref_count i = 0 := fun i hi => by
    rw [clearRefs_apply, if_pos hi]
  obtain ⟨s1, hk, hrc, hnp, hseg, hmem, _, _⟩ :=
    freerangeLoop_seg L hL L.PHYSTOP (le_refl _) ((L.PHYSTOP - PGROUNDUP L.kernel_end) / PGSIZE)
      freerangeFuel (PGROUNDUP L.kernel_end)
      { s0 with freelist := 0, npage := 0, ref_count := clearRefs (MAX_PAGE_COUNT L) s0.ref_count }
      (by have hu := hL.2.2.2.2.2.1; unfold freerangeFuel PGSIZE U64 at *; omega)
      (by rw [hn]; exact hT)
      hr.1 hr.2.1 (Or.inr (le_of_eq hn)) (by unfold PGSIZE at *; omega) hz
      (by show 0 < U64; decide) (by show 0 < U64; decide)
  refine ⟨_, s1, hk, hn, fun i hi => ?_, ?_, ?_⟩
  · rw [hrc]
    exact hz i hi
  · rw [hnp]
    show (0 + _) % U64 = _
    rw [Nat.zero_add]
    apply Nat.mod_eq_of_lt
    have hu := hL.2.2.2.2.2.1
    unfold PGSIZE U64 at *
    omega
  · exact ⟨(chain_iff_seg _ _ _).mpr hseg, fun q hq =>
      pagesFrom_aligned _ _ hr.1 q (List.mem_reverse.mp hq)⟩

/-- The managed pages are the pages of the list built by `kinit`. -/
theorem managed_iff_mem (L : Layout) (hL : L.WF) (n : Nat)
    (hn : PGROUNDUP L.kernel_end + n * PGSIZE = L.PHYSTOP) (q : Nat) :
    Managed L q ↔ q ∈ (pagesFrom (PGROUNDUP L.kernel_end) n).reverse := by
  have hr := PGROUNDUP_spec L.kernel_end (by
    obtain ⟨_, hp, _, hke, _, hu, _⟩ := hL
    unfold PGSIZE U64 at *
    omega)
  rw [List.mem_reverse, mem_pagesFrom]
  unfold Managed
  constructor
  · rintro ⟨h1, h2, h3⟩
    refine ⟨(q - PGROUNDUP L.kernel_end) / PGSIZE, ?_, ?_⟩ <;> unfold PGSIZE at * <;> omega
  · rintro ⟨k, hk, e⟩
    unfold PGSIZE at *
    omega

theorem managed_iff_roundup (L : Layout) (hL : L.WF) (q : Nat) :
    Managed L q ↔ (q % PGSIZE = 0 ∧ PGROUNDUP L.kernel_end ≤ q ∧ q < L.PHYSTOP) := by
  have hr := PGROUNDUP_spec L.kernel_end (by
    obtain ⟨_, hp, _, hke, _, hu, _⟩ := hL
    unfold PGSIZE U64 at *
    omega)
  unfold Managed
  unfold PGSIZE at *
  constructor <;> intro h <;> omega

/-! ## C13: range initialization -/

theorem freerangeFuel_eq : freerangeFuel = 4503599627370493 + 1 + 1 + 1 + 1 := by
  unfold freerangeFuel
  decide

/-- The loop of `freerange` at a pointer at or above `PHYSTOP` whose sum with
`PGSIZE` wraps to a value that passes the test: `kfree` is called on the
pointer and panics. -/
theorem freerangeLoop_wrap_panic (L : Layout) (pa_end fuel p : Nat) (s : KState)
    (ht : (p + PGSIZE) % U64 ≤ pa_end) (hp : p ≥ L.PHYSTOP) :
    freerangeLoop L pa_end (fuel + 1) p s = .panic s := by
  have hk : kfree L p s = .panic s := by
    unfold kfree
    rw [if_pos (Or.inr (Or.inr hp))]
  rw [freerangeLoop_succ, if_pos ht, hk]
  rfl

/-- The loop of `freerange` over the three pages of `topLayout`, on a state with
all counts zero: the three pages are pushed, then the sum
`0xFFFFFFFFFFFFF000 + PGSIZE` of the loop test wraps to 0, the test passes and
`kfree(0xFFFFFFFFFFFFF000)` panics. -/
theorem freerangeLoop_topLayout (s : KState) (hz : ∀ i, s.ref_count i = 0) :
    freerangeLoop topLayout 0xFFFFFFFFFFFFF000 freerangeFuel 0xFFFFFFFFFFFFC000 s =
      .panic (kfreePush 0xFFFFFFFFFFFFE000 (kfreePush 0xFFFFFFFFFFFFD000
        (kfreePush 0xFFFFFFFFFFFFC000 s))) := by
  have hL : topLayout.WF := by decide
  have t1 : (0xFFFFFFFFFFFFC000 + PGSIZE) % U64 ≤ 0xFFFFFFFFFFFFF000 := by decide
  have t2 : (0xFFFFFFFFFFFFD000 + PGSIZE) % U64 ≤ 0xFFFFFFFFFFFFF000 := by decide
  have t3 : (0xFFFFFFFFFFFFE000 + PGSIZE) % U64 ≤ 0xFFFFFFFFFFFFF000 := by decide
  have t4 : (0xFFFFFFFFFFFFF000 + PGSIZE) % U64 ≤ 0xFFFFFFFFFFFFF000 := by decide
  have e1 : (0xFFFFFFFFFFFFC000 + PGSIZE) % U64 = 0xFFFFFFFFFFFFD000 := by decide
  have e2 : (0xFFFFFFFFFFFFD000 + PGSIZE) % U64 = 0xFFFFFFFFFFFFE000 := by decide
  have e3 : (0xFFFFFFFFFFFFE000 + PGSIZE) % U64 = 0xFFFFFFFFFFFFF000 := by decide
  have k1 := kfree_zero topLayout hL s 0xFFFFFFFFFFFFC000 (by decide) (by decide) (by decide)
    (hz _)
  have k2 := kfree_zero topLayout hL (kfreePush 0xFFFFFFFFFFFFC000 s) 0xFFFFFFFFFFFFD000
    (by decide) (by decide) (by decide) (hz _)
  have k3 := kfree_zero topLayout hL
    (kfreePush 0xFFFFFFFFFFFFD000 (kfreePush 0xFFFFFFFFFFFFC000 s)) 0xFFFFFFFFFFFFE000
    (by decide) (by decide) (by decide) (hz _)
  rw [freerangeFuel_eq, freerangeLoop_succ, if_pos t1, k1, andThen_done, e1,
    freerangeLoop_succ, if_pos t2, k2, andThen_done, e2,
    freerangeLoop_succ, if_pos t3, k3, andThen_done, e3]
  exact freerangeLoop_wrap_panic topLayout _ _ _ _ t4 (by decide)

theorem managed_range (L : Layout) (hL : L.WF) (q : Nat) (h : Managed L q) :
    L.KERNBASE ≤ q ∧ q < L.PHYSTOP ∧ q ≠ 0 ∧ q < U64 := by
  obtain ⟨_, _, hkb, _, hk0, hu, _⟩ := hL
  obtain ⟨_, h2, h3⟩ := h
  omega

/-- Distinct managed pages have distinct table indexes. -/
theorem managed_idx_ne (L : Layout) (hL : L.WF) (p q : Nat) (hp : Managed L p)
    (hq : Managed L q) (hne : q ≠ p) :
    (q - L.KERNBASE) / PGSIZE ≠ (p - L.KERNBASE) / PGSIZE := by
  obtain ⟨hk, _, hkb, _, _, _, _⟩ := hL
  obtain ⟨h1, h2, _⟩ := hp
  obtain ⟨h3, h4, _⟩ := hq
  unfold PGSIZE at *
  omega

/-- A chain that reaches the null pointer visits no address twice. -/
theorem chain_nodup (m : Mem) : ∀ (l : List Nat) (h : Nat), Chain m h l → l.Nodup
  | [], _, _ => List.nodup_nil
  | p :: l, h, hc => by
    have hc' := hc
    unfold Chain at hc'
    refine List.nodup_cons.mpr ⟨?_, chain_nodup m l _ hc'.2.2⟩
    exact chain_head_not_mem m p l (hc'.1 ▸ hc)

/-- A list of distinct managed pages is no longer than the reference-count table. -/
theorem managed_length_le (L : Layout) (hL : L.WF) (l : List Nat) (hnd : l.Nodup)
    (hm : ∀ q ∈ l, Managed L q) : l.length ≤ MAX_PAGE_COUNT L := by
  have hmap : (l.map (fun q => (q - L.KERNBASE) / PGSIZE)).Nodup := by
    refine List.Nodup.map_on (fun x hx y hy e => ?_) hnd
    by_contra hne
    exact managed_idx_ne L hL y x (hm y hy) (hm x hx) hne e
  have hsub : l.map (fun q => (q - L.KERNBASE) / PGSIZE) ⊆ List.range (MAX_PAGE_COUNT L) := by
    intro i hi
    obtain ⟨q, hq, e⟩ := List.mem_map.mp hi
    have hr := managed_range L hL q (hm q hq)
    rw [List.mem_range, ← e]
    exact (pa2index_inrange L hL q hr.1 hr.2.1).2
  have := (List.subperm_of_subset hmap hsub).length_le
  rwa [List.length_map, List.length_range] at this

theorem poolInv_congr (L : Layout) (s s' : KState) (l : List Nat) (hf : s'.freelist = s.freelist)
    (hm : s'.mem = s.mem) (hn : s'.npage = s.npage) (h : PoolInv L s l) : PoolInv L s' l := by
  obtain ⟨⟨hc, hal⟩, hman, hnp⟩ := h
  refine ⟨⟨?_, hal⟩, hman, hn.trans hnp⟩
  rw [hm, hf]
  exact hc

theorem poolInv_length (L : Layout) (hL : L.WF) (s : KState) (l : List Nat) (h : PoolInv L s l) :
    l.length ≤ MAX_PAGE_COUNT L :=
  managed_length_le L hL l (chain_nodup s.mem l _ h.1.1) h.2.1

theorem poolInv_head_lt (L : Layout) (hL : L.WF) (s : KState) (l : List Nat)
    (h : PoolInv L s l) : s.freelist < U64 := by
  obtain ⟨⟨hc, _⟩, hman, _⟩ := h
  cases l with
  | nil =>
    unfold Chain at hc
    rw [hc]
    decide
  | cons p rest =>
    unfold Chain at hc
    rw [hc.1]
    exact (managed_range L hL p (hman p (List.mem_cons_self _ _))).2.2.2

/-- `kalloc` on a pool: the head is returned and leaves the list, its count
becomes 1 and nothing else in the table changes. -/
theorem kalloc_pool (L : Layout) (hL : L.WF) (s : KState) (p : Nat) (rest : List Nat)
    (h : PoolInv L s (p :: rest)) :
    (kalloc L s).1 = p ∧ PoolInv L (kalloc L s).2 rest ∧ p ∉ rest ∧
      (kalloc L s).2.ref_count = Function.update s.ref_count ((p - L.KERNBASE) / PGSIZE) 1 := by
  have hlen := poolInv_length L hL s _ h
  obtain ⟨⟨hc, hal⟩, hman, hnp⟩ := h
  have hc' := hc
  unfold Chain at hc'
  obtain ⟨hhead, hp0, hrest⟩ := hc'
  have hr := managed_range L hL p (hman p (List.mem_cons_self _ _))
  have hnot : p ∉ rest := chain_head_not_mem s.mem p rest (hhead ▸ hc)
  have hrest_al : ∀ q ∈ rest, q % PGSIZE = 0 := fun q hq => hal q (List.mem_cons_of_mem _ hq)
  rw [kalloc_eq L hL s (hhead ▸ hp0) (hhead ▸ hr.1) (hhead ▸ hr.2.1), hhead]
  refine ⟨rfl, ⟨⟨?_, hrest_al⟩, fun q hq => hman q (List.mem_cons_of_mem _ hq), ?_⟩, hnot, rfl⟩
  · exact chain_memset_page s.mem p 5 _ rest (hal p (List.mem_cons_self _ _)) hrest_al hnot hrest
  · show (s.npage + U64 - 1) % U64 = rest.length
    rw [hnp, List.length_cons]
    rw [List.length_cons] at hlen
    have hm := hL.2.2.2.2.2.2
    unfold U64
    omega

/-- The tail of `kfree` on a pool: a managed page that is not on the list is
put in front of it. -/
theorem kfreePush_pool (L : Layout) (hL : L.WF) (s : KState) (l : List Nat) (h : PoolInv L s l)
    (p : Nat) (hm : Managed L p) (hnot : p ∉ l) : PoolInv L (kfreePush p s) (p :: l) := by
  have hlt := poolInv_head_lt L hL s l h
  have hnd := chain_nodup s.mem l _ h.1.1
  have hlen := managed_length_le L hL (p :: l) (List.nodup_cons.mpr ⟨hnot, hnd⟩) (fun q hq => by
    rcases List.mem_cons.mp hq with e | hq
    · exact e ▸ hm
    · exact h.2.1 q hq)
  obtain ⟨⟨hc, hal⟩, hman, hnp⟩ := h
  have hr := managed_range L hL p hm
  refine ⟨⟨chain_push s.mem p s.freelist l hm.1 hr.2.2.1 hlt hal hnot hc, fun q hq => ?_⟩,
    fun q hq => ?_, ?_⟩
  · rcases List.mem_cons.mp hq with e | hq
    · exact e ▸ hm.1
    · exact hal q hq
  · rcases List.mem_cons.mp hq with e | hq
    · exact e ▸ hm
    · exact hman q hq
  · show (s.npage + 1) % U64 = (p :: l).length
    rw [hnp]
    rw [List.length_cons] at hlen ⊢
    have hmx := hL.2.2.2.2.2.2
    unfold U64
    omega

/-- A returning `kfree` was called on a managed page. -/
theorem kfree_done_managed (L : Layout) (pa : Nat) (s s' : KState)
    (h : kfree L pa s = .done s') : Managed L pa := by
  by_contra hm
  have hg : pa % PGSIZE ≠ 0 ∨ pa < L.kernel_end ∨ pa ≥ L.PHYSTOP := by
    unfold Managed at hm
    by_contra hcon
    apply hm
    refine ⟨?_, ?_, ?_⟩ <;> by_contra hx <;> apply hcon
    · exact Or.inl hx
    · exact Or.inr (Or.inl (by omega))
    · exact Or.inr (Or.inr (by omega))
  unfold kfree at h
  rw [if_pos hg] at h
  cases h

/-- A returning `kfree` of a page that is not on the list keeps the pool: the
list is unchanged (the page is still shared) or the page is put in front. -/
theorem kfree_pool (L : Layout) (hL : L.WF) (s s' : KState) (l : List Nat) (h : PoolInv L s l)
    (p : Nat) (hnot : p ∉ l) (hk : kfree L p s = .done s') :
    (1 < s.ref_count ((p - L.KERNBASE) / PGSIZE) ∧ PoolInv L s' l ∧
      s'.ref_count = Function.update s.ref_count ((p - L.KERNBASE) / PGSIZE)
        (s.ref_count ((p - L.KERNBASE) / PGSIZE) - 1)) ∨
    (s.ref_count ((p - L.KERNBASE) / PGSIZE) = 1 ∧ PoolInv L s' (p :: l) ∧
      s'.ref_count = Function.update s.ref_count ((p - L.KERNBASE) / PGSIZE) 0) ∨
    (s.ref_count ((p - L.KERNBASE) / PGSIZE) ≤ 0 ∧ PoolInv L s' (p :: l) ∧
      s'.ref_count = s.ref_count) := by
  have hm := kfree_done_managed L p s s' hk
  rw [kfree_eq L hL s p hm.1 hm.2.1 hm.2.2] at hk
  by_cases h1 : 1 < s.ref_count ((p - L.KERNBASE) / PGSIZE)
  · rw [if_pos h1] at hk
    injection hk with e
    left
    refine ⟨h1, ?_, (congrArg KState.ref_count e).symm⟩
    exact poolInv_congr L s s' l (congrArg KState.freelist e).symm (congrArg KState.mem e).symm
      (congrArg KState.npage e).symm h
  · rw [if_neg h1] at hk
    by_cases h2 : s.ref_count ((p - L.KERNBASE) / PGSIZE) = 1
    · rw [if_pos h2] at hk
      injection hk with e
      right; left
      refine ⟨h2, ?_, (congrArg KState.ref_count e).symm⟩
      rw [← e]
      exact kfreePush_pool L hL _ l (poolInv_congr L s _ l rfl rfl rfl h) p hm hnot
    · rw [if_neg h2] at hk
      injection hk with e
      right; right
      refine ⟨by omega, ?_, (congrArg KState.ref_count e).symm⟩
      rw [← e]
      exact kfreePush_pool L hL s l h p hm hnot

theorem incref_frame_aux (L : Layout) (idx : Int) (k : Nat) (v : Int) (s : KState) :
    (if idxValid L idx then { s with ref_count := (Function.update s.ref_count k v) }
      else s).freelist = s.freelist ∧
    (if idxValid L idx then { s with ref_count := (Function.update s.ref_count k v) }
      else s).npage = s.npage ∧
    (if idxValid L idx then { s with ref_count := (Function.update s.ref_count k v) }
      else s).mem = s.mem := by
  by_cases h : idxValid L idx
  · rw [if_pos h]
    exact ⟨rfl, rfl, rfl⟩
  · rw [if_neg h]
    exact ⟨rfl, rfl, rfl⟩

/-- `incref` changes neither `kmem` nor memory. -/
theorem incref_frame (L : Layout) (pa : Nat) (s : KState) :
    (incref L pa s).freelist = s.freelist ∧ (incref L pa s).npage = s.npage ∧
      (incref L pa s).mem = s.mem := by
  rw [incref_def]
  generalize pa2index L pa = idx
  generalize idx.toNat = k
  generalize toInt32 (s.ref_count k + 1) = v
  exact incref_frame_aux L idx k v s

theorem decref_frame_aux (L : Layout) (idx : Int) (k : Nat) (s : KState) :
    (if idxValid L idx then
        if s.ref_count k > 0 then
          { s with ref_count := (Function.update s.ref_count k (s.ref_count k - 1)) }
        else s
      else s).freelist = s.freelist ∧
    (if idxValid L idx then
        if s.ref_count k > 0 then
          { s with ref_count := (Function.update s.ref_count k (s.ref_count k - 1)) }
        else s
      else s).npage = s.npage ∧
    (if idxValid L idx then
        if s.ref_count k > 0 then
          { s with ref_count := (Function.update s.ref_count k (s.ref_count k - 1)) }
        else s
      else s).mem = s.mem := by
  by_cases h : idxValid L idx
  · rw [if_pos h]
    by_cases h2 : s.ref_count k > 0
    · rw [if_pos h2]
      exact ⟨rfl, rfl, rfl⟩
    · rw [if_neg h2]
      exact ⟨rfl, rfl, rfl⟩
  · rw [if_neg h]
    exact ⟨rfl, rfl, rfl⟩

/-- `decref` changes neither `kmem` nor memory. -/
theorem decref_frame (L : Layout) (pa : Nat) (s : KState) :
    (decref L pa s).freelist = s.freelist ∧ (decref L pa s).npage = s.npage ∧
      (decref L pa s).mem = s.mem := by
  rw [decref_def]
  generalize pa2index L pa = idx
  generalize idx.toNat = k
  exact decref_frame_aux L idx k s

theorem step_decref (L : Layout) (pa : Nat) (s : KState) :
    step L (Op.decref pa) s = .done (decref L pa s) := rfl

theorem step_kfree (L : Layout) (pa : Nat) (s : KState) :
    step L (Op.kfree pa) s = kfree L pa s := rfl

/-- In a well-formed layout the loop of `freerange` ends by its test or by a
`panic` of `kfree` before the fuel is used up: after a returning `kfree(p)` the
pointer is below `PHYSTOP`, so the next pointer is `p + PGSIZE` without wrap,
and at most `PHYSTOP / PGSIZE + 1` tests are evaluated.  The outcome is the same
with any two amounts of fuel above that number. -/
theorem freerangeLoop_fuel (L : Layout) (hL : L.WF) (pa_end : Nat) :
    ∀ (n f g p : Nat) (s : KState), L.PHYSTOP - p ≤ n * PGSIZE → n < f → n < g →
      freerangeLoop L pa_end f p s = freerangeLoop L pa_end g p s
  | 0, f, g, p, s, hn, hf, hg => by
    obtain ⟨f', hfe⟩ : ∃ f', f = f' + 1 := ⟨f - 1, by omega⟩
    obtain ⟨g', hge⟩ : ∃ g', g = g' + 1 := ⟨g - 1, by omega⟩
    rw [hfe, hge, freerangeLoop_succ, freerangeLoop_succ]
    by_cases hc : (p + PGSIZE) % U64 ≤ pa_end
    · rw [if_pos hc, if_pos hc]
      cases hk : kfree L p s with
      | panic t => rfl
      | done t =>
        have hm := kfree_done_managed L p s t hk
        unfold Managed at hm
        omega
    · rw [if_neg hc, if_neg hc]
  | n + 1, f, g, p, s, hn, hf, hg => by
    obtain ⟨f', hfe⟩ : ∃ f', f = f' + 1 := ⟨f - 1, by omega⟩
    obtain ⟨g', hge⟩ : ∃ g', g = g' + 1 := ⟨g - 1, by omega⟩
    rw [hfe, hge, freerangeLoop_succ, freerangeLoop_succ]
    by_cases hc : (p + PGSIZE) % U64 ≤ pa_end
    · rw [if_pos hc, if_pos hc]
      cases hk : kfree L p s with
      | panic t => rfl
      | done t =>
        have hm := kfree_done_managed L p s t hk
        have hP := hL.2.1
        have hU := hL.2.2.2.2.2.1
        have hmod : (p + PGSIZE) % U64 = p + PGSIZE := by
          apply Nat.mod_eq_of_lt
          unfold Managed at hm
          unfold PGSIZE U64 at *
          omega
        rw [andThen_done, andThen_done, hmod]
        exact freerangeLoop_fuel L hL pa_end n f' g' (p + PGSIZE) t
          (by unfold PGSIZE at *; omega) (by omega) (by omega)
    · rw [if_neg hc, if_neg hc]

/-- In a well-formed layout `freerange` has the same outcome with any larger
bound on the number of loop tests: the bound `freerangeFuel` is never reached. -/
theorem freerange_fuel_adequate (L : Layout) (hL : L.WF) (pa_start pa_end k : Nat)
    (s : KState) :
    freerangeLoop L pa_end (freerangeFuel + k) (PGROUNDUP pa_start) s =
      freerange L pa_start pa_end s := by
  have hU := hL.2.2.2.2.2.1
  have hP := hL.2.1
  unfold freerange
  exact freerangeLoop_fuel L hL pa_end (L.PHYSTOP / PGSIZE) _ _ _ s
    (by unfold PGSIZE at *; omega)
    (by unfold freerangeFuel PGSIZE U64 at *; omega)
    (by unfold freerangeFuel PGSIZE U64 at *; omega)

/-- `kinit` does not return when `PHYSTOP` is not below `2^64 - PGSIZE`. -/
theorem kinit_not_done_at_top (L : Layout) (hT : ¬ L.PHYSTOP + PGSIZE < U64) (s0 s : KState) :
    kinit L s0 ≠ .done s := by
  intro h
  unfold kinit freerange at h
  exact freerangeLoop_never_done L L.PHYSTOP (by omega) _ _ _ _ (PGROUNDUP_aligned _) h

/-- The pool built by `kinit`, when it returns. -/
theorem kinit_pool (L : Layout) (hL : L.WF) (s0 s : KState) (h : kinit L s0 = .done s) :
    ∃ l, PoolInv L s l ∧ (∀ i, i < MAX_PAGE_COUNT L → s.ref_count i = 0) ∧
      ∀ q, Managed L q → q ∈ l := by
  have hT : L.PHYSTOP + PGSIZE < U64 :=
    Classical.byContradiction fun hT => kinit_not_done_at_top L hT s0 s h
  obtain ⟨n, s1, hk, hn, hz, hnp, hfl⟩ := kinit_freelist L hL hT s0
  rw [hk] at h
  injection h with e
  subst e
  refine ⟨_, ⟨hfl, fun q hq => (managed_iff_mem L hL n hn q).mpr hq, ?_⟩, hz,
    fun q hq => (managed_iff_mem L hL n hn q).mp hq⟩
  rw [hnp, List.length_reverse, length_pagesFrom]

/-- One returning call without double free keeps the pool. -/
theorem step_pool (L : Layout) (hL : L.WF) (s s' : KState) (l : List Nat) (h : PoolInv L s l)
    (op : Op) (hal : noDoubleFree s op) (hst : step L op s = .done s') :
    ∃ l', PoolInv L s' l' := by
  cases op with
  | kalloc =>
    rw [step_kalloc] at hst
    injection hst with e
    rw [← e]
    cases l with
    | nil =>
      have h0 : s.freelist = 0 := by
        have := h.1.1
        unfold Chain at this
        exact this
      rw [kalloc_empty L s h0]
      exact ⟨[], h⟩
    | cons p rest => exact ⟨rest, (kalloc_pool L hL s p rest h).2.1⟩
  | kfree pa =>
    rw [step_kfree] at hst
    rcases kfree_pool L hL s s' l h pa (hal pa rfl l h.1) hst with h1 | h1 | h1
    · exact ⟨l, h1.2.1⟩
    · exact ⟨pa :: l, h1.2.1⟩
    · exact ⟨pa :: l, h1.2.1⟩
  | incref pa =>
    rw [step_incref] at hst
    injection hst with e
    rw [← e]
    have hf := incref_frame L pa s
    exact ⟨l, poolInv_congr L s _ l hf.1 hf.2.2 hf.2.1 h⟩
  | decref pa =>
    rw [step_decref] at hst
    injection hst with e
    rw [← e]
    have hf := decref_frame L pa s
    exact ⟨l, poolInv_congr L s _ l hf.1 hf.2.2 hf.2.1 h⟩

/-- Every state reached without double free is a pool. -/
theorem reachable_pool (L : Layout) (hL : L.WF) (s : KState) (h : Reachable L noDoubleFree s) :
    ∃ l, PoolInv L s l := by
  induction h with
  | init s0 s hk =>
    obtain ⟨l, hp, _⟩ := kinit_pool L hL s0 s hk
    exact ⟨l, hp⟩
  | call s s' op _ hal hst ih =>
    obtain ⟨l, hp⟩ := ih
    exact step_pool L hL s s' l hp op hal hst

/-! ## C12: address validity of the free list -/

/-- C12, amended (address validity without double free): in every state
reachable from `kinit` by finitely many returning calls of `kalloc`, `kfree`,
`incref` and `decref` in which `kfree` is never called on a page that is on the
free list, the free list is a list of pages that are multiples of `PGSIZE` in
`[kernel_end, PHYSTOP)`; hence a non-zero address returned by `kalloc` is such a
page, and `kfree` of it returns (does not panic). -/
theorem freelist_entries_managed (L : Layout) (hL : L.WF) (s : KState)
    (h : Reachable L noDoubleFree s) :
    (∃ l, FreeList s l ∧ ∀ q ∈ l, q % PGSIZE = 0 ∧ L.kernel_end ≤ q ∧ q < L.PHYSTOP) ∧
    ((kalloc L s).1 ≠ 0 →
      ((kalloc L s).1 % PGSIZE = 0 ∧ L.kernel_end ≤ (kalloc L s).1 ∧
        (kalloc L s).1 < L.PHYSTOP) ∧
      ∃ t, kfree L (kalloc L s).1 (kalloc L s).2 = .done t) := by
  obtain ⟨l, hp⟩ := reachable_pool L hL s h
  refine ⟨⟨l, hp.1, hp.2.1⟩, fun hne => ?_⟩
  rw [kalloc_fst] at hne ⊢
  have hm : Managed L s.freelist := by
    cases l with
    | nil =>
      have := hp.1.1
      unfold Chain at this
      exact absurd this hne
    | cons p rest =>
      have := hp.1.1
      unfold Chain at this
      rw [this.1]
      exact hp.2.1 p (List.mem_cons_self _ _)
  refine ⟨hm, kfree_done_of_accepted L _ _ ?_⟩
  obtain ⟨h1, h2, h3⟩ := hm
  intro hg
  rcases hg with hg | hg | hg
  · exact hg h1
  · omega
  · omega

/-! ## C15: free-capacity accounting -/

/-- C15, amended (free-capacity accounting without double free): in every state
reachable from `kinit` by finitely many returning calls of `kalloc`, `kfree`,
`incref` and `decref` in which `kfree` is never called on a page that is on the
free list, `kmem.npage` is the number of entries of the free list, and
`freemem_amount` (a function of the state alone, which it cannot change)
returns that number times 4096, the shift not overflowing 64 bits. -/
theorem npage_counts_freelist (L : Layout) (hL : L.WF) (s : KState)
    (h : Reachable L noDoubleFree s) :
    ∃ l, FreeList s l ∧ s.npage = l.length ∧ freemem_amount s = l.length * 4096 := by
  obtain ⟨l, hp⟩ := reachable_pool L hL s h
  have hlen := poolInv_length L hL s l hp
  refine ⟨l, hp.1, hp.2.2, ?_⟩
  unfold freemem_amount PGSHIFT
  rw [hp.2.2]
  have hm := hL.2.2.2.2.2.2
  apply Nat.mod_eq_of_lt
  unfold U64
  omega

/-! ## The count invariant under the caller discipline -/

/-- `decref` on an address inside `[KERNBASE, PHYSTOP)`. -/
theorem decref_eq (L : Layout) (hL : L.WF) (s : KState) (pa : Nat)
    (h1 : L.KERNBASE ≤ pa) (h2 : pa < L.PHYSTOP) :
    decref L pa s =
      if s.ref_count ((pa - L.KERNBASE) / PGSIZE) > 0 then
        { s with ref_count := (Function.update s.ref_count ((pa - L.KERNBASE) / PGSIZE)
            (s.ref_count ((pa - L.KERNBASE) / PGSIZE) - 1)) }
      else s := by
  rw [decref_def, if_pos (idxValid_inrange L hL pa h1 h2), toNat_pa2index L hL pa h1 h2]

theorem getref_managed (L : Layout) (hL : L.WF) (s : KState) (q : Nat) (hq : Managed L q) :
    getref L s q = s.ref_count ((q - L.KERNBASE) / PGSIZE) :=
  getref_inrange L hL s q (managed_range L hL q hq).1 (managed_range L hL q hq).2.1

/-- Reading the count of a managed page after the entry of the managed page `p`
was set to `v`. -/
theorem getref_update (L : Layout) (hL : L.WF) (s s' : KState) (p q : Nat) (v : Int)
    (hp : Managed L p) (hq : Managed L q)
    (hrc : s'.ref_count = Function.update s.ref_count ((p - L.KERNBASE) / PGSIZE) v) :
    getref L s' q = if q = p then v else getref L s q := by
  rw [getref_managed L hL s' q hq, getref_managed L hL s q hq, hrc]
  by_cases e : q = p
  · rw [if_pos e, e]
    exact Function.update_same _ _ _
  · rw [if_neg e]
    exact Function.update_noteq (managed_idx_ne L hL p q hp hq e) _ _

/-- The count invariant after the entry of a managed page `p` outside the list
was set to a value of at least 1. -/
theorem countInv_set_pos (L : Layout) (hL : L.WF) (s s' : KState) (l : List Nat) (p : Nat)
    (v : Int) (hp : Managed L p) (hv : 1 ≤ v) (hnot : p ∉ l) (hman : ∀ q ∈ l, Managed L q)
    (hrc : s'.ref_count = Function.update s.ref_count ((p - L.KERNBASE) / PGSIZE) v)
    (hc : CountInv L s l) : CountInv L s' l := by
  refine ⟨fun q hq => ?_, fun q hq hql => ?_⟩
  · rw [getref_update L hL s s' p q v hp (hman q hq) hrc, if_neg (fun (e : q = p) => hnot (e ▸ hq))]
    exact hc.1 q hq
  · rw [getref_update L hL s s' p q v hp hq hrc]
    by_cases e : q = p
    · rw [if_pos e]
      exact hv
    · rw [if_neg e]
      exact hc.2 q hq hql

/-- The count invariant after the managed page `p`, outside the list, got the
count 0 and was put in front of the list. -/
theorem countInv_push (L : Layout) (hL : L.WF) (s s' : KState) (l : List Nat) (p : Nat)
    (hp : Managed L p) (hman : ∀ q ∈ l, Managed L q)
    (hrc : s'.ref_count = Function.update s.ref_count ((p - L.KERNBASE) / PGSIZE) 0)
    (hc : CountInv L s l) : CountInv L s' (p :: l) := by
  refine ⟨fun q hq => ?_, fun q hq hql => ?_⟩
  · rw [getref_update L hL s s' p q 0 hp (by
      rcases List.mem_cons.mp hq with e | h
      · exact e ▸ hp
      · exact hman q h) hrc]
    by_cases e : q = p
    · rw [if_pos e]
    · rw [if_neg e]
      rcases List.mem_cons.mp hq with e' | h
      · exact absurd e' e
      · exact hc.1 q h
  · have hne : q ≠ p := fun e => hql (e ▸ List.mem_cons_self _ _)
    rw [getref_update L hL s s' p q 0 hp hq hrc, if_neg hne]
    exact hc.2 q hq (fun h => hql (List.mem_cons_of_mem _ h))

/-- The count invariant after `kalloc` took the head `p` of the list. -/
theorem countInv_pop (L : Layout) (hL : L.WF) (s s' : KState) (p : Nat) (rest : List Nat)
    (hnot : p ∉ rest) (hman : ∀ q ∈ p :: rest, Managed L q)
    (hrc : s'.ref_count = Function.update s.ref_count ((p - L.KERNBASE) / PGSIZE) 1)
    (hc : CountInv L s (p :: rest)) : CountInv L s' rest := by
  have hp := hman p (List.mem_cons_self _ _)
  refine ⟨fun q hq => ?_, fun q hq hql => ?_⟩
  · rw [getref_update L hL s s' p q 1 hp (hman q (List.mem_cons_of_mem _ hq)) hrc,
      if_neg (fun (e : q = p) => hnot (e ▸ hq))]
    exact hc.1 q (List.mem_cons_of_mem _ hq)
  · rw [getref_update L hL s s' p q 1 hp hq hrc]
    by_cases e : q = p
    · rw [if_pos e]
    · rw [if_neg e]
      exact hc.2 q hq (fun h => by
        rcases List.mem_cons.mp h with e' | h'
        · exact e e'
        · exact hql h')

/-- A managed page with a count of at least 1 is not on the list. -/
theorem countInv_not_mem (L : Layout) (s : KState) (l : List Nat) (p : Nat)
    (hc : CountInv L s l) (h1 : 1 ≤ getref L s p) : p ∉ l := by
  intro hmem
  rw [hc.1 p hmem] at h1
  exact absurd h1 (by decide)

/-- One returning call under the caller discipline with "no over-sharing" keeps
the pool and the count invariant, and the list grows only by the `kfree` that
takes a count from 1 to 0. -/
theorem step_counts (L : Layout) (hL : L.WF) (s s' : KState) (l : List Nat)
    (hp : PoolInv L s l) (hc : CountInv L s l) (op : Op) (hal : boundedDiscipline L s op)
    (hst : step L op s = .done s') :
    ∃ l', PoolInv L s' l' ∧ CountInv L s' l' ∧
      (l'.length = l.length + 1 →
        ∃ p, op = Op.kfree p ∧ getref L s p = 1 ∧ getref L s' p = 0 ∧ l' = p :: l) := by
  cases op with
  | kalloc =>
    rw [step_kalloc] at hst
    injection hst with e
    rw [← e]
    cases l with
    | nil =>
      have h0 : s.freelist = 0 := by
        have := hp.1.1
        unfold Chain at this
        exact this
      rw [kalloc_empty L s h0]
      exact ⟨[], hp, hc, fun h => by simp at h⟩
    | cons p rest =>
      obtain ⟨_, hp', hnot, hrc⟩ := kalloc_pool L hL s p rest hp
      exact ⟨rest, hp', countInv_pop L hL s _ p rest hnot hp.2.1 hrc hc,
        fun h => by rw [List.length_cons] at h; omega⟩
  | kfree pa =>
    rw [step_kfree] at hst
    obtain ⟨hm, h1⟩ := hal.1.1 pa rfl
    have hnot := countInv_not_mem L s l pa hc h1
    have hg := getref_managed L hL s pa hm
    rcases kfree_pool L hL s s' l hp pa hnot hst with ⟨hc1, hp', hrc⟩ | ⟨hc1, hp', hrc⟩ |
      ⟨hc1, _, _⟩
    · exact ⟨l, hp', countInv_set_pos L hL s s' l pa _ hm (by omega) hnot hp.2.1 hrc hc,
        fun h => by omega⟩
    · refine ⟨pa :: l, hp', countInv_push L hL s s' l pa hm hp.2.1 hrc hc, fun _ => ?_⟩
      refine ⟨pa, rfl, by rw [hg, hc1], ?_, rfl⟩
      rw [getref_update L hL s s' pa pa 0 hm hm hrc, if_pos rfl]
    · rw [hg] at h1
      omega
  | incref pa =>
    rw [step_incref] at hst
    injection hst with e
    obtain ⟨hm, h1⟩ := hal.1.2.1 pa rfl
    have hlt := hal.2 pa rfl
    have hnot := countInv_not_mem L s l pa hc h1
    have hg := getref_managed L hL s pa hm
    have hr := managed_range L hL pa hm
    have hf := incref_frame L pa s
    have hrc : s'.ref_count = Function.update s.ref_count ((pa - L.KERNBASE) / PGSIZE)
        (toInt32 (s.ref_count ((pa - L.KERNBASE) / PGSIZE) + 1)) := by
      rw [← e, incref_eq L hL s pa hr.1 hr.2.1]
    rw [hg] at h1 hlt
    refine ⟨l, ?_, countInv_set_pos L hL s s' l pa _ hm ?_ hnot hp.2.1 hrc hc,
      fun h => by omega⟩
    · rw [← e]
      exact poolInv_congr L s _ l hf.1 hf.2.2 hf.2.1 hp
    · unfold INT_MAX at hlt
      unfold toInt32
      omega
  | decref pa =>
    rw [step_decref] at hst
    injection hst with e
    obtain ⟨hm, h2⟩ := hal.1.2.2 pa rfl
    have hnot := countInv_not_mem L s l pa hc (by omega)
    have hg := getref_managed L hL s pa hm
    have hr := managed_range L hL pa hm
    have hf := decref_frame L pa s
    rw [hg] at h2
    have hrc : s'.ref_count = Function.update s.ref_count ((pa - L.KERNBASE) / PGSIZE)
        (s.ref_count ((pa - L.KERNBASE) / PGSIZE) - 1) := by
      rw [← e, decref_eq L hL s pa hr.1 hr.2.1, if_pos (by omega)]
    refine ⟨l, ?_, countInv_set_pos L hL s s' l pa _ hm (by omega) hnot hp.2.1 hrc hc,
      fun h => by omega⟩
    rw [← e]
    exact poolInv_congr L s _ l hf.1 hf.2.2 hf.2.1 hp

/-- Every state reached under the caller discipline with "no over-sharing" is a
pool that satisfies the count invariant. -/
theorem reachable_counts (L : Layout) (hL : L.WF) (s : KState)
    (h : Reachable L (boundedDiscipline L) s) : ∃ l, PoolInv L s l ∧ CountInv L s l := by
  induction h with
  | init s0 s hk =>
    obtain ⟨l, hp, hz, hall⟩ := kinit_pool L hL s0 s hk
    refine ⟨l, hp, fun q hq => ?_, fun q hq hql => absurd (hall q hq) hql⟩
    have hm := hp.2.1 q hq
    have hr := managed_range L hL q hm
    rw [getref_managed L hL s q hm]
    exact hz _ (pa2index_inrange L hL q hr.1 hr.2.1).2
  | call s s' op _ hal hst ih =>
    obtain ⟨l, hp, hc⟩ := ih
    obtain ⟨l', hp', hc', _⟩ := step_counts L hL s s' l hp hc op hal hst
    exact ⟨l', hp', hc'⟩

theorem freeList_unique (s : KState) (l1 l2 : List Nat) (h1 : FreeList s l1)
    (h2 : FreeList s l2) : l1 = l2 :=
  chain_unique s.mem l1 l2 _ h1.1 h2.1

/-- The state after `kinit` and one `kalloc` is reachable under every discipline
that restricts only `kfree`, `incref` and `decref` (`PHYSTOP` being below
`2^64 - PGSIZE`, so that `kinit` returns). -/
theorem reachable_kinit_kalloc (L : Layout) (hL : L.WF) (hT : L.PHYSTOP + PGSIZE < U64)
    (allowed : KState → Op → Prop) (hal : ∀ s, allowed s Op.kalloc) (s0 : KState) :
    Reachable L allowed (kalloc L (kinit L s0).state).2 :=
  Reachable.call _ _ Op.kalloc (Reachable.init s0 _ (kinit_eq_state L hL hT s0)) (hal _)
    (step_kalloc _ _)

theorem boundedDiscipline_kalloc (L : Layout) (s : KState) : boundedDiscipline L s Op.kalloc :=
  ⟨⟨fun _ h => Op.noConfusion h, fun _ h => Op.noConfusion h, fun _ h => Op.noConfusion h⟩,
    fun _ h => Op.noConfusion h⟩

theorem noDoubleFree_kalloc (s : KState) : noDoubleFree s Op.kalloc :=
  fun _ h => Op.noConfusion h

/-- C12 (amended) at a concrete reachable state: `kinit` on the all-zero boot
state followed by one `kalloc`. -/
theorem freelist_entries_managed_witness :
    ∃ l, FreeList (kalloc sampleLayout (kinit sampleLayout zeroState).state).2 l ∧
      ∀ q ∈ l, q % PGSIZE = 0 ∧ sampleLayout.kernel_end ≤ q ∧ q < sampleLayout.PHYSTOP :=
  (freelist_entries_managed sampleLayout (by decide) _
    (reachable_kinit_kalloc sampleLayout (by decide) (by decide) noDoubleFree
      noDoubleFree_kalloc
      zeroState)).1

/-- C15 (amended) at a concrete reachable state: `kinit` on the all-zero boot
state followed by one `kalloc`. -/
theorem npage_counts_freelist_witness :
    ∃ l, FreeList (kalloc sampleLayout (kinit sampleLayout zeroState).state).2 l ∧
      (kalloc sampleLayout (kinit sampleLayout zeroState).state).2.npage = l.length ∧
      freemem_amount (kalloc sampleLayout (kinit sampleLayout zeroState).state).2
        = l.length * 4096 :=
  npage_counts_freelist sampleLayout (by decide) _
    (reachable_kinit_kalloc sampleLayout (by decide) (by decide) noDoubleFree
      noDoubleFree_kalloc zeroState)

/-! ## C11: conservation -/

/-- C11, amended (conservation under the caller discipline): in every state
reachable from `kinit` by finitely many returning calls in which `kfree` and
`incref` are applied only to managed pages with a count of at least 1 (below
`INT_MAX` for `incref`) and `decref` only to managed pages with a count of at
least 2, every page-aligned page of `[PGROUNDUP(kernel_end), PHYSTOP)` is either
free (it occurs exactly once on the free list and its count is 0) or allocated
(it does not occur on the free list and its count is at least 1). -/
theorem conservation (L : Layout) (hL : L.WF) (s : KState)
    (h : Reachable L (boundedDiscipline L) s) :
    ∃ l, FreeList s l ∧
      ∀ q, q % PGSIZE = 0 → PGROUNDUP L.kernel_end ≤ q → q < L.PHYSTOP →
        (l.count q = 1 ∧ getref L s q = 0) ∨ (q ∉ l ∧ 1 ≤ getref L s q) := by
  obtain ⟨l, hp, hc⟩ := reachable_counts L hL s h
  refine ⟨l, hp.1, fun q h1 h2 h3 => ?_⟩
  have hm : Managed L q := (managed_iff_roundup L hL q).mpr ⟨h1, h2, h3⟩
  by_cases hmem : q ∈ l
  · exact Or.inl ⟨List.count_eq_one_of_mem (chain_nodup s.mem l _ hp.1.1) hmem, hc.1 q hmem⟩
  · exact Or.inr ⟨hmem, hc.2 q hm hmem⟩

/-- C11 (amended) at a concrete reachable state: `kinit` on the all-zero boot
state followed by one `kalloc`. -/
theorem conservation_witness :
    ∃ l, FreeList (kalloc sampleLayout (kinit sampleLayout zeroState).state).2 l ∧
      ∀ q, q % PGSIZE = 0 → PGROUNDUP sampleLayout.kernel_end ≤ q → q < sampleLayout.PHYSTOP →
        (l.count q = 1 ∧
          getref sampleLayout (kalloc sampleLayout (kinit sampleLayout zeroState).state).2 q = 0) ∨
        (q ∉ l ∧
          1 ≤ getref sampleLayout (kalloc sampleLayout (kinit sampleLayout zeroState).state).2 q) :=
  conservation sampleLayout (by decide) _
    (reachable_kinit_kalloc sampleLayout (by decide) (by decide)
      (boundedDiscipline sampleLayout)
      (boundedDiscipline_kalloc sampleLayout) zeroState)

/-! ## C18: conservation under caller discipline -/

/-- C18, amended (caller discipline with "no over-sharing"): in every state
reachable from `kinit` by finitely many returning calls in which `kfree` and
`incref` are applied only to managed pages with a count of at least 1 (below
`INT_MAX` for `incref`) and `decref` only to managed pages with a count of at
least 2, the free list has no duplicate entries, every entry has count 0, and
every managed page that is not an entry has a count of at least 1; and a further
call under the discipline makes the free list longer only if it is the `kfree`
of a page `p` whose count it takes from 1 to 0, the new list being `p` in front
of the former one. -/
theorem discipline_invariant (L : Layout) (hL : L.WF) (s : KState)
    (h : Reachable L (boundedDiscipline L) s) :
    ∃ l, FreeList s l ∧ l.Nodup ∧ (∀ q ∈ l, getref L s q = 0) ∧
      (∀ q, Managed L q → q ∉ l → 1 ≤ getref L s q) ∧
      ∀ (op : Op) (s' : KState) (l' : List Nat), boundedDiscipline L s op →
        step L op s = .done s' → FreeList s' l' → l'.length = l.length + 1 →
        ∃ p, op = Op.kfree p ∧ getref L s p = 1 ∧ getref L s' p = 0 ∧ l' = p :: l := by
  obtain ⟨l, hp, hc⟩ := reachable_counts L hL s h
  refine ⟨l, hp.1, chain_nodup s.mem l _ hp.1.1, hc.1, hc.2, ?_⟩
  intro op s' l' hal hst hfl hlen
  obtain ⟨l2, hp2, _, hpush⟩ := step_counts L hL s s' l hp hc op hal hst
  have e := freeList_unique s' l' l2 hfl hp2.1
  subst e
  exact hpush hlen

/-- C18 (amended) at a concrete reachable state: `kinit` on the all-zero boot
state followed by one `kalloc`. -/
theorem discipline_invariant_witness :
    ∃ l, FreeList (kalloc sampleLayout (kinit sampleLayout zeroState).state).2 l ∧ l.Nodup ∧
      ∀ q ∈ l,
        getref sampleLayout (kalloc sampleLayout (kinit sampleLayout zeroState).state).2 q = 0 :=
  (discipline_invariant sampleLayout (by decide) _
    (reachable_kinit_kalloc sampleLayout (by decide) (by decide)
      (boundedDiscipline sampleLayout)
      (boundedDiscipline_kalloc sampleLayout) zeroState)).elim
    fun l h => ⟨l, h.1, h.2.1, h.2.2.1⟩

/-! ## Runs that leave the caller discipline -/

theorem runOps_nil (L : Layout) (s : KState) : runOps L [] s = .done s := rfl

theorem load64_fill5 (m : Mem) (p : Nat) :
    load64 (memset m p 5 PGSIZE) p = 0x0505050505050505 := by
  rw [load64_eq, memset_inside m p 5 PGSIZE p (le_refl _) (by unfold PGSIZE; omega),
    memset_inside m p 5 PGSIZE (p + 1) (by omega) (by unfold PGSIZE; omega),
    memset_inside m p 5 PGSIZE (p + 2) (by omega) (by unfold PGSIZE; omega),
    memset_inside m p 5 PGSIZE (p + 3) (by omega) (by unfold PGSIZE; omega),
    memset_inside m p 5 PGSIZE (p + 4) (by omega) (by unfold PGSIZE; omega),
    memset_inside m p 5 PGSIZE (p + 5) (by omega) (by unfold PGSIZE; omega),
    memset_inside m p 5 PGSIZE (p + 6) (by omega) (by unfold PGSIZE; omega),
    memset_inside m p 5 PGSIZE (p + 7) (by omega) (by unfold PGSIZE; omega)]

/-- With at least one allocatable page and `PHYSTOP` below `2^64 - PGSIZE`,
`kinit` returns a pool whose head is the highest page, with all counts zero. -/
theorem kinit_head (L : Layout) (hL : L.WF) (hT : L.PHYSTOP + PGSIZE < U64)
    (hpage : PGROUNDUP L.kernel_end + PGSIZE ≤ L.PHYSTOP) (s0 : KState) :
    ∃ s1 rest, kinit L s0 = .done s1 ∧ PoolInv L s1 ((L.PHYSTOP - PGSIZE) :: rest) ∧
      (∀ i, i < MAX_PAGE_COUNT L → s1.ref_count i = 0) ∧
      PGROUNDUP L.kernel_end + s1.npage * PGSIZE = L.PHYSTOP := by
  obtain ⟨n, s1, hk, hn, _, hnp, _⟩ := kinit_freelist L hL hT s0
  obtain ⟨s, hs, _, hf⟩ := kinit_done L hL hT s0
  have e : s = s1 := by
    rw [hs] at hk
    injection hk
  subst e
  obtain ⟨l, hp, hz, _⟩ := kinit_pool L hL s0 s hs
  have hf1 := hf hpage
  cases l with
  | nil =>
    have h0 := hp.1.1
    unfold Chain at h0
    have hk0 := hL.2.2.2.2.1
    have hr := PGROUNDUP_spec L.kernel_end (by
      obtain ⟨_, hp', _, hke, _, hu, _⟩ := hL
      unfold PGSIZE U64 at *
      omega)
    unfold PGSIZE at *
    omega
  | cons p rest =>
    have hc := hp.1.1
    unfold Chain at hc
    have e : p = L.PHYSTOP - PGSIZE := by rw [← hc.1, hf1]
    rw [e] at hp
    exact ⟨s, rest, hs, hp, hz, by rw [hnp]; exact hn⟩

/-- `kalloc` when the head of the free list is the managed page `p`. -/
theorem kalloc_at (L : Layout) (hL : L.WF) (s : KState) (p : Nat) (hm : Managed L p)
    (hf : s.freelist = p) :
    (kalloc L s).1 = p ∧ (kalloc L s).2.freelist = load64 s.mem p ∧
      (kalloc L s).2.ref_count ((p - L.KERNBASE) / PGSIZE) = 1 ∧
      load64 (kalloc L s).2.mem p = 0x0505050505050505 ∧
      (kalloc L s).2.npage = (s.npage + U64 - 1) % U64 := by
  have hr := managed_range L hL p hm
  rw [kalloc_eq L hL s (hf ▸ hr.2.2.1) (hf ▸ hr.1) (hf ▸ hr.2.1), hf]
  exact ⟨rfl, rfl, Function.update_same _ _ _, load64_fill5 _ _, rfl⟩

/-- `kfree` of a managed page whose count is 1 or 0: the page becomes the head,
its link is the former head, its count is 0 and `kmem.npage` is incremented. -/
theorem kfree_reclaims (L : Layout) (hL : L.WF) (s : KState) (p : Nat) (hm : Managed L p)
    (hc : s.ref_count ((p - L.KERNBASE) / PGSIZE) = 1 ∨
      s.ref_count ((p - L.KERNBASE) / PGSIZE) = 0) :
    ∃ s', kfree L p s = .done s' ∧ s'.freelist = p ∧ load64 s'.mem p = s.freelist % U64 ∧
      s'.ref_count ((p - L.KERNBASE) / PGSIZE) = 0 ∧ s'.npage = (s.npage + 1) % U64 ∧
      (∀ a, p + 8 ≤ a → a < p + PGSIZE → s'.mem a = 1) := by
  have hfill : ∀ (t : KState) a, p + 8 ≤ a → a < p + PGSIZE → (kfreePush p t).mem a = 1 := by
    intro t a h1 h2
    show store64 (memset t.mem p 1 PGSIZE) p t.freelist a = 1
    rw [store64_outside _ _ _ _ (Or.inr h1), memset_inside _ _ _ _ _ (by omega) h2]
  rw [kfree_eq L hL s p hm.1 hm.2.1 hm.2.2]
  rcases hc with hc | hc
  · rw [hc, if_neg (by decide), if_pos rfl]
    exact ⟨_, rfl, rfl, load64_store64 _ _ _, Function.update_same _ _ _, rfl, hfill _⟩
  · rw [hc, if_neg (by decide), if_neg (by decide)]
    exact ⟨_, rfl, rfl, load64_store64 _ _ _, hc, rfl, hfill _⟩

/-- Double free: from a state whose free-list head is the managed page `p`, the
calls `kalloc`, `kfree p`, `kfree p` leave `p` as head and as its
own successor, with `kmem.npage` one more than at the start; two further calls
of `kalloc` leave the fill pattern `0x0505050505050505` as head. -/
theorem double_free_run (L : Layout) (hL : L.WF) (s1 : KState) (p : Nat) (hm : Managed L p)
    (hf : s1.freelist = p) (hn : 0 < s1.npage) (hn2 : s1.npage + 1 < U64) :
    (∃ s4, runOps L [Op.kalloc, Op.kfree p, Op.kfree p] s1 = .done s4 ∧ s4.freelist = p ∧
      load64 s4.mem p = p ∧ s4.npage = s1.npage + 1) ∧
    (∃ s6, runOps L [Op.kalloc, Op.kfree p, Op.kfree p, Op.kalloc, Op.kalloc] s1 = .done s6 ∧
      s6.freelist = 0x0505050505050505) := by
  have hr := managed_range L hL p hm
  obtain ⟨_, _, h2c, _, h2n⟩ := kalloc_at L hL s1 p hm hf
  obtain ⟨s3, hk3, h3f, _, h3c, h3n, _⟩ := kfree_reclaims L hL (kalloc L s1).2 p hm (Or.inl h2c)
  obtain ⟨s4, hk4, h4f, h4l, _, h4n, _⟩ := kfree_reclaims L hL s3 p hm (Or.inr h3c)
  have h4l' : load64 s4.mem p = p := by
    rw [h4l, h3f, Nat.mod_eq_of_lt hr.2.2.2]
  obtain ⟨_, h5f, _, h5l, _⟩ := kalloc_at L hL s4 p hm h4f
  obtain ⟨_, h6f, _, _, _⟩ := kalloc_at L hL (kalloc L s4).2 p hm (h5f.trans h4l')
  constructor
  · refine ⟨s4, ?_, h4f, h4l', ?_⟩
    · rw [runOps_cons, step_kalloc, andThen_done, runOps_cons, step_kfree, hk3, andThen_done,
        runOps_cons, step_kfree, hk4, andThen_done, runOps_nil]
    · rw [h4n, h3n, h2n]
      unfold U64 at *
      omega
  · refine ⟨(kalloc L (kalloc L s4).2).2, ?_, h6f.trans h5l⟩
    rw [runOps_cons, step_kalloc, andThen_done, runOps_cons, step_kfree, hk3, andThen_done,
      runOps_cons, step_kfree, hk4, andThen_done, runOps_cons, step_kalloc, andThen_done,
      runOps_cons, step_kalloc, andThen_done, runOps_nil]

/-- A state whose free-list head is its own successor has no finite free list. -/
theorem no_chain_of_self_loop (m : Mem) (p : Nat) (hp : p ≠ 0) (hl : load64 m p = p) :
    ∀ l, ¬ Chain m p l := by
  intro l hc
  cases l with
  | nil =>
    unfold Chain at hc
    exact hp hc
  | cons q rest =>
    have hc' := hc
    unfold Chain at hc'
    have e : q = p := hc'.1.symm
    subst e
    rw [hl] at hc'
    have := chain_unique m _ _ q hc hc'.2.2
    have hlen := congrArg List.length this
    rw [List.length_cons] at hlen
    omega

/-- The run `kalloc`, `decref p` from the state after `kinit`: the highest page
`p` is taken from the free list and its count is lowered back to 0. -/
theorem kalloc_decref_run (L : Layout) (hL : L.WF) (s1 : KState) (p : Nat) (rest : List Nat)
    (hp : PoolInv L s1 (p :: rest)) :
    ∃ s, runOps L [Op.kalloc, Op.decref p] s1 = .done s ∧ FreeList s rest ∧ p ∉ rest ∧
      getref L s p = 0 := by
  have hm := hp.2.1 p (List.mem_cons_self _ _)
  have hr := managed_range L hL p hm
  obtain ⟨_, hp2, hnot, hrc⟩ := kalloc_pool L hL s1 p rest hp
  have hc2 : (kalloc L s1).2.ref_count ((p - L.KERNBASE) / PGSIZE) = 1 := by
    rw [hrc]
    exact Function.update_same _ _ _
  have hf := decref_frame L p (kalloc L s1).2
  refine ⟨decref L p (kalloc L s1).2, ?_, ?_, hnot, ?_⟩
  · rw [runOps_cons, step_kalloc, andThen_done, runOps_cons, step_decref, andThen_done,
      runOps_nil]
  · exact (poolInv_congr L _ _ rest hf.1 hf.2.2 hf.2.1 hp2).1
  · rw [getref_managed L hL _ p hm, decref_eq L hL _ p hr.1 hr.2.1, if_pos (by rw [hc2]; decide),
      hc2]
    exact Function.update_same _ _ _

theorem callerDiscipline_kalloc (L : Layout) (s : KState) : callerDiscipline L s Op.kalloc :=
  ⟨fun _ h => Op.noConfusion h, fun _ h => Op.noConfusion h, fun _ h => Op.noConfusion h⟩

/-- Repeated `incref` of a managed page under the caller discipline: as long as
the count is at least 1 before each call, every call is allowed, and `n` calls
add `n` to the count modulo `2^32`, leaving `kmem` and memory untouched. -/
theorem incref_run_disciplined (L : Layout) (hL : L.WF) (p : Nat) (hm : Managed L p) :
    ∀ (n : Nat) (s : KState), Reachable L (callerDiscipline L) s →
      (n = 0 ∨ (1 ≤ s.ref_count ((p - L.KERNBASE) / PGSIZE) ∧
        s.ref_count ((p - L.KERNBASE) / PGSIZE) + (n : Int) ≤ 2147483648)) →
      toInt32 (s.ref_count ((p - L.KERNBASE) / PGSIZE)) = s.ref_count ((p - L.KERNBASE) / PGSIZE) →
      ∃ s', runOps L (List.replicate n (Op.incref p)) s = .done s' ∧
        Reachable L (callerDiscipline L) s' ∧
        s'.ref_count ((p - L.KERNBASE) / PGSIZE) =
          toInt32 (s.ref_count ((p - L.KERNBASE) / PGSIZE) + (n : Int)) ∧
        s'.freelist = s.freelist ∧ s'.mem = s.mem
  | 0, s, hs, _, ht => ⟨s, rfl, hs, by rw [Int.natCast_zero, Int.add_zero, ht], rfl, rfl⟩
  | n + 1, s, hs, hb, _ => by
    have hr := managed_range L hL p hm
    have hb' : 1 ≤ s.ref_count ((p - L.KERNBASE) / PGSIZE) ∧
        s.ref_count ((p - L.KERNBASE) / PGSIZE) + ((n + 1 : Nat) : Int) ≤ 2147483648 := by
      rcases hb with h | h
      · exact absurd h (Nat.succ_ne_zero n)
      · exact h
    have hinc : (incref L p s).ref_count ((p - L.KERNBASE) / PGSIZE) =
        toInt32 (s.ref_count ((p - L.KERNBASE) / PGSIZE) + 1) := by
      rw [incref_eq L hL s p hr.1 hr.2.1]
      exact Function.update_same _ _ _
    have hal : callerDiscipline L s (Op.incref p) :=
      ⟨fun _ h => Op.noConfusion h,
        fun pa h => by
          have e : p = pa := by injection h
          rw [← e, getref_managed L hL s p hm]
          exact ⟨hm, hb'.1⟩,
        fun _ h => Op.noConfusion h⟩
    have hs1 : Reachable L (callerDiscipline L) (incref L p s) :=
      Reachable.call s _ (Op.incref p) hs hal (step_incref L p s)
    have hf := incref_frame L p s
    obtain ⟨s', hrun, hs', hc, hfl, hmem⟩ :=
      incref_run_disciplined L hL p hm n (incref L p s) hs1 (by
        by_cases hn : n = 0
        · exact Or.inl hn
        · right
          rw [hinc]
          obtain ⟨h1, h2⟩ := hb'
          push_cast at h2
          unfold toInt32
          omega) (by rw [hinc, toInt32_idem])
    refine ⟨s', ?_, hs', ?_, hfl.trans hf.1, hmem.trans hf.2.2⟩
    · rw [List.replicate_succ, runOps_cons, step_incref, andThen_done]
      exact hrun
    · rw [hc, hinc, toInt32_succ]

/-- Over-sharing within the caller discipline: after `kinit`, one `kalloc` and
`n <= 2^31 - 1` calls of `incref` on the returned page, all allowed by the
discipline, the page is off the free list and its count is `1 + n` reduced to an
`int`. -/
theorem oversharing_run (L : Layout) (hL : L.WF) (hT : L.PHYSTOP + PGSIZE < U64)
    (hpage : PGROUNDUP L.kernel_end + PGSIZE ≤ L.PHYSTOP) (s0 : KState) (n : Nat)
    (hn : n ≤ 2147483647) :
    ∃ s l, (kinit L s0).andThen
        (runOps L (Op.kalloc :: List.replicate n (Op.incref (L.PHYSTOP - PGSIZE)))) = .done s ∧
      Reachable L (callerDiscipline L) s ∧ FreeList s l ∧ Managed L (L.PHYSTOP - PGSIZE) ∧
      (L.PHYSTOP - PGSIZE) ∉ l ∧ getref L s (L.PHYSTOP - PGSIZE) = toInt32 (1 + (n : Int)) := by
  obtain ⟨s1, rest, hk, hp, _, _⟩ := kinit_head L hL hT hpage s0
  have hm := hp.2.1 _ (List.mem_cons_self _ _)
  obtain ⟨_, hp2, hnot, hrc⟩ := kalloc_pool L hL s1 _ rest hp
  have hc2 : (kalloc L s1).2.ref_count ((L.PHYSTOP - PGSIZE - L.KERNBASE) / PGSIZE) = 1 := by
    rw [hrc]
    exact Function.update_same _ _ _
  have hs2 : Reachable L (callerDiscipline L) (kalloc L s1).2 :=
    Reachable.call s1 _ Op.kalloc (Reachable.init s0 s1 hk) (callerDiscipline_kalloc L s1)
      (step_kalloc L s1)
  obtain ⟨s, hrun, hs, hc, hfl, hmem⟩ :=
    incref_run_disciplined L hL _ hm n (kalloc L s1).2 hs2 (by
      right
      rw [hc2]
      omega) (by rw [hc2]; decide)
  refine ⟨s, rest, ?_, hs, ⟨by rw [hmem, hfl]; exact hp2.1.1, hp2.1.2⟩, hm, hnot, ?_⟩
  · rw [hk, andThen_done, runOps_cons, step_kalloc, andThen_done]
    exact hrun
  · rw [getref_managed L hL s _ hm, hc, hc2]

/-- C18 fails as stated (the discipline does not bound `incref`): on
`sampleLayout`, after `kinit`, one `kalloc` and `2147483647` calls of `incref`
on the returned page `0x87FFF000`, each applied to a managed page whose count is
at least 1, the page is managed, is not on the free list, and its count is
`INT_MIN`, not at least 1. -/
theorem discipline_invariant_counterexample :
    ∃ s l, (kinit sampleLayout zeroState).andThen
        (runOps sampleLayout
          (Op.kalloc :: List.replicate 2147483647 (Op.incref (sampleLayout.PHYSTOP - PGSIZE))))
        = .done s ∧
      Reachable sampleLayout (callerDiscipline sampleLayout) s ∧ FreeList s l ∧
      Managed sampleLayout (sampleLayout.PHYSTOP - PGSIZE) ∧
      (sampleLayout.PHYSTOP - PGSIZE) ∉ l ∧
      getref sampleLayout s (sampleLayout.PHYSTOP - PGSIZE) = -2147483648 :=
  (oversharing_run sampleLayout (by decide) (by decide) (by decide) zeroState 2147483647
    (le_refl _)).elim
    fun s hs => hs.elim fun l h =>
      ⟨s, l, h.1, h.2.1, h.2.2.1, h.2.2.2.1, h.2.2.2.2.1, h.2.2.2.2.2.trans (by decide)⟩

/-- C11 fails as stated (any finite sequence of calls): on `sampleLayout`, after
`kinit`, `kalloc` (which returns the highest page, `0x87FFF000`) and `decref` of
that page, the page is managed, is not on the free list, and has count 0: it is
neither free nor allocated. -/
theorem conservation_counterexample :
    ∃ s l, (kinit sampleLayout zeroState).andThen
        (runOps sampleLayout [Op.kalloc, Op.decref (sampleLayout.PHYSTOP - PGSIZE)]) = .done s ∧
      Reachable sampleLayout anyCall s ∧ FreeList s l ∧
      Managed sampleLayout (sampleLayout.PHYSTOP - PGSIZE) ∧
      (sampleLayout.PHYSTOP - PGSIZE) ∉ l ∧
      getref sampleLayout s (sampleLayout.PHYSTOP - PGSIZE) = 0 := by
  obtain ⟨s1, rest, hk, hp, _, _⟩ := kinit_head sampleLayout (by decide) (by decide) (by decide)
    zeroState
  obtain ⟨s, hr, hfl, hnot, hg⟩ := kalloc_decref_run sampleLayout (by decide) s1 _ rest hp
  refine ⟨s, rest, ?_, reachable_runOps _ _ s1 s (Reachable.init _ _ hk) hr, hfl,
    hp.2.1 _ (List.mem_cons_self _ _), hnot, hg⟩
  rw [hk, andThen_done]
  exact hr

/-- Double free after `kinit`, on a layout with `PHYSTOP` below `2^64 - PGSIZE`
and at least one allocatable page `p = PHYSTOP - PGSIZE`: the calls `kalloc`, `kfree p`, `kfree p` reach a state
whose free-list head `p` is its own successor while `kmem.npage` is one more
than the number of managed pages; two further calls of `kalloc` reach a state
whose free-list head is the fill pattern `0x0505050505050505`. -/
theorem double_free_after_kinit (L : Layout) (hL : L.WF) (hT : L.PHYSTOP + PGSIZE < U64)
    (hpage : PGROUNDUP L.kernel_end + PGSIZE ≤ L.PHYSTOP) (s0 : KState) :
    (∃ s, (kinit L s0).andThen (runOps L [Op.kalloc, Op.kfree (L.PHYSTOP - PGSIZE),
        Op.kfree (L.PHYSTOP - PGSIZE)]) = .done s ∧ Reachable L anyCall s ∧
      s.freelist = L.PHYSTOP - PGSIZE ∧
      load64 s.mem (L.PHYSTOP - PGSIZE) = L.PHYSTOP - PGSIZE ∧
      PGROUNDUP L.kernel_end + s.npage * PGSIZE = L.PHYSTOP + PGSIZE) ∧
    (∃ s, (kinit L s0).andThen (runOps L [Op.kalloc, Op.kfree (L.PHYSTOP - PGSIZE),
        Op.kfree (L.PHYSTOP - PGSIZE), Op.kalloc, Op.kalloc]) = .done s ∧
      Reachable L anyCall s ∧ s.freelist = 0x0505050505050505) := by
  obtain ⟨s1, rest, hk, hp, _, hnp⟩ := kinit_head L hL hT hpage s0
  have hm := hp.2.1 _ (List.mem_cons_self _ _)
  have hf : s1.freelist = L.PHYSTOP - PGSIZE := by
    have := hp.1.1
    unfold Chain at this
    exact this.1
  have hu := hL.2.2.2.2.2.1
  obtain ⟨⟨s4, hr4, h4f, h4l, h4n⟩, ⟨s6, hr6, h6f⟩⟩ :=
    double_free_run L hL s1 _ hm hf (by unfold PGSIZE at *; omega)
      (by unfold PGSIZE U64 at *; omega)
  constructor
  · refine ⟨s4, ?_, reachable_runOps _ _ s1 s4 (Reachable.init _ _ hk) hr4, h4f, h4l, ?_⟩
    · rw [hk, andThen_done]
      exact hr4
    · rw [h4n, Nat.succ_mul]
      omega
  · refine ⟨s6, ?_, reachable_runOps _ _ s1 s6 (Reachable.init _ _ hk) hr6, h6f⟩
    rw [hk, andThen_done]
    exact hr6

/-- C12 fails as stated (any finite sequence of calls): on `sampleLayout`, after
`kinit`, `kalloc` (which returns `0x87FFF000`), `kfree` of that page twice and
`kalloc` twice, the head of the free list is `0x0505050505050505`: not null, not
a multiple of `PGSIZE`, not in `[kernel_end, PHYSTOP)`; it is what the next
`kalloc` returns, and the state has no free list of pages at all. -/
theorem freelist_entries_managed_counterexample :
    ∃ s, (kinit sampleLayout zeroState).andThen
        (runOps sampleLayout [Op.kalloc, Op.kfree (sampleLayout.PHYSTOP - PGSIZE),
          Op.kfree (sampleLayout.PHYSTOP - PGSIZE), Op.kalloc, Op.kalloc]) = .done s ∧
      Reachable sampleLayout anyCall s ∧ s.freelist = 0x0505050505050505 ∧
      (kalloc sampleLayout s).1 = 0x0505050505050505 ∧
      ¬ Managed sampleLayout 0x0505050505050505 ∧ ∀ l, ¬ FreeList s l := by
  obtain ⟨s, hr, hs, hf⟩ :=
    (double_free_after_kinit sampleLayout (by decide) (by decide) (by decide) zeroState).2
  refine ⟨s, hr, hs, hf, by rw [kalloc_fst, hf], by decide, fun l hl => ?_⟩
  obtain ⟨hc, hal⟩ := hl
  cases l with
  | nil =>
    unfold Chain at hc
    rw [hf] at hc
    exact absurd hc (by decide)
  | cons q rest =>
    unfold Chain at hc
    have hq := hal q (List.mem_cons_self _ _)
    rw [← hc.1, hf] at hq
    exact absurd hq (by decide)

/-- C15 fails as stated (any finite sequence of calls): on `sampleLayout`
(31744 managed pages), after `kinit`, `kalloc` (which returns `0x87FFF000`) and
`kfree` of that page twice, the free list is the page `0x87FFF000` linked to
itself (there is no finite list of entries), while `kmem.npage` is 31745 and
`freemem_amount` returns `31745 * 4096`. -/
theorem npage_counts_freelist_counterexample :
    ∃ s, (kinit sampleLayout zeroState).andThen
        (runOps sampleLayout [Op.kalloc, Op.kfree (sampleLayout.PHYSTOP - PGSIZE),
          Op.kfree (sampleLayout.PHYSTOP - PGSIZE)]) = .done s ∧
      Reachable sampleLayout anyCall s ∧
      s.freelist = sampleLayout.PHYSTOP - PGSIZE ∧
      load64 s.mem (sampleLayout.PHYSTOP - PGSIZE) = sampleLayout.PHYSTOP - PGSIZE ∧
      (∀ l, ¬ FreeList s l) ∧ s.npage = 31745 ∧ freemem_amount s = 130027520 := by
  obtain ⟨s, hr, hs, hf, hl, hn⟩ :=
    (double_free_after_kinit sampleLayout (by decide) (by decide) (by decide) zeroState).1
  have hP : PGROUNDUP sampleLayout.kernel_end = 2151677952 := by decide
  have hT : sampleLayout.PHYSTOP = 2281701376 := rfl
  have hnp : s.npage = 31745 := by
    rw [hP, hT] at hn
    unfold PGSIZE at hn
    omega
  refine ⟨s, hr, hs, hf, hl, fun l h => ?_, hnp, ?_⟩
  · exact no_chain_of_self_loop s.mem _ (by decide) hl l (hf ▸ h.1)
  · unfold freemem_amount
    rw [hnp]
    decide

/-! ## C14: pool exhaustion -/

theorem kallocN_succ (L : Layout) (n : Nat) (s : KState) :
    kallocN L (n + 1) s =
      ((kalloc L s).1 :: (kallocN L n (kalloc L s).2).1, (kallocN L n (kalloc L s).2).2) := rfl

/-- `kalloc` on a free list of managed pages (whatever `kmem.npage` is): the head
is returned and leaves the list, its count becomes 1 and nothing else in the
table changes. -/
theorem kalloc_list (L : Layout) (hL : L.WF) (s : KState) (p : Nat) (rest : List Nat)
    (hfl : FreeList s (p :: rest)) (hman : Managed L p) :
    (kalloc L s).1 = p ∧ FreeList (kalloc L s).2 rest ∧ p ∉ rest ∧
      (kalloc L s).2.ref_count = Function.update s.ref_count ((p - L.KERNBASE) / PGSIZE) 1 := by
  obtain ⟨hc, hal⟩ := hfl
  have hc' := hc
  unfold Chain at hc'
  obtain ⟨hhead, hp0, hrest⟩ := hc'
  have hr := managed_range L hL p hman
  have hnot : p ∉ rest := chain_head_not_mem s.mem p rest (hhead ▸ hc)
  have hrest_al : ∀ q ∈ rest, q % PGSIZE = 0 := fun q hq => hal q (List.mem_cons_of_mem _ hq)
  rw [kalloc_eq L hL s (hhead ▸ hp0) (hhead ▸ hr.1) (hhead ▸ hr.2.1), hhead]
  exact ⟨rfl, ⟨chain_memset_page s.mem p 5 _ rest (hal p (List.mem_cons_self _ _)) hrest_al
    hnot hrest, hrest_al⟩, hnot, rfl⟩

/-- Allocating as many pages as the free list holds: the pages are returned in
list order, the list ends up empty, each returned page has count 1 and the
counts of the other managed pages are unchanged. -/
theorem kallocN_list (L : Layout) (hL : L.WF) :
    ∀ (l : List Nat) (s : KState), FreeList s l → (∀ q ∈ l, Managed L q) →
      (kallocN L l.length s).1 = l ∧ FreeList (kallocN L l.length s).2 [] ∧
      (∀ a ∈ l, getref L (kallocN L l.length s).2 a = 1) ∧
      (∀ q, Managed L q → q ∉ l → getref L (kallocN L l.length s).2 q = getref L s q)
  | [], s, hfl, _ => ⟨rfl, hfl, fun _ h => absurd h (List.not_mem_nil _), fun _ _ _ => rfl⟩
  | p :: rest, s, hfl, hman => by
    have hp := hman p (List.mem_cons_self _ _)
    obtain ⟨h1, hfl2, hnot, hrc⟩ := kalloc_list L hL s p rest hfl hp
    obtain ⟨ih1, ih2, ih3, ih4⟩ := kallocN_list L hL rest (kalloc L s).2 hfl2
      (fun q hq => hman q (List.mem_cons_of_mem _ hq))
    rw [List.length_cons, kallocN_succ]
    refine ⟨?_, ih2, fun a ha => ?_, fun q hq hql => ?_⟩
    · show (kalloc L s).1 :: (kallocN L rest.length (kalloc L s).2).1 = p :: rest
      rw [h1, ih1]
    · show getref L (kallocN L rest.length (kalloc L s).2).2 a = 1
      rcases List.mem_cons.mp ha with e | ha
      · rw [e, ih4 p hp hnot, getref_update L hL s _ p p 1 hp hp hrc, if_pos rfl]
      · exact ih3 a ha
    · show getref L (kallocN L rest.length (kalloc L s).2).2 q = getref L s q
      have hne : q ≠ p := fun e => hql (e ▸ List.mem_cons_self _ _)
      rw [ih4 q hq (fun h => hql (List.mem_cons_of_mem _ h)),
        getref_update L hL s _ p q 1 hp hq hrc, if_neg hne]

/-- C14 fails as stated when the range ends at the last page boundary of the
address space.  On `topLayout` (`PHYSTOP = 2^64 - PGSIZE`), from the all-zero
state, the range `[0xFFFFFFFFFFFFC000, 0xFFFFFFFFFFFFF000)` holds exactly three
whole pages, all inside `[kernel_end, PHYSTOP)`; `freerange` pushes them, then
the sum `0xFFFFFFFFFFFFF000 + PGSIZE` of the loop test wraps to 0, the test
passes and `kfree(0xFFFFFFFFFFFFF000)` panics: `freerange` does not return, and
no `kalloc` follows. -/
theorem pool_exhaustion_counterexample :
    topLayout.WF ∧ zeroState.freelist = 0 ∧
    (∀ i, i < MAX_PAGE_COUNT topLayout → zeroState.ref_count i = 0) ∧
    PGROUNDUP 0xFFFFFFFFFFFFC000 = 0xFFFFFFFFFFFFC000 ∧
    topLayout.kernel_end ≤ 0xFFFFFFFFFFFFC000 ∧ 0xFFFFFFFFFFFFF000 ≤ topLayout.PHYSTOP ∧
    (∀ k, k < 3 ↔ 0xFFFFFFFFFFFFC000 + k * PGSIZE + PGSIZE ≤ 0xFFFFFFFFFFFFF000) ∧
    Managed topLayout 0xFFFFFFFFFFFFC000 ∧ Managed topLayout 0xFFFFFFFFFFFFD000 ∧
    Managed topLayout 0xFFFFFFFFFFFFE000 ∧
    (0xFFFFFFFFFFFFF000 + PGSIZE) % U64 = 0 ∧
    (∀ s, kfree topLayout 0xFFFFFFFFFFFFF000 s = .panic s) ∧
    freerange topLayout 0xFFFFFFFFFFFFC000 0xFFFFFFFFFFFFF000 zeroState =
      .panic (kfreePush 0xFFFFFFFFFFFFE000 (kfreePush 0xFFFFFFFFFFFFD000
        (kfreePush 0xFFFFFFFFFFFFC000 zeroState))) ∧
    ∀ s1, freerange topLayout 0xFFFFFFFFFFFFC000 0xFFFFFFFFFFFFF000 zeroState ≠ .done s1 := by
  have hr : PGROUNDUP 0xFFFFFFFFFFFFC000 = 0xFFFFFFFFFFFFC000 := by decide
  have hrun : freerange topLayout 0xFFFFFFFFFFFFC000 0xFFFFFFFFFFFFF000 zeroState =
      .panic (kfreePush 0xFFFFFFFFFFFFE000 (kfreePush 0xFFFFFFFFFFFFD000
        (kfreePush 0xFFFFFFFFFFFFC000 zeroState))) := by
    unfold freerange
    rw [hr]
    exact freerangeLoop_topLayout zeroState (fun _ => rfl)
  refine ⟨by decide, rfl, fun _ _ => rfl, hr, by decide, by decide, fun k => ?_, by decide,
    by decide, by decide, by decide, fun s => ?_, hrun, fun s1 h => ?_⟩
  · unfold PGSIZE
    omega
  · unfold kfree
    rw [if_pos (Or.inr (Or.inr (by decide)))]
  · rw [hrun] at h
    exact KResult.noConfusion h

/-- C14, amended (pool exhaustion without pointer wrap): from a state with empty
free list and all counts zero (`kmem.npage` being a `uint64`), after `freerange`
over a range with `kernel_end <= PGROUNDUP(pa_start)` and `pa_end <= PHYSTOP`,
both `PGROUNDUP(pa_start)` and `pa_end` below `2^64 - PGSIZE`, that holds exactly
`n` whole pages, `freerange` returns and `n` calls of `kalloc` return the `n`
pages of the range (highest first): `n` pairwise distinct non-zero addresses,
each with `getref = 1`; the next `kalloc` returns 0; and after `kfree` of any
one of the `n` addresses (which returns) the next `kalloc` returns that
address. -/
theorem pool_exhaustion (L : Layout) (hL : L.WF) (s : KState) (pa_start pa_end n : Nat)
    (hempty : s.freelist = 0) (hz : ∀ i, i < MAX_PAGE_COUNT L → s.ref_count i = 0)
    (hnp : s.npage < U64) (hlo : L.kernel_end ≤ PGROUNDUP pa_start) (hhi : pa_end ≤ L.PHYSTOP)
    (hq : PGROUNDUP pa_start + PGSIZE < U64) (he : pa_end + PGSIZE < U64)
    (hn : ∀ k, k < n ↔ PGROUNDUP pa_start + k * PGSIZE + PGSIZE ≤ pa_end) :
    ∃ s1, freerange L pa_start pa_end s = .done s1 ∧
      (kallocN L n s1).1 = (pagesFrom (PGROUNDUP pa_start) n).reverse ∧
      (kallocN L n s1).1.length = n ∧ (kallocN L n s1).1.Nodup ∧
      (∀ a ∈ (kallocN L n s1).1, a ≠ 0 ∧ getref L (kallocN L n s1).2 a = 1) ∧
      (kalloc L (kallocN L n s1).2).1 = 0 ∧
      ∀ a ∈ (kallocN L n s1).1,
        ∃ s3, kfree L a (kalloc L (kallocN L n s1).2).2 = .done s3 ∧ (kalloc L s3).1 = a := by
  have hal := PGROUNDUP_aligned pa_start
  have h1 : n = 0 ∨ PGROUNDUP pa_start + n * PGSIZE ≤ pa_end := by
    by_cases h0 : n = 0
    · exact Or.inl h0
    · right
      have := (hn (n - 1)).mp (by omega)
      have e : n * PGSIZE = (n - 1) * PGSIZE + PGSIZE := by
        rw [← Nat.succ_mul, Nat.succ_eq_add_one, Nat.sub_add_cancel (Nat.pos_of_ne_zero h0)]
      omega
  have h2 : pa_end < PGROUNDUP pa_start + n * PGSIZE + PGSIZE := by
    have := mt (hn n).mpr (lt_irrefl n)
    omega
  obtain ⟨s1, hk, hrc, _, hseg, _, _, _⟩ :=
    freerangeLoop_seg L hL pa_end hhi n freerangeFuel (PGROUNDUP pa_start) s
      (by
        rcases h1 with h0 | h1
        · rw [h0]; unfold freerangeFuel; decide
        · unfold freerangeFuel PGSIZE U64 at *; omega)
      (by
        rcases h1 with h0 | h1
        · rw [h0, Nat.zero_mul, Nat.add_zero]; exact hq
        · omega)
      hal hlo h1 h2 hz (by rw [hempty]; decide) hnp
  rw [hempty] at hseg
  have hfl : FreeList s1 (pagesFrom (PGROUNDUP pa_start) n).reverse :=
    ⟨(chain_iff_seg _ _ _).mpr hseg, fun q hq =>
      pagesFrom_aligned _ _ hal q (List.mem_reverse.mp hq)⟩
  have hman : ∀ q ∈ (pagesFrom (PGROUNDUP pa_start) n).reverse, Managed L q := by
    intro q hq
    obtain ⟨k, hk', e⟩ := (mem_pagesFrom n _ q).mp (List.mem_reverse.mp hq)
    have := (hn k).mp hk'
    unfold Managed
    unfold PGSIZE at *
    omega
  have hlen : (pagesFrom (PGROUNDUP pa_start) n).reverse.length = n := by
    rw [List.length_reverse, length_pagesFrom]
  obtain ⟨k1, k2, k3, _⟩ := kallocN_list L hL _ s1 hfl hman
  rw [hlen] at k1 k2 k3
  have hfree0 : (kallocN L n s1).2.freelist = 0 := by
    have := k2.1
    unfold Chain at this
    exact this
  refine ⟨s1, hk, k1, ?_, ?_, ?_, ?_, ?_⟩
  · rw [k1, hlen]
  · rw [k1]
    exact List.nodup_reverse.mpr (nodup_pagesFrom _ _)
  · intro a ha
    rw [k1] at ha
    exact ⟨(managed_range L hL a (hman a ha)).2.2.1, k3 a ha⟩
  · rw [kalloc_fst]
    exact hfree0
  · intro a ha
    rw [k1] at ha
    have hm := hman a ha
    rw [kalloc_empty L _ hfree0]
    obtain ⟨s3, hk3, hf3, _⟩ := kfree_reclaims L hL (kallocN L n s1).2 a hm
      (Or.inl (by rw [← getref_managed L hL _ a hm]; exact k3 a ha))
    exact ⟨s3, hk3, by rw [kalloc_fst]; exact hf3⟩

/-- C14 (amended) at a concrete input, the scenario of the spec with three pages: the range
`[0x87FFD000, 0x88000000)` of `sampleLayout`, from the all-zero state. -/
theorem pool_exhaustion_witness :
    ∃ s1, freerange sampleLayout 0x87FFD000 0x88000000 zeroState = .done s1 ∧
      (kallocN sampleLayout 3 s1).1 = [0x87FFF000, 0x87FFE000, 0x87FFD000] ∧
      (kallocN sampleLayout 3 s1).1.length = 3 ∧ (kallocN sampleLayout 3 s1).1.Nodup ∧
      (∀ a ∈ (kallocN sampleLayout 3 s1).1,
        a ≠ 0 ∧ getref sampleLayout (kallocN sampleLayout 3 s1).2 a = 1) ∧
      (kalloc sampleLayout (kallocN sampleLayout 3 s1).2).1 = 0 ∧
      ∀ a ∈ (kallocN sampleLayout 3 s1).1,
        ∃ s3, kfree sampleLayout a (kalloc sampleLayout (kallocN sampleLayout 3 s1).2).2
            = .done s3 ∧ (kalloc sampleLayout s3).1 = a :=
  pool_exhaustion sampleLayout (by decide) zeroState 0x87FFD000 0x88000000 3 rfl
    (fun _ _ => rfl) (by decide) (by decide) (by decide) (by decide) (by decide)
    (fun k => by
      have e : PGROUNDUP 0x87FFD000 = 0x87FFD000 := by decide
      rw [e]
      unfold PGSIZE
      omega)

/-- The events of `kfree` on an abstract index. -/
theorem kfreeLocks_aux (L : Layout) (idx : Int) (c : Int) :
    LockDisciplined
      (if idxValid L idx then
        if (if c > 0 then c - 1 else c) > 0 then
          [LockEvent.acquire Lock.page_ref, LockEvent.release Lock.page_ref]
        else
          [LockEvent.acquire Lock.page_ref, LockEvent.release Lock.page_ref,
            LockEvent.acquire Lock.kmem, LockEvent.release Lock.kmem]
      else
        [LockEvent.acquire Lock.page_ref, LockEvent.release Lock.page_ref,
          LockEvent.acquire Lock.kmem, LockEvent.release Lock.kmem]) := by
  split_ifs <;> decide

/-- C16 (lock discipline): replaying the `acquire`/`release` events of any call
of `kalloc`, `kfree`, `incref`, `decref` or `getref`, on any state and address
and along whichever path the call takes (the `panic` exit and the early return
of `kfree` included), no lock is acquired while a lock is held, only the held
lock is released, and no lock is held when the call ends; `freemem_amount`
has no lock event.  The paths are those of the operations: `kfree` has no lock
event exactly when it panics, and `kalloc` takes `page_ref.lock` exactly when
it returns a page. -/
theorem lock_discipline (L : Layout) (s : KState) (pa : Nat) :
    LockDisciplined (kallocLocks L s) ∧ LockDisciplined (kfreeLocks L pa s) ∧
    LockDisciplined (increfLocks L pa s) ∧ LockDisciplined (decrefLocks L pa s) ∧
    LockDisciplined (getrefLocks L s pa) ∧ freemem_amountLocks s = [] ∧
    (kfreeLocks L pa s = [] ↔ kfree L pa s = .panic s) ∧
    (LockEvent.acquire Lock.page_ref ∈ kallocLocks L s ↔ (kalloc L s).1 ≠ 0) := by
  refine ⟨?_, ?_, by unfold increfLocks; decide, by unfold decrefLocks; decide,
    by unfold getrefLocks; decide, rfl, ?_, ?_⟩
  · unfold kallocLocks
    split_ifs <;> decide
  · unfold kfreeLocks
    dsimp only
    generalize pa2index L pa = idx
    generalize s.ref_count idx.toNat = c
    by_cases hg : pa % PGSIZE ≠ 0 ∨ pa < L.kernel_end ∨ pa ≥ L.PHYSTOP
    · rw [if_pos hg]
      decide
    · rw [if_neg hg]
      exact kfreeLocks_aux L idx c
  · by_cases hg : pa % PGSIZE ≠ 0 ∨ pa < L.kernel_end ∨ pa ≥ L.PHYSTOP
    · constructor
      · intro _
        unfold kfree
        rw [if_pos hg]
      · intro _
        unfold kfreeLocks
        rw [if_pos hg]
    · obtain ⟨t, ht⟩ := kfree_done_of_accepted L pa s hg
      constructor
      · intro h
        exfalso
        revert h
        unfold kfreeLocks
        dsimp only
        generalize pa2index L pa = idx
        generalize s.ref_count idx.toNat = c
        rw [if_neg hg]
        split_ifs <;> exact id
      · intro h
        rw [ht] at h
        exact KResult.noConfusion h
  · rw [kalloc_fst]
    unfold kallocLocks
    by_cases h : s.freelist ≠ 0
    · rw [if_pos h]
      exact ⟨fun _ => h, fun _ => by decide⟩
    · rw [if_neg h]
      exact ⟨fun hm => absurd hm (by decide), fun hc => absurd hc h⟩

/-! ## C17: debug fill patterns -/

/-- Memory and head after a successful `kalloc`: the page is filled with 5 and
the new head is the link word read before the fill. -/
theorem kalloc_mem (L : Layout) (s : KState) (h : s.freelist ≠ 0) :
    (kalloc L s).2.mem = memset s.mem s.freelist 5 PGSIZE ∧
      (kalloc L s).2.freelist = load64 s.mem s.freelist := by
  unfold kalloc
  dsimp only
  generalize pa2index L s.freelist = idx
  generalize idx.toNat = k
  rw [if_pos h]
  by_cases h2 : idxValid L idx
  · rw [if_pos h2]
    exact ⟨rfl, rfl⟩
  · rw [if_neg h2]
    exact ⟨rfl, rfl⟩

/-- `kfree` of a managed page whose count is at most 1 takes the reclaiming
path: junk fill, link, new head, `npage++`. -/
theorem kfree_reclaims_le (L : Layout) (hL : L.WF) (s : KState) (p : Nat) (hm : Managed L p)
    (hc : s.ref_count ((p - L.KERNBASE) / PGSIZE) ≤ 1) :
    ∃ s', kfree L p s = .done s' ∧ s'.freelist = p ∧
      s'.mem = store64 (memset s.mem p 1 PGSIZE) p s.freelist ∧
      s'.npage = (s.npage + 1) % U64 := by
  rw [kfree_eq L hL s p hm.1 hm.2.1 hm.2.2, if_neg (not_lt.mpr hc)]
  by_cases h1 : s.ref_count ((p - L.KERNBASE) / PGSIZE) = 1
  · rw [if_pos h1]
    exact ⟨_, rfl, rfl, rfl, rfl⟩
  · rw [if_neg h1]
    exact ⟨_, rfl, rfl, rfl, rfl⟩

/-- `kfree` of a managed page whose count is at least 2 only lowers the count. -/
theorem kfree_shared (L : Layout) (hL : L.WF) (s : KState) (p : Nat) (hm : Managed L p)
    (hc : 2 ≤ s.ref_count ((p - L.KERNBASE) / PGSIZE)) :
    kfree L p s = .done (decref L p s) ∧
      decref L p s = { s with ref_count := (Function.update s.ref_count
        ((p - L.KERNBASE) / PGSIZE) (s.ref_count ((p - L.KERNBASE) / PGSIZE) - 1)) } := by
  have hr := managed_range L hL p hm
  rw [kfree_eq L hL s p hm.1 hm.2.1 hm.2.2, decref_eq L hL s p hr.1 hr.2.1,
    if_pos (by omega), if_pos (by omega)]
  exact ⟨rfl, rfl⟩

/-- C17 (debug fill patterns).  After a successful `kalloc` (non-empty free
list) the call returns the head, every one of the 4096 bytes of the returned
page is 5, the link word included, and the new head is the link word read
before the fill.  After a `kfree` that reclaims the page (a managed page whose
count is at most 1) every byte of the page beyond the 8-byte link word is 1 and
the link word holds the previous head (a `uint64`).  A `kfree` that returns
early (count at least 2) leaves all memory untouched.  The fill bytes 5 and 1
are non-zero and differ. -/
theorem debug_fill_patterns (L : Layout) (hL : L.WF) (s : KState) :
    (s.freelist ≠ 0 →
      (kalloc L s).1 = s.freelist ∧
      (∀ a, s.freelist ≤ a → a < s.freelist + PGSIZE → (kalloc L s).2.mem a = 5) ∧
      load64 (kalloc L s).2.mem s.freelist = 0x0505050505050505 ∧
      (kalloc L s).2.freelist = load64 s.mem s.freelist) ∧
    (∀ p, Managed L p → getref L s p ≤ 1 →
      ∃ s', kfree L p s = .done s' ∧ s'.freelist = p ∧
        (∀ a, p + 8 ≤ a → a < p + PGSIZE → s'.mem a = 1) ∧
        load64 s'.mem p = s.freelist % U64) ∧
    (∀ p, Managed L p → 2 ≤ getref L s p →
      ∃ s', kfree L p s = .done s' ∧ s'.mem = s.mem) ∧
    ((5 : Nat) ≠ 0 ∧ (1 : Nat) ≠ 0 ∧ (5 : Nat) ≠ 1) := by
  refine ⟨fun h => ?_, fun p hm hc => ?_, fun p hm hc => ?_, by decide, by decide, by decide⟩
  · obtain ⟨hmem, hfl⟩ := kalloc_mem L s h
    refine ⟨kalloc_fst L s, fun a h1 h2 => ?_, ?_, hfl⟩
    · rw [hmem]
      exact memset_inside _ _ _ _ _ h1 h2
    · rw [hmem]
      exact load64_fill5 _ _
  · rw [getref_managed L hL s p hm] at hc
    obtain ⟨s', hk, hf, hmem, _⟩ := kfree_reclaims_le L hL s p hm hc
    refine ⟨s', hk, hf, fun a h1 h2 => ?_, ?_⟩
    · rw [hmem, store64_outside _ _ _ _ (Or.inr h1), memset_inside _ _ _ _ _ (by omega) h2]
    · rw [hmem]
      exact load64_store64 _ _ _
  · rw [getref_managed L hL s p hm] at hc
    obtain ⟨hk, hd⟩ := kfree_shared L hL s p hm hc
    exact ⟨_, hk, by rw [hd]⟩

/-- C17 at concrete states of `sampleLayout`: `kalloc` on the two-page list, and
`kfree` of the page `0x87FFF000` with count 1 and with count 2. -/
theorem debug_fill_patterns_witness :
    ((kalloc sampleLayout (twoPages 0)).1 = 0x87FFF000 ∧
      (kalloc sampleLayout (twoPages 0)).2.mem 0x87FFF000 = 5 ∧
      (kalloc sampleLayout (twoPages 0)).2.mem 0x87FFFFFF = 5 ∧
      (kalloc sampleLayout (twoPages 0)).2.freelist = 0x87FFE000) ∧
    (∃ s', kfree sampleLayout 0x87FFF000 (onePage 1) = .done s' ∧ s'.mem 0x87FFF008 = 1 ∧
      s'.mem 0x87FFFFFF = 1 ∧ load64 s'.mem 0x87FFF000 = 0) ∧
    (∃ s', kfree sampleLayout 0x87FFF000 (onePage 2) = .done s' ∧ s'.mem = (onePage 2).mem) := by
  have h := debug_fill_patterns sampleLayout (by decide)
  refine ⟨?_, ?_, ?_⟩
  · obtain ⟨h1, h2, _, h4⟩ := (h (twoPages 0)).1 (by decide)
    exact ⟨h1, h2 0x87FFF000 (by decide) (by decide), h2 0x87FFFFFF (by decide) (by decide),
      h4.trans (by decide)⟩
  · obtain ⟨s', hk, _, h2, h3⟩ := (h (onePage 1)).2.1 0x87FFF000 (by decide) (by decide)
    exact ⟨s', hk, h2 0x87FFF008 (by decide) (by decide), h2 0x87FFFFFF (by decide) (by decide),
      h3⟩
  · exact (h (onePage 2)).2.2.1 0x87FFF000 (by decide) (by decide)

/-! ## C19: `kfree` and `decref` -/

/-- The tail of `kfree` is the junk fill followed by the push. -/
theorem kfreePush_eq (pa : Nat) (s : KState) : kfreePush pa s = specPush pa (junkFill pa s) := rfl

/-- The push with and without the junk fill: same counts, head, `kmem.npage`,
link word and memory outside the page; with the fill, the bytes of the page
beyond the link word are 1. -/
theorem specPush_junkFill (p : Nat) (d : KState) :
    (specPush p (junkFill p d)).ref_count = (specPush p d).ref_count ∧
    (specPush p (junkFill p d)).freelist = (specPush p d).freelist ∧
    (specPush p (junkFill p d)).npage = (specPush p d).npage ∧
    load64 (specPush p (junkFill p d)).mem p = load64 (specPush p d).mem p ∧
    (∀ a, a < p ∨ p + PGSIZE ≤ a →
      (specPush p (junkFill p d)).mem a = (specPush p d).mem a) ∧
    (∀ a, p + 8 ≤ a → a < p + PGSIZE → (specPush p (junkFill p d)).mem a = 1) := by
  refine ⟨rfl, rfl, rfl, ?_, fun a ha => ?_, fun a h1 h2 => ?_⟩
  · show load64 (store64 (memset d.mem p 1 PGSIZE) p d.freelist) p
      = load64 (store64 d.mem p d.freelist) p
    rw [load64_store64, load64_store64]
  · show store64 (memset d.mem p 1 PGSIZE) p d.freelist a = store64 d.mem p d.freelist a
    have h8 : a < p ∨ p + 8 ≤ a := by
      unfold PGSIZE at ha
      omega
    rw [store64_outside _ _ _ _ h8, store64_outside _ _ _ _ h8, memset_outside _ _ _ _ _ ha]
  · show store64 (memset d.mem p 1 PGSIZE) p d.freelist a = 1
    rw [store64_outside _ _ _ _ (Or.inr h1), memset_inside _ _ _ _ _ (by omega) h2]

/-- `kfree` of a managed page whose count is 1: `decref` and then the tail of
`kfree`. -/
theorem kfree_last_owner (L : Layout) (hL : L.WF) (s : KState) (p : Nat) (hm : Managed L p)
    (hc : s.ref_count ((p - L.KERNBASE) / PGSIZE) = 1) :
    kfree L p s = .done (kfreePush p (decref L p s)) ∧
      decref L p s =
        { s with ref_count := Function.update s.ref_count ((p - L.KERNBASE) / PGSIZE) 0 } := by
  have hr := managed_range L hL p hm
  rw [kfree_eq L hL s p hm.1 hm.2.1 hm.2.2, decref_eq L hL s p hr.1 hr.2.1, hc,
    if_neg (by decide), if_pos rfl, if_pos (by decide)]
  exact ⟨rfl, rfl⟩

/-- C19, the statement fails on the page contents: in `sampleLayout`, with the
page `0x87FFF000` (count 1, all bytes 0) and an empty free list, `kfree` returns
a state in which the byte at `0x87FFF008` is the junk byte 1, whereas `decref`
followed by the push and `npage++` leaves that byte 0. -/
theorem kfree_refines_decref_counterexample :
    Managed sampleLayout 0x87FFF000 ∧ getref sampleLayout (onePage 1) 0x87FFF000 = 1 ∧
    ∃ s', kfree sampleLayout 0x87FFF000 (onePage 1) = .done s' ∧
      s'.mem 0x87FFF008 = 1 ∧
      (specDecrefThenPush sampleLayout 0x87FFF000 (onePage 1)).mem 0x87FFF008 = 0 ∧
      s' ≠ specDecrefThenPush sampleLayout 0x87FFF000 (onePage 1) := by
  have hm : Managed sampleLayout 0x87FFF000 := by decide
  have hL : sampleLayout.WF := by decide
  obtain ⟨hk, hd⟩ := kfree_last_owner sampleLayout hL (onePage 1) 0x87FFF000 hm (by decide)
  have h1 : (kfreePush 0x87FFF000 (decref sampleLayout 0x87FFF000 (onePage 1))).mem 0x87FFF008
      = 1 := by
    show store64 (memset (decref sampleLayout 0x87FFF000 (onePage 1)).mem 0x87FFF000 1 PGSIZE)
      0x87FFF000 (decref sampleLayout 0x87FFF000 (onePage 1)).freelist 0x87FFF008 = 1
    rw [store64_outside _ _ _ _ (Or.inr (by decide)),
      memset_inside _ _ _ _ _ (by decide) (by decide)]
  have h0 : (specDecrefThenPush sampleLayout 0x87FFF000 (onePage 1)).mem 0x87FFF008 = 0 := by
    show store64 (decref sampleLayout 0x87FFF000 (onePage 1)).mem 0x87FFF000
      (decref sampleLayout 0x87FFF000 (onePage 1)).freelist 0x87FFF008 = 0
    rw [store64_outside _ _ _ _ (Or.inr (by decide)), hd]
    rfl
  refine ⟨hm, by decide, _, hk, h1, h0, fun e => ?_⟩
  have e' := congrFun (congrArg KState.mem e) 0x87FFF008
  rw [h1, h0] at e'
  exact absurd e' (by decide)

/-- C19, amended (`kfree` refines `decref`): for a managed page `p` (page-aligned,
in `[kernel_end, PHYSTOP)`): with a count of at least 2, `kfree p` returns
exactly the state of `decref p`, in which the count is one less and
`kmem.freelist`, `kmem.npage` and all memory are unchanged; with count 1,
`kfree p` returns the state of `decref p` followed by the junk fill of the page
with the byte 1, the push of `p` and `npage++`; that state agrees with
`decref p` followed by the push and `npage++` alone on all counts (that of `p`
being 0), on the head, on `kmem.npage`, on the link word of `p` and on all
memory outside the page, and has the byte 1 in the page beyond the link word. -/
theorem kfree_refines_decref (L : Layout) (hL : L.WF) (s : KState) (p : Nat)
    (hm : Managed L p) :
    (2 ≤ getref L s p →
      kfree L p s = .done (decref L p s) ∧
      getref L (decref L p s) p = getref L s p - 1 ∧
      (decref L p s).freelist = s.freelist ∧ (decref L p s).npage = s.npage ∧
      (decref L p s).mem = s.mem) ∧
    (getref L s p = 1 →
      kfree L p s = .done (specPush p (junkFill p (decref L p s))) ∧
      getref L (decref L p s) p = 0 ∧
      (specPush p (junkFill p (decref L p s))).ref_count
        = (specDecrefThenPush L p s).ref_count ∧
      (specPush p (junkFill p (decref L p s))).freelist = (specDecrefThenPush L p s).freelist ∧
      (specPush p (junkFill p (decref L p s))).npage = (specDecrefThenPush L p s).npage ∧
      load64 (specPush p (junkFill p (decref L p s))).mem p
        = load64 (specDecrefThenPush L p s).mem p ∧
      (∀ a, a < p ∨ p + PGSIZE ≤ a →
        (specPush p (junkFill p (decref L p s))).mem a = (specDecrefThenPush L p s).mem a) ∧
      (∀ a, p + 8 ≤ a → a < p + PGSIZE →
        (specPush p (junkFill p (decref L p s))).mem a = 1)) := by
  have hr := managed_range L hL p hm
  have hg := getref_managed L hL s p hm
  constructor
  · intro hc
    rw [hg] at hc
    obtain ⟨hk, hd⟩ := kfree_shared L hL s p hm hc
    refine ⟨hk, ?_, ?_, ?_, ?_⟩
    · rw [getref_managed L hL _ p hm, hg, hd]
      exact Function.update_same _ _ _
    · rw [hd]
    · rw [hd]
    · rw [hd]
  · intro hc
    rw [hg] at hc
    obtain ⟨hk, hd⟩ := kfree_last_owner L hL s p hm hc
    rw [kfreePush_eq] at hk
    refine ⟨hk, ?_, ?_⟩
    · rw [getref_managed L hL _ p hm, hd]
      exact Function.update_same _ _ _
    · unfold specDecrefThenPush
      exact specPush_junkFill p (decref L p s)

/-- C19 (amended) at concrete states of `sampleLayout`: the page `0x87FFF000`
shared by two owners, and owned once. -/
theorem kfree_refines_decref_witness :
    (kfree sampleLayout 0x87FFF000 sharedPage
        = .done (decref sampleLayout 0x87FFF000 sharedPage) ∧
      getref sampleLayout (decref sampleLayout 0x87FFF000 sharedPage) 0x87FFF000 = 1) ∧
    (kfree sampleLayout 0x87FFF000 (onePage 1) = .done (specPush 0x87FFF000
        (junkFill 0x87FFF000 (decref sampleLayout 0x87FFF000 (onePage 1)))) ∧
      getref sampleLayout (decref sampleLayout 0x87FFF000 (onePage 1)) 0x87FFF000 = 0) :=
  by
  have h1 := (kfree_refines_decref sampleLayout (by decide) sharedPage 0x87FFF000
    (by decide)).1 (by decide)
  have h2 := (kfree_refines_decref sampleLayout (by decide) (onePage 1) 0x87FFF000
    (by decide)).2 (by decide)
  exact ⟨⟨h1.1, h1.2.1.trans (by decide)⟩, ⟨h2.1, h2.2.1⟩⟩

/-! ## C20: table slots -/

/-- C20, the statement fails for large memories, although the layouts satisfy
its assumptions (`KERNBASE <= kernel_end <= PHYSTOP`, `KERNBASE` and `PHYSTOP`
page-aligned, 64-bit addresses).  In `hugeLayout` (16 TiB) the page-aligned
address `0x80080000000` of `[KERNBASE, PHYSTOP)` has the page number `2^31`,
which `pa2index` returns as the `int` `-2147483648`: truncated, and outside
`[0, MAX_PAGE_COUNT)`.  In `bigLayout` (4 GiB) the page-aligned address
`0x100000000` has the valid index `524288`, but `index2pa` computes
`524288 * 4096` as an `int` and returns 0, not the address. -/
theorem table_slots_counterexample :
    (hugeLayout.KERNBASE ≤ hugeLayout.kernel_end ∧ hugeLayout.kernel_end ≤ hugeLayout.PHYSTOP ∧
      hugeLayout.KERNBASE % PGSIZE = 0 ∧ hugeLayout.PHYSTOP % PGSIZE = 0 ∧
      hugeLayout.PHYSTOP < U64 ∧
      0x80080000000 % PGSIZE = 0 ∧ hugeLayout.KERNBASE ≤ 0x80080000000 ∧
      0x80080000000 < hugeLayout.PHYSTOP ∧
      (0x80080000000 - hugeLayout.KERNBASE) / PGSIZE = 2147483648 ∧
      pa2index hugeLayout 0x80080000000 = -2147483648 ∧
      ¬ idxValid hugeLayout (pa2index hugeLayout 0x80080000000)) ∧
    (bigLayout.KERNBASE ≤ bigLayout.kernel_end ∧ bigLayout.kernel_end ≤ bigLayout.PHYSTOP ∧
      bigLayout.KERNBASE % PGSIZE = 0 ∧ bigLayout.PHYSTOP % PGSIZE = 0 ∧
      bigLayout.PHYSTOP < U64 ∧
      0x100000000 % PGSIZE = 0 ∧ bigLayout.KERNBASE ≤ 0x100000000 ∧
      0x100000000 < bigLayout.PHYSTOP ∧
      pa2index bigLayout 0x100000000 = 524288 ∧
      idxValid bigLayout (pa2index bigLayout 0x100000000) ∧
      index2pa bigLayout (pa2index bigLayout 0x100000000) = 0 ∧
      index2pa bigLayout (pa2index bigLayout 0x100000000) ≠ 0x100000000) := by
  decide

/-- C20, amended (each manageable page has its own table slot): assuming
`KERNBASE <= kernel_end <= PHYSTOP` with `KERNBASE` and `PHYSTOP` page-aligned,
`PHYSTOP` a 64-bit address and `MAX_PAGE_COUNT <= 2^31`, for every page-aligned
`pa` in `[KERNBASE, PHYSTOP)`: `pa2index pa` lies in `[0, MAX_PAGE_COUNT)` and
equals `(pa - KERNBASE) / PGSIZE` without truncation; `pa2index` is injective
on such addresses; `index2pa (pa2index pa) = pa` when `pa - KERNBASE < 2^31`
(every page when the memory above `KERNBASE` is at most 2 GiB); and the
addresses that `kfree` accepts (the managed pages, among them the pages that
`kalloc` returns from a free list of managed pages) have valid, pairwise
distinct table indexes. -/
theorem table_slots (L : Layout) (hL : L.WF) (pa : Nat) (hal : pa % PGSIZE = 0)
    (h1 : L.KERNBASE ≤ pa) (h2 : pa < L.PHYSTOP) :
    0 ≤ pa2index L pa ∧ pa2index L pa < (MAX_PAGE_COUNT L : Int) ∧
    pa2index L pa = (((pa - L.KERNBASE) / PGSIZE : Nat) : Int) ∧
    (∀ pb, pb % PGSIZE = 0 → L.KERNBASE ≤ pb → pb < L.PHYSTOP →
      pa2index L pb = pa2index L pa → pb = pa) ∧
    (pa - L.KERNBASE < 2147483648 → index2pa L (pa2index L pa) = pa) ∧
    (L.PHYSTOP - L.KERNBASE ≤ 2147483648 → index2pa L (pa2index L pa) = pa) ∧
    (∀ p q, Managed L p → Managed L q →
      idxValid L (pa2index L p) ∧ (pa2index L p = pa2index L q → p = q)) := by
  obtain ⟨e, hlt⟩ := pa2index_inrange L hL pa h1 h2
  have hv := idxValid_inrange L hL pa h1 h2
  have hinj : ∀ a b, a % PGSIZE = 0 → L.KERNBASE ≤ a → a < L.PHYSTOP →
      b % PGSIZE = 0 → L.KERNBASE ≤ b → b < L.PHYSTOP →
      pa2index L a = pa2index L b → a = b := by
    intro a b ha1 ha2 ha3 hb1 hb2 hb3 hab
    rw [(pa2index_inrange L hL a ha2 ha3).1, (pa2index_inrange L hL b hb2 hb3).1] at hab
    have hab' : (a - L.KERNBASE) / PGSIZE = (b - L.KERNBASE) / PGSIZE := by exact_mod_cast hab
    have hk := hL.1
    unfold PGSIZE at *
    omega
  have hround : pa - L.KERNBASE < 2147483648 → index2pa L (pa2index L pa) = pa := by
    intro hsz
    have hk := hL.1
    have hu := hL.2.2.2.2.2.1
    have hmul : (pa - L.KERNBASE) / PGSIZE * PGSIZE = pa - L.KERNBASE := by
      unfold PGSIZE at *
      omega
    have hcast : ((((pa - L.KERNBASE) / PGSIZE : Nat) : Int)) * (PGSIZE : Int)
        = ((pa - L.KERNBASE : Nat) : Int) := by
      exact_mod_cast hmul
    unfold index2pa
    rw [e, hcast, toInt32_of_lt _ hsz]
    unfold U64 at *
    omega
  refine ⟨hv.1, hv.2, e, fun pb hb1 hb2 hb3 hab => hinj pb pa hb1 hb2 hb3 hal h1 h2 hab, hround,
    fun hsz => hround (by omega), fun p q hp hq => ?_⟩
  have hp' := managed_range L hL p hp
  have hq' := managed_range L hL q hq
  exact ⟨idxValid_inrange L hL p hp'.1 hp'.2.1,
    hinj p q hp.1 hp'.1 hp'.2.1 hq.1 hq'.1 hq'.2.1⟩

/-- C20 (amended) at a concrete input: the highest page of `sampleLayout`. -/
theorem table_slots_witness :
    pa2index sampleLayout 0x87FFF000 = 32255 ∧
    index2pa sampleLayout (pa2index sampleLayout 0x87FFF000) = 0x87FFF000 ∧
    idxValid sampleLayout (pa2index sampleLayout 0x87FFF000) := by
  have h := table_slots sampleLayout (by decide) 0x87FFF000 (by decide) (by decide) (by decide)
  exact ⟨h.2.2.1.trans (by decide), h.2.2.2.2.1 (by decide), ⟨h.1, h.2.1⟩⟩

end KAlloc
